import Mathlib

/-!
# Verification of the JSON-pointer core of `itzcull/json-utils`

Shallow embedding of the library's pointer codec, navigator, mutator,
comparator and patch applier (from `src/pointer.ts`, `src/mutator.ts`,
`src/compare.ts`, `src/predicate.ts`/`query.ts`), together with proofs and
refutations of the specification's claims about them.

Modelling conventions:
* A JavaScript JSON value is modelled by `JSVal`.  Array elements are
  `Option JSVal`, where `none` models an array *hole* (a missing index slot,
  as produced by assigning past the end of a JS array); holes read back as
  `undefined`.
* Numbers are modelled as exact integers (`Int`).  None of the claims under
  study depends on IEEE-754 rounding; the numeric strings that matter are
  integer literals of modest size.
* Functions that can `throw` return `Except JErr _`; `undefined` results are
  `Option`.
* JS object property tables are association lists in insertion order, which
  is exactly the enumeration order of `Object.keys` for the string keys
  produced here.  Property assignment replaces in place; a new key appends.
* Writing to a JS array at a *negative* or `≥ 2^32-1` numeric key creates a
  non-index property that is invisible to every read performed by this
  library (`length`-based indexing, `every`, `forEach`, `Object.keys` on
  non-arrays, `JSON.stringify`); the model therefore drops such writes.
-/

namespace JsonUtils

/-- A JavaScript value of JSON shape.  `arr` elements are `Option`al: `none`
is an array hole (reads as `undefined`). -/
inductive JSVal where
  | null
  | bool (b : Bool)
  | num (n : Int)
  | str (s : String)
  | arr (xs : List (Option JSVal))
  | obj (fs : List (String × JSVal))
deriving Repr

mutual

/-- Structural (boolean) equality on `JSVal`. -/
def beqVal : JSVal → JSVal → Bool
  | .null, .null => true
  | .bool a, .bool b => a == b
  | .num a, .num b => a == b
  | .str a, .str b => a == b
  | .arr xs, .arr ys => beqArr xs ys
  | .obj fs, .obj gs => beqObj fs gs
  | _, _ => false

/-- Structural equality on array element lists. -/
def beqArr : List (Option JSVal) → List (Option JSVal) → Bool
  | [], [] => true
  | none :: xs, none :: ys => beqArr xs ys
  | some a :: xs, some b :: ys => beqVal a b && beqArr xs ys
  | _, _ => false

/-- Structural equality on object field lists. -/
def beqObj : List (String × JSVal) → List (String × JSVal) → Bool
  | [], [] => true
  | (k, v) :: fs, (l, w) :: gs => k == l && beqVal v w && beqObj fs gs
  | _, _ => false

end

mutual

theorem beqVal_iff (a b : JSVal) : beqVal a b = true ↔ a = b := by
  cases a <;> cases b <;>
    simp_all [beqVal, beqArr_iff, beqObj_iff]

theorem beqArr_iff (xs ys : List (Option JSVal)) : beqArr xs ys = true ↔ xs = ys := by
  match xs, ys with
  | [], [] => simp [beqArr]
  | none :: xs, none :: ys => simp [beqArr, beqArr_iff xs ys]
  | some a :: xs, some b :: ys =>
    simp [beqArr, beqVal_iff a b, beqArr_iff xs ys]
  | [], _ :: _ => simp [beqArr]
  | _ :: _, [] => simp [beqArr]
  | none :: _, some _ :: _ => simp [beqArr]
  | some _ :: _, none :: _ => simp [beqArr]

theorem beqObj_iff (fs gs : List (String × JSVal)) : beqObj fs gs = true ↔ fs = gs := by
  match fs, gs with
  | [], [] => simp [beqObj]
  | (k, v) :: fs, (l, w) :: gs =>
    simp [beqObj, beqVal_iff v w, beqObj_iff fs gs, Prod.ext_iff]
  | [], _ :: _ => simp [beqObj]
  | _ :: _, [] => simp [beqObj]

end

instance : DecidableEq JSVal := fun a b =>
  decidable_of_iff (beqVal a b = true) (beqVal_iff a b)

/-- Errors thrown by the library (`throw new Error(...)`), by kind. -/
inductive JErr where
  | invalidPointer (p : String)
  | invalidObject
  | invalidValue
  | circularReference
  | cannotDeleteRoot
  | missingValue (op : String)
  | pathNotFound (p : String)
  | sourcePathNotFound (p : String)
  | missingFrom (op : String)
  | testFailed (p : String)
  | unknownOperation (op : String)
  | cannotRemoveRoot
  | stackOverflow
deriving Repr, DecidableEq

namespace Codec

/-- `segment.replace(/~/g, '~0')`: every `~` becomes `~0`. -/
def replTilde : List Char → List Char
  | [] => []
  | c :: cs => if c = '~' then '~' :: '0' :: replTilde cs else c :: replTilde cs

/-- `segment.replace(/\//g, '~1')`: every `/` becomes `~1`. -/
def replSlash : List Char → List Char
  | [] => []
  | c :: cs => if c = '/' then '~' :: '1' :: replSlash cs else c :: replSlash cs

/-- `segment.replace(/~1/g, '/')`: leftmost non-overlapping `~1` become `/`. -/
def repl21 : List Char → List Char
  | [] => []
  | [c] => [c]
  | a :: b :: cs =>
    if a = '~' ∧ b = '1' then '/' :: repl21 cs else a :: repl21 (b :: cs)

/-- `segment.replace(/~0/g, '~')`: leftmost non-overlapping `~0` become `~`. -/
def repl20 : List Char → List Char
  | [] => []
  | [c] => [c]
  | a :: b :: cs =>
    if a = '~' ∧ b = '0' then '~' :: repl20 cs else a :: repl20 (b :: cs)

end Codec

/-- `encodePointer` (src/pointer.ts): escape one segment,
`~ → ~0` then `/ → ~1`. -/
def encodePointer (s : String) : String :=
  ⟨Codec.replSlash (Codec.replTilde s.data)⟩

/-- `decodePointer` (src/pointer.ts): unescape one segment,
`~1 → /` then `~0 → ~`. -/
def decodePointer (s : String) : String :=
  ⟨Codec.repl20 (Codec.repl21 s.data)⟩

namespace Codec

theorem repl21_cons_ne {c : Char} (h : c ≠ '~') (cs : List Char) :
    repl21 (c :: cs) = c :: repl21 cs := by
  cases cs with
  | nil => rfl
  | cons b cs => simp only [repl21]; rw [if_neg]; rintro ⟨h1, _⟩; exact h h1

theorem repl20_cons_ne {c : Char} (h : c ≠ '~') (cs : List Char) :
    repl20 (c :: cs) = c :: repl20 cs := by
  cases cs with
  | nil => rfl
  | cons b cs => simp only [repl20]; rw [if_neg]; rintro ⟨h1, _⟩; exact h h1

/-- Decoding inverts encoding, character-list version. -/
theorem decode_encode_chars : ∀ cs : List Char,
    repl20 (repl21 (replSlash (replTilde cs))) = cs := by
  intro cs
  induction cs with
  | nil => rfl
  | cons c cs ih =>
    by_cases hc : c = '~'
    · subst hc
      -- encode: '~' ↦ '~' :: '0' :: rest, and '0' passes through replSlash
      have h1 : replTilde ('~' :: cs) = '~' :: '0' :: replTilde cs := by
        simp [replTilde]
      have h2 : replSlash ('~' :: '0' :: replTilde cs)
          = '~' :: '0' :: replSlash (replTilde cs) := by
        simp [replSlash]
      rw [h1, h2]
      -- decode: repl21 leaves '~0' alone, repl20 contracts it
      have h3 : repl21 ('~' :: '0' :: replSlash (replTilde cs))
          = '~' :: repl21 ('0' :: replSlash (replTilde cs)) := by
        simp [repl21]
      rw [h3, repl21_cons_ne (by decide) _]
      have h4 : repl20 ('~' :: '0' :: repl21 (replSlash (replTilde cs)))
          = '~' :: repl20 (repl21 (replSlash (replTilde cs))) := by
        simp [repl20]
      rw [h4, ih]
    · by_cases hs : c = '/'
      · subst hs
        have h1 : replTilde ('/' :: cs) = '/' :: replTilde cs := by
          simp [replTilde]
        have h2 : replSlash ('/' :: replTilde cs)
            = '~' :: '1' :: replSlash (replTilde cs) := by
          simp [replSlash]
        rw [h1, h2]
        have h3 : repl21 ('~' :: '1' :: replSlash (replTilde cs))
            = '/' :: repl21 (replSlash (replTilde cs)) := by
          simp [repl21]
        rw [h3, repl20_cons_ne (by decide) _, ih]
      · have h1 : replTilde (c :: cs) = c :: replTilde cs := by
          simp [replTilde, hc]
        have h2 : replSlash (c :: replTilde cs) = c :: replSlash (replTilde cs) := by
          simp [replSlash, hs]
        rw [h1, h2, repl21_cons_ne hc _, repl20_cons_ne hc _, ih]

end Codec

/-- C8: for every string `s`, `decodePointer (encodePointer s) = s`. -/
theorem decode_encode (s : String) : decodePointer (encodePointer s) = s := by
  cases s with
  | mk data =>
    show String.mk (Codec.repl20 (Codec.repl21 (Codec.replSlash (Codec.replTilde data)))) = _
    rw [Codec.decode_encode_chars]

/-! ## `Number.parseInt` and friends -/

/-- The whitespace characters skipped by `Number.parseInt` (the common members
of the `\s` class; exotic Unicode space separators are omitted, none of which
occur in the strings of interest). -/
def isJsWs (c : Char) : Bool :=
  c = ' ' ∨ c = '\t' ∨ c = '\n' ∨ c = '\r' ∨ c = '\x0b' ∨ c = '\x0c'
    ∨ c = ' ' ∨ c = '﻿'

def decDigitVal (c : Char) : Option Nat :=
  if '0' ≤ c ∧ c ≤ '9' then some (c.toNat - '0'.toNat) else none

def hexDigitVal (c : Char) : Option Nat :=
  if '0' ≤ c ∧ c ≤ '9' then some (c.toNat - '0'.toNat)
  else if 'a' ≤ c ∧ c ≤ 'f' then some (c.toNat - 'a'.toNat + 10)
  else if 'A' ≤ c ∧ c ≤ 'F' then some (c.toNat - 'A'.toNat + 10)
  else none

/-- Longest run of digits in the given base; `none` when no digit was
consumed (`parseInt` returns `NaN` then). -/
def parseDigitsAux (dv : Char → Option Nat) (base : Nat) :
    List Char → Option Nat → Option Nat
  | [], acc => acc
  | c :: cs, acc =>
    match dv c with
    | some d => parseDigitsAux dv base cs (some (acc.getD 0 * base + d))
    | none => acc

/-- `Number.parseInt`, exact-integer model (`auto = true` means no radix
argument, so a leading `0x` selects base 16).  `none` models `NaN`.
Magnitudes are kept exact rather than rounded to IEEE-754 doubles; the
divergence only matters for numeral strings of hundreds of digits. -/
def jsParseIntCore (auto : Bool) (cs : List Char) : Option Int :=
  let cs1 := cs.dropWhile isJsWs
  let sign : Int := if cs1.head? = some '-' then -1 else 1
  let cs2 := if cs1.head? = some '-' ∨ cs1.head? = some '+' then cs1.tail else cs1
  let hex := auto = true ∧ (cs2.take 2 = ['0', 'x'] ∨ cs2.take 2 = ['0', 'X'])
  let cs3 := if hex then cs2.drop 2 else cs2
  match (if hex then parseDigitsAux hexDigitVal 16 cs3 none
         else parseDigitsAux decDigitVal 10 cs3 none) with
  | none => none
  | some n => some (sign * n)

/-- `Number.parseInt(s)` (no radix). -/
def jsParseInt (s : String) : Option Int := jsParseIntCore true s.data

/-- `Number.parseInt(s, 10)`. -/
def jsParseInt10 (s : String) : Option Int := jsParseIntCore false s.data

/-- `Number.isSafeInteger` applied to a `parseInt` result. -/
def isSafeIntegerOpt (n : Option Int) : Bool :=
  match n with
  | none => false
  | some n => n.natAbs ≤ 2 ^ 53 - 1

/-- `/^\d+$/.test s`. -/
def isDigits (s : String) : Bool :=
  ¬ s.data.isEmpty ∧ s.data.all fun c => '0' ≤ c ∧ c ≤ '9'

/-- The character of one decimal digit. -/
def digitChar (d : Nat) : Char := Char.ofNat (48 + d)

/-- Decimal digits of `n`, accumulator style; the fuel argument (any bound
above `n`) only forces structural recursion. -/
def natToCharsAux : Nat → Nat → List Char → List Char
  | 0, _, acc => acc
  | fuel + 1, n, acc =>
    if n < 10 then digitChar n :: acc
    else natToCharsAux fuel (n / 10) (digitChar (n % 10) :: acc)

/-- JS `String(n)` for a natural number (array indices in template paths). -/
def natToString (n : Nat) : String := ⟨natToCharsAux (n + 1) n []⟩

/-- JS `String(n)` for an integral number (numeric property keys). -/
def intToString (n : Int) : String :=
  if n < 0 then "-" ++ natToString n.natAbs else natToString n.toNat

/-! ## Pointer splitting -/

namespace Codec

/-- `String.prototype.split('/')` on the character list: the resulting list is
always nonempty. -/
def splitSlash : List Char → List (List Char)
  | [] => [[]]
  | c :: cs =>
    if c = '/' then [] :: splitSlash cs
    else
      match splitSlash cs with
      | t :: ts => (c :: t) :: ts
      | [] => [[c]]

theorem splitSlash_ne_nil (cs : List Char) : splitSlash cs ≠ [] := by
  cases cs with
  | nil => simp [splitSlash]
  | cons c cs =>
    simp only [splitSlash]
    split
    · simp
    · split <;> simp

end Codec

/-- `isJsonPointer` (src/predicate.ts): a string that is empty or starts with
`/` (the `split('/').length > 0` conjunct is vacuous but kept). -/
def isJsonPointer (p : String) : Bool :=
  p = "" || ((match p.data with
              | '/' :: _ => true
              | _ => false)
             && (Codec.splitSlash p.data).length > 0)

/-- The decoded segments of a pointer (the `split`/`shift`/`map decode` body
of `getJsonPointerSegments`). -/
def segsOf (p : String) : List String :=
  ((Codec.splitSlash p.data).drop 1).map fun seg => decodePointer ⟨seg⟩

/-- `getJsonPointerSegments` (src/pointer.ts). -/
def getJsonPointerSegments (p : String) : Except JErr (List String) :=
  if ¬ isJsonPointer p then .error (.invalidPointer p)
  else .ok (segsOf p)

/-! ## Value predicates (src/predicate.ts) -/

/-- `typeof`, restricted to JSON-shaped values. -/
def jsTypeof : JSVal → String
  | .null => "object"
  | .bool _ => "boolean"
  | .num _ => "number"
  | .str _ => "string"
  | .arr _ => "object"
  | .obj _ => "object"

def isArray : JSVal → Bool
  | .arr _ => true
  | _ => false

mutual

/-- `isJsonValue`: on `JSVal` (which only contains JSON-representable
shapes) this is always `true`; note that `Array.prototype.every` skips
holes, so arrays with holes also pass. -/
def isJsonValueB : JSVal → Bool
  | .null => true
  | .bool _ => true
  | .num _ => true   -- finite by construction
  | .str _ => true
  | .arr xs => isJsonValueArr xs
  | .obj fs => isJsonValueObj fs

def isJsonValueArr : List (Option JSVal) → Bool
  | [] => true
  | none :: xs => isJsonValueArr xs
  | some v :: xs => isJsonValueB v && isJsonValueArr xs

def isJsonValueObj : List (String × JSVal) → Bool
  | [] => true
  | (_, v) :: fs => isJsonValueB v && isJsonValueObj fs

end

/-- `isJsonObject`: a JSON value of `typeof` object that is neither an array
nor `null`. -/
def isJsonObjectB (v : JSVal) : Bool :=
  isJsonValueB v && jsTypeof v = "object" && !isArray v && !(v = .null)

/-- `isJsonArray`. -/
def isJsonArrayB (v : JSVal) : Bool :=
  isJsonValueB v && isArray v

mutual

theorem isJsonValueB_eq_true (v : JSVal) : isJsonValueB v = true := by
  cases v <;> simp [isJsonValueB, isJsonValueArr_eq_true, isJsonValueObj_eq_true]

theorem isJsonValueArr_eq_true (xs : List (Option JSVal)) : isJsonValueArr xs = true := by
  match xs with
  | [] => simp [isJsonValueArr]
  | none :: xs => simp [isJsonValueArr, isJsonValueArr_eq_true xs]
  | some v :: xs =>
    simp [isJsonValueArr, isJsonValueB_eq_true v, isJsonValueArr_eq_true xs]

theorem isJsonValueObj_eq_true (fs : List (String × JSVal)) : isJsonValueObj fs = true := by
  match fs with
  | [] => simp [isJsonValueObj]
  | (k, v) :: fs =>
    simp [isJsonValueObj, isJsonValueB_eq_true v, isJsonValueObj_eq_true fs]

end

theorem isJsonObjectB_obj (fs : List (String × JSVal)) :
    isJsonObjectB (.obj fs) = true := by
  simp [isJsonObjectB, jsTypeof, isArray, isJsonValueB_eq_true]

/-! ## Object-field and array-slot primitives -/

/-- Property read on an object. -/
def lookupField : List (String × JSVal) → String → Option JSVal
  | [], _ => none
  | (k, v) :: fs, key => if k = key then some v else lookupField fs key

/-- Property assignment: replace in place, or append a new key. -/
def setField : List (String × JSVal) → String → JSVal → List (String × JSVal)
  | [], key, v => [(key, v)]
  | (k, w) :: fs, key, v =>
    if k = key then (k, v) :: fs else (k, w) :: setField fs key v

/-- `delete obj[key]`. -/
def removeField : List (String × JSVal) → String → List (String × JSVal)
  | [], _ => []
  | (k, w) :: fs, key =>
    if k = key then removeField fs key else (k, w) :: removeField fs key

/-- Largest valid array index bound: JS array indices are `< 2^32 - 1`. -/
def maxArrayIndex : Nat := 2 ^ 32 - 1

/-- Array read `xs[i]`: `none` for a hole, a negative index, or an index past
the end (all read as `undefined`). -/
def arrGet (xs : List (Option JSVal)) (i : Int) : Option JSVal :=
  if 0 ≤ i ∧ i.toNat < xs.length then xs.getD i.toNat none else none

/-- In-range array write, extending with holes past the end (caller has
checked `n < maxArrayIndex`). -/
def arrWriteAt (xs : List (Option JSVal)) (n : Nat) (v : JSVal) :
    List (Option JSVal) :=
  if n < xs.length then xs.set n (some v)
  else xs ++ List.replicate (n - xs.length) none ++ [some v]

/-- Array assignment `xs[i] = v`: a write at a negative or too-large index
creates a non-index property invisible to this library, so it is dropped. -/
def arrSet (xs : List (Option JSVal)) (i : Int) (v : JSVal) :
    List (Option JSVal) :=
  if 0 ≤ i ∧ i.toNat < maxArrayIndex then arrWriteAt xs i.toNat v else xs

/-- `Array.prototype.splice(i, 1)` (negative `i` counts from the end). -/
def spliceOne (xs : List (Option JSVal)) (i : Int) : List (Option JSVal) :=
  let len : Int := xs.length
  let start := if i < 0 then max (len + i) 0 else min i len
  xs.take start.toNat ++ xs.drop (start.toNat + 1)

instance : DecidableEq (Except JErr JSVal) := fun a b =>
  match a, b with
  | .ok x, .ok y => decidable_of_iff (x = y) (by simp)
  | .error e, .error f => decidable_of_iff (e = f) (by simp)
  | .ok _, .error _ => isFalse (by simp)
  | .error _, .ok _ => isFalse (by simp)

instance : DecidableEq (Except JErr (Option JSVal)) := fun a b =>
  match a, b with
  | .ok x, .ok y => decidable_of_iff (x = y) (by simp)
  | .error e, .error f => decidable_of_iff (e = f) (by simp)
  | .ok _, .error _ => isFalse (by simp)
  | .error _, .ok _ => isFalse (by simp)

/-- Stable insertion of a string into a sorted list. -/
def insertSorted (s : String) : List String → List String
  | [] => [s]
  | t :: ts => if s ≤ t then s :: t :: ts else t :: insertSorted s ts

/-- `Array.prototype.sort()` on strings: sorting by code units, modelled as
insertion sort into the `≤` order on `String`. -/
def sortStrings : List String → List String
  | [] => []
  | s :: ss => insertSorted s (sortStrings ss)

/-- `Array.from(new Set(xs))`: deduplication keeping first occurrences. -/
def dedupAux (seen : List String) : List String → List String
  | [] => []
  | s :: ss => if s ∈ seen then dedupAux seen ss else s :: dedupAux (s :: seen) ss

def dedupFirst (l : List String) : List String := dedupAux [] l

/-! ## Pointer navigator (src/pointer.ts) -/

/-- The segment-walking loop of `getJsonValueAtPointer`. -/
def walkGet : JSVal → List String → Option JSVal
  | cur, [] => some cur
  | cur, key :: rest =>
    match cur with
    | .arr xs =>
      if isDigits key then
        match arrGet xs ((jsParseInt10 key).getD 0) with
        | some v => walkGet v rest
        | none => none
      else none   -- `isJsonObject(array)` is false: return undefined
    | .obj fs =>
      match lookupField fs key with
      | some v => walkGet v rest
      | none => none
    | _ => none

/-- `getJsonValueAtPointer`: `.ok none` models returning `undefined`. -/
def getJsonValueAtPointer (o : JSVal) (p : String) : Except JErr (Option JSVal) :=
  if p = "/" ∨ p = "" then .ok (some o)   -- ROOT_POINTERS check comes first
  else if ¬ isJsonObjectB o then .error .invalidObject
  else if ¬ isJsonPointer p then .error (.invalidPointer p)
  else .ok (walkGet o (segsOf p))

mutual

/-- `getAllJsonPointers`: every pointer reachable from `v`, deduplicated and
sorted (JS `Array.prototype.sort()` compares strings by UTF-16 units;
`≤` on `String` is the same order on the strings arising here). -/
def getAllJsonPointers : JSVal → String → List String
  | v, pre =>
    let pointers := (if pre = "" then "" else pre) ::
      (match v with
       | .arr xs => genArr xs pre 0
       | .obj fs => genObj fs pre
       | _ => [])
    sortStrings (dedupFirst pointers)

/-- The array `forEach` of `getAllJsonPointers` (holes are skipped). -/
def genArr : List (Option JSVal) → String → Nat → List String
  | [], _, _ => []
  | none :: xs, pre, i => genArr xs pre (i + 1)
  | some item :: xs, pre, i =>
    let cur := pre ++ "/" ++ natToString i
    (cur :: getAllJsonPointers item cur) ++ genArr xs pre (i + 1)

/-- The `Object.keys(...).forEach` of `getAllJsonPointers`. -/
def genObj : List (String × JSVal) → String → List String
  | [], _ => []
  | (k, v) :: fs, pre =>
    let cur := pre ++ "/" ++ encodePointer k
    (cur :: getAllJsonPointers v cur) ++ genObj fs pre

end

mutual

/-- Specification-side pairing of each pointer generated by
`getAllJsonPointers` with the value stored at the location it was generated
from: the same traversal, with the stored subtree kept alongside the
pointer (the extra root pushes performed by `getAllJsonPointers` before
each recursive call duplicate that recursion's own first entry, so they add
no location). -/
def genPairs : JSVal → String → List (String × JSVal)
  | v, pre =>
    (pre, v) ::
      (match v with
       | .arr xs => pairsArr xs pre 0
       | .obj fs => pairsObj fs pre
       | _ => [])

def pairsArr : List (Option JSVal) → String → Nat → List (String × JSVal)
  | [], _, _ => []
  | none :: xs, pre, i => pairsArr xs pre (i + 1)
  | some item :: xs, pre, i =>
    genPairs item (pre ++ "/" ++ natToString i) ++ pairsArr xs pre (i + 1)

def pairsObj : List (String × JSVal) → String → List (String × JSVal)
  | [], _ => []
  | (k, v) :: fs, pre =>
    genPairs v (pre ++ "/" ++ encodePointer k) ++ pairsObj fs pre

end

mutual

/-- Well-formedness inherited from JS object semantics: property keys are
unique at every level (a JS object cannot hold a key twice). -/
def nodupKeysVal : JSVal → Bool
  | .arr xs => nodupKeysArr xs
  | .obj fs => decide (fs.map Prod.fst).Nodup && nodupKeysObj fs
  | _ => true

def nodupKeysArr : List (Option JSVal) → Bool
  | [] => true
  | none :: xs => nodupKeysArr xs
  | some v :: xs => nodupKeysVal v && nodupKeysArr xs

def nodupKeysObj : List (String × JSVal) → Bool
  | [] => true
  | (_, v) :: fs => nodupKeysVal v && nodupKeysObj fs

end

/-! ## Pointer mutator (src/mutator.ts) -/

/-- The container created for a missing intermediate location:
an array iff `Number.parseInt(nextSegment)` is an integer
(`Number.parseInt(undefined)` is `NaN`, giving an object). -/
def newContainer (next : Option String) : JSVal :=
  match next with
  | some s => if (jsParseInt s).isSome then .arr [] else .obj []
  | none => .obj []

/-- The final-segment assignment of the `set` loop (part of an iteration):
string-keyed assignment into an object, digit-guarded `parseInt(s, 10)`
assignment into an array, nothing otherwise. -/
def assignFinal (value : JSVal) (cur : JSVal) (s : String) : JSVal :=
  match cur with
  | .obj fs => .obj (setField fs s value)
  | .arr xs =>
    if isDigits s then .arr (arrSet xs ((jsParseInt10 s).getD 0) value)
    else .arr xs
  | other => other

/-- The navigation/creation step of one `set` loop iteration, with the rest
of the traversal abstracted as `recur`.  `key` is
`Number.isInteger(Number.parseInt(s)) ? parseInt(s) : s`; a numeric key is
converted back through `String(n)` by property access on an object. -/
def setNav (recur : JSVal → JSVal) (next : Option String) (s : String) :
    JSVal → JSVal
  | .obj fs =>
    (match jsParseInt s with
     | some n =>
       let key := intToString n
       (match lookupField fs key with
        | none => .obj (setField fs key (recur (newContainer next)))
        | some c => .obj (setField fs key (recur c)))
     | none =>
       (match lookupField fs s with
        | none => .obj (setField fs s (recur (newContainer next)))
        | some c => .obj (setField fs s (recur c))))
  | .arr xs =>
    (match jsParseInt s with
     | some n =>
       if 0 ≤ n ∧ n.toNat < maxArrayIndex then
         match arrGet xs n with
         | some c => .arr (arrWriteAt xs n.toNat (recur c))
         | none => .arr (arrWriteAt xs n.toNat (recur (newContainer next)))
       else .arr xs   -- non-index property write: invisible, dropped
     | none => .arr xs)   -- `typeof key === 'number'` fails: bare return
  | other => other   -- scalar: the loop keeps running with no effect

/-- The traversal loop of `setJsonValueAtPointer`, in state-passing form.

Each loop iteration is mirrored exactly: on the final segment the
assignment happens *first* and the navigation/creation step of the same
iteration still runs afterwards (which is what can create a spurious
sibling when `Number.parseInt(segment)` names a different property than the
segment string).  A scalar mid-path makes every remaining iteration a
no-op.  The identity-based cycle register cannot fire on tree-shaped
values (each iteration strictly descends), so it has no functional
counterpart here; the store-based model below keeps it. -/
def setWalk (value : JSVal) : JSVal → List String → JSVal
  | cur, [] => cur
  | cur, s :: rest =>
    -- (1) final-segment assignment, then (2)+(3) navigation/creation
    let cur1 : JSVal := if rest.isEmpty then assignFinal value cur s else cur
    setNav (fun c => setWalk value c rest) rest.head? s cur1

/-- `setJsonValueAtPointer` (src/mutator.ts). -/
def setJsonValueAtPointer (o : JSVal) (p : String) (value : JSVal) :
    Except JErr JSVal :=
  if ¬ isJsonValueB value then .error .invalidValue
  else if ¬ isJsonObjectB o then .error .invalidObject
  else
    match getJsonPointerSegments p with
    | .error e => .error e
    | .ok path => .ok (setWalk value o path)

/-- Keys on which `set`'s parseInt-normalised property access (`obj[parseInt
key]` stringifies the number again) and `get`'s raw string access name the
same property. -/
def parseSafeKey (s : String) : Bool :=
  match jsParseInt s with
  | some n => intToString n == s
  | none => true

/-- Agreement of `set`'s descent with `get`'s walk along the given segments:
the walk stays inside containers (no scalar mid-path), array hops use pure
in-range decimal indices, and object hops (before the last) use
parseInt-unambiguous keys.  On the final segment an object absorbs any key
while an array still needs a pure in-range decimal index. -/
def setGetOk : JSVal → List String → Bool
  | _, [] => false
  | cur, s :: rest =>
    match cur with
    | .obj fs =>
      if rest.isEmpty then true
      else
        parseSafeKey s &&
        (match lookupField fs s with
         | some c => setGetOk c rest
         | none => setGetOk (newContainer rest.head?) rest)
    | .arr xs =>
      isDigits s && decide ((jsParseInt10 s).getD 0 < (maxArrayIndex : Int)) &&
      (if rest.isEmpty then true
       else
         match arrGet xs ((jsParseInt10 s).getD 0) with
         | some c => setGetOk c rest
         | none => setGetOk (newContainer rest.head?) rest)
    | _ => false

/-- The traversal loop of `removeJsonValueAtPointer`, state-passing form. -/
def removeWalk : JSVal → List String → JSVal
  | cur, [] => cur
  | cur, key :: rest =>
    if rest.isEmpty then
      match cur with
      | .arr xs =>
        -- splice when Number.isSafeInteger(parseInt(key, 10)), then return
        if isSafeIntegerOpt (jsParseInt10 key) then
          .arr (spliceOne xs ((jsParseInt10 key).getD 0))
        else .arr xs
      | .obj fs => .obj (removeField fs key)
      | other => other
    else
      match cur with
      | .arr xs =>
        if isSafeIntegerOpt (jsParseInt10 key) then
          let idx := (jsParseInt10 key).getD 0
          match arrGet xs idx with
          | some c => .arr (xs.set idx.toNat (some (removeWalk c rest)))
          | none => .arr xs   -- nested undefined: return
        else .arr xs
      | .obj fs =>
        match lookupField fs key with
        | some c => .obj (setField fs key (removeWalk c rest))
        | none => .obj fs
      | other => other

/-- `removeJsonValueAtPointer` (src/mutator.ts). -/
def removeJsonValueAtPointer (j : JSVal) (p : String) : Except JErr JSVal :=
  if ¬ isJsonPointer p then .error (.invalidPointer p)
  else if ¬ isJsonObjectB j then .error .invalidObject
  else if p = "" then .error .cannotDeleteRoot
  else .ok (removeWalk j (segsOf p))

/-! ## Structural comparator (src/compare.ts) -/

mutual

/-- `deepEquals` (src/compare.ts).  The leading `beqVal` test mirrors the
`a === b` shortcut: reference equality implies structural equality, and on
JSON-shaped values the structural walk below agrees with `===` wherever the
two differ. -/
def deepEquals (a b : JSVal) : Bool :=
  if beqVal a b then true
  else if a = .null ∨ b = .null then false   -- `return a === b`
  else if ¬ jsTypeof a = jsTypeof b then false
  else
    match a, b with
    | .arr xs, .arr ys => xs.length = ys.length && deepEqualsArr xs ys
    | .obj fs, .obj gs => fs.length = gs.length && deepEqualsObj fs gs
    | _, _ => false

/-- `a.every((item, index) => deepEquals(item, b[index]))`: holes in `a` are
skipped; a hole in `b` reads as `undefined` and compares unequal to any
defined item. -/
def deepEqualsArr : List (Option JSVal) → List (Option JSVal) → Bool
  | [], _ => true
  | none :: xs, ys => deepEqualsArr xs (ys.drop 1)
  | some a :: xs, ys =>
    (match ys.head? with
     | some (some b) => deepEquals a b
     | _ => false)
    && deepEqualsArr xs (ys.drop 1)

/-- `keysA.every(key => key in b && deepEquals(a[key], b[key]))`. -/
def deepEqualsObj : List (String × JSVal) → List (String × JSVal) → Bool
  | [], _ => true
  | (k, v) :: fs, gs =>
    (match lookupField gs k with
     | some w => deepEquals v w
     | none => false)
    && deepEqualsObj fs gs

end

/-- `deepEquals` as called with possibly-`undefined` arguments
(`undefined === undefined` short-circuits to `true`; `undefined` against a
defined value fails the `typeof` comparison). -/
def deepEqualsU : Option JSVal → Option JSVal → Bool
  | none, none => true
  | none, some _ => false
  | some _, none => false
  | some a, some b => deepEquals a b

/-- A JSON Patch operation (`op`/`path`/`value?`/`from?`); `op` stays a
string so unknown operations are representable. -/
structure JsonPatchOperation where
  op : String
  path : String
  value : Option JSVal := none
  fromPath : Option String := none
deriving Repr, DecidableEq

/-- `typeof` with `undefined` admitted. -/
def jsTypeofU : Option JSVal → String
  | none => "undefined"
  | some v => jsTypeof v

def isJsonObjectU : Option JSVal → Bool
  | none => false
  | some v => isJsonObjectB v

def isJsonArrayU : Option JSVal → Bool
  | none => false
  | some v => isJsonArrayB v

/-- Key loop, target-only keys (additions). -/
def diffObjTgt (path : String) (gs fs : List (String × JSVal)) :
    List JsonPatchOperation :=
  match gs with
  | [] => []
  | (k, w) :: gs =>
    (if (lookupField fs k).isSome then []
     else [{op := "add", path := path ++ "/" ++ encodePointer k, value := some w}])
      ++ diffObjTgt path gs fs

mutual

/-- The recursive `diff` closure of `getJsonDiff`.  Arguments are
`Option`al because array holes flow in as `undefined`. -/
def diffWalk (path : String) (s t : Option JSVal) : List JsonPatchOperation :=
  if deepEqualsU s t then []
  else if jsTypeofU s ≠ jsTypeofU t ∨ s = some .null ∨ t = some .null
      ∨ (¬ isJsonObjectU s ∧ ¬ isJsonArrayU s)
      ∨ (¬ isJsonObjectU t ∧ ¬ isJsonArrayU t) then
    [{op := "replace", path := path, value := t}]
  else
    match s, t with
    | some (.arr xs), some (.arr ys) =>
      -- |slen - tlen| > slen / 2 (exact rational comparison)
      if 2 * ((xs.length : Int) - ys.length).natAbs > xs.length then
        [{op := "replace", path := path, value := t}]
      else
        let minLength := min xs.length ys.length
        diffArr path xs ys 0
          ++ diffAdds path (ys.drop minLength) minLength
          ++ (List.range' ys.length (xs.length - ys.length)).reverse.map
              (fun i => {op := "remove", path := path ++ "/" ++ natToString i})
    | some (.obj fs), some (.obj gs) =>
      -- allKeys iterates source keys first, then target-only keys
      diffObjSrc path fs gs ++ diffObjTgt path gs fs
    | _, _ => []   -- array vs object falls through every branch: no ops

/-- The index loop over common positions `0 .. min(len)-1`. -/
def diffArr (path : String) (xs ys : List (Option JSVal)) (i : Nat) :
    List JsonPatchOperation :=
  match xs, ys with
  | x :: xs, y :: ys =>
    diffWalk (path ++ "/" ++ natToString i) x y ++ diffArr path xs ys (i + 1)
  | _, _ => []

/-- Trailing additions `min(len) .. tlen-1`. -/
def diffAdds (path : String) (vs : List (Option JSVal)) (i : Nat) :
    List JsonPatchOperation :=
  match vs with
  | [] => []
  | v :: vs =>
    {op := "add", path := path ++ "/" ++ natToString i, value := v}
      :: diffAdds path vs (i + 1)

/-- Key loop, source keys (present in both → recurse, else remove). -/
def diffObjSrc (path : String) (fs gs : List (String × JSVal)) :
    List JsonPatchOperation :=
  match fs with
  | [] => []
  | (k, v) :: fs =>
    let keyPath := path ++ "/" ++ encodePointer k
    (match lookupField gs k with
     | none => [{op := "remove", path := keyPath}]
     | some w => diffWalk keyPath (some v) (some w))
      ++ diffObjSrc path fs gs

end

/-- `getJsonDiff` (src/compare.ts). -/
def getJsonDiff (source target : JSVal) : List JsonPatchOperation :=
  diffWalk "" (some source) (some target)

/-! ## Patch applier (src/compare.ts) -/

mutual

/-- `JSON.parse(JSON.stringify(v))` on a JSON-shaped value: the identity,
except that array holes stringify as `null`. -/
def jsonDeepCopy : JSVal → JSVal
  | .null => .null
  | .bool b => .bool b
  | .num n => .num n
  | .str s => .str s
  | .arr xs => .arr (jsonDeepCopyArr xs)
  | .obj fs => .obj (jsonDeepCopyObj fs)

def jsonDeepCopyArr : List (Option JSVal) → List (Option JSVal)
  | [] => []
  | none :: xs => some .null :: jsonDeepCopyArr xs
  | some v :: xs => some (jsonDeepCopy v) :: jsonDeepCopyArr xs

def jsonDeepCopyObj : List (String × JSVal) → List (String × JSVal)
  | [] => []
  | (k, v) :: fs => (k, jsonDeepCopy v) :: jsonDeepCopyObj fs

end

/-- The operation loop of `applyJsonPatch`.  In the `move` case the value is
resolved before the removal; on tree-shaped documents the snapshot taken
here coincides with the reference the JS code keeps. -/
def applyOps : JSVal → List JsonPatchOperation → Except JErr JSVal
  | result, [] => .ok result
  | result, operation :: rest =>
    match operation.op with
    | "add" =>
      match operation.value with
      | none => .error (.missingValue "add")
      | some v =>
        match setJsonValueAtPointer result operation.path v with
        | .error e => .error e
        | .ok r => applyOps r rest
    | "remove" =>
      match getJsonPointerSegments operation.path with
      | .error e => .error e
      | .ok segments =>
        if segments.length = 0 then .error .cannotRemoveRoot
        else
          match getJsonValueAtPointer result operation.path with
          | .error e => .error e
          | .ok none => .error (.pathNotFound operation.path)
          | .ok (some _) =>
            match removeJsonValueAtPointer result operation.path with
            | .error e => .error e
            | .ok r => applyOps r rest
    | "replace" =>
      match operation.value with
      | none => .error (.missingValue "replace")
      | some v =>
        match getJsonValueAtPointer result operation.path with
        | .error e => .error e
        | .ok none => .error (.pathNotFound operation.path)
        | .ok (some _) =>
          match setJsonValueAtPointer result operation.path v with
          | .error e => .error e
          | .ok r => applyOps r rest
    | "move" =>
      -- `if (!operation.from)`: absent or empty string are both falsy
      match operation.fromPath with
      | none => .error (.missingFrom "move")
      | some f =>
        if f = "" then .error (.missingFrom "move")
        else
          match getJsonValueAtPointer result f with
          | .error e => .error e
          | .ok none => .error (.sourcePathNotFound f)
          | .ok (some v) =>
            match removeJsonValueAtPointer result f with
            | .error e => .error e
            | .ok r1 =>
              match setJsonValueAtPointer r1 operation.path v with
              | .error e => .error e
              | .ok r2 => applyOps r2 rest
    | "copy" =>
      match operation.fromPath with
      | none => .error (.missingFrom "copy")
      | some f =>
        if f = "" then .error (.missingFrom "copy")
        else
          match getJsonValueAtPointer result f with
          | .error e => .error e
          | .ok none => .error (.sourcePathNotFound f)
          | .ok (some v) =>
            match setJsonValueAtPointer result operation.path (jsonDeepCopy v) with
            | .error e => .error e
            | .ok r => applyOps r rest
    | "test" =>
      match getJsonValueAtPointer result operation.path with
      | .error e => .error e
      | .ok v =>
        if ¬ deepEqualsU v operation.value then .error (.testFailed operation.path)
        else applyOps result rest
    | op => .error (.unknownOperation op)

/-- `applyJsonPatch` (src/compare.ts): deep-copy, then apply in order. -/
def applyJsonPatch (json : JSVal) (operations : List JsonPatchOperation) :
    Except JErr JSVal :=
  applyOps (jsonDeepCopy json) operations


/-! ## Heap model (reference semantics: mutation, aliasing, cycles)

The tree model above cannot express `o.a === o` or an operation value that
aliases the caller's document, so the mutating functions are also embedded
over an explicit store.  A heap value is a primitive or a reference into the
store; a store cell is an object or an array.  The unguarded recursions of
`isJsonValue` (and of the other recursive helpers) are driven by fuel: the
result `none` models the JS call stack overflowing (an uncaught
`RangeError`), which the errors below surface as `stackOverflow`. -/

/-- A heap value: a primitive, or a reference to a store cell. -/
inductive HVal where
  | null
  | bool (b : Bool)
  | num (n : Int)
  | str (s : String)
  | href (r : Nat)
deriving DecidableEq

/-- A store cell: an object, or an array of slots (`none` = hole). -/
inductive HNode where
  | nObj (fields : List (String × HVal))
  | nArr (elems : List (Option HVal))
deriving DecidableEq

abbrev Store := List HNode

def lookupFieldH : List (String × HVal) → String → Option HVal
  | [], _ => none
  | (k, v) :: fs, key => if k = key then some v else lookupFieldH fs key

def setFieldH : List (String × HVal) → String → HVal → List (String × HVal)
  | [], key, v => [(key, v)]
  | (k, w) :: fs, key, v =>
    if k = key then (k, v) :: fs else (k, w) :: setFieldH fs key v

def removeFieldH : List (String × HVal) → String → List (String × HVal)
  | [], _ => []
  | (k, w) :: fs, key =>
    if k = key then removeFieldH fs key else (k, w) :: removeFieldH fs key

/-- The array read `arr[n]` (negative, past-end and hole reads give
`undefined`). -/
def arrReadH (es : List (Option HVal)) (n : Int) : Option HVal :=
  if 0 ≤ n ∧ n.toNat < es.length then es.getD n.toNat none else none

/-- In-range array write, extending with holes past the end. -/
def arrWriteAtH (es : List (Option HVal)) (n : Nat) (v : HVal) :
    List (Option HVal) :=
  if n < es.length then es.set n (some v)
  else es ++ List.replicate (n - es.length) none ++ [some v]

/-- `arr[i] = v` with the invisible non-index writes dropped. -/
def arrSetH (es : List (Option HVal)) (i : Int) (v : HVal) :
    List (Option HVal) :=
  if 0 ≤ i ∧ i.toNat < maxArrayIndex then arrWriteAtH es i.toNat v else es

/-- `Array.prototype.splice(i, 1)` on slots. -/
def spliceOneH (es : List (Option HVal)) (i : Int) : List (Option HVal) :=
  let len : Int := es.length
  let start := if i < 0 then max (len + i) 0 else min i len
  es.take start.toNat ++ es.drop (start.toNat + 1)

/-- `xs.every(f)` threading the stack-overflow outcome. -/
def everyH (f : HVal → Option Bool) : List HVal → Option Bool
  | [] => some true
  | v :: vs =>
    match f v with
    | none => none
    | some false => some false
    | some true => everyH f vs

/-- `isJsonValue` on the heap (src/query.ts): the recursion has no cycle
guard; fuel models the JS call stack, one frame per reference followed, and
`none` models the stack overflowing.  Array holes are skipped by `every`;
object values are visited in order. -/
def isJsonValueH (st : Store) : Nat → HVal → Option Bool
  | 0, _ => none
  | _ + 1, .null => some true
  | _ + 1, .bool _ => some true
  | _ + 1, .num _ => some true
  | _ + 1, .str _ => some true
  | fuel + 1, .href r =>
    match st[r]? with
    | none => some false
    | some (.nObj fs) => everyH (isJsonValueH st fuel) (fs.map Prod.snd)
    | some (.nArr es) => everyH (isJsonValueH st fuel) (es.filterMap id)

/-- `isJsonObject` on the heap: `isJsonValue(v) && typeof v === 'object' &&
!Array.isArray(v) && v !== null` (the recursive `isJsonValue` runs first, so
its stack overflow propagates). -/
def isJsonObjectH (st : Store) (fuel : Nat) (v : HVal) : Option Bool :=
  match isJsonValueH st fuel v with
  | none => none
  | some false => some false
  | some true =>
    some (match v with
          | .href r =>
            (match st[r]? with
             | some (.nObj _) => true
             | _ => false)
          | _ => false)

/-- `isJsonArray` on the heap: `isJsonValue(v) && Array.isArray(v)`. -/
def isJsonArrayH (st : Store) (fuel : Nat) (v : HVal) : Option Bool :=
  match isJsonValueH st fuel v with
  | none => none
  | some false => some false
  | some true =>
    some (match v with
          | .href r =>
            (match st[r]? with
             | some (.nArr _) => true
             | _ => false)
          | _ => false)

/-- The final-segment assignment of `set` (the `try` block, src/mutator.ts
lines 79-91): `none` means the block threw and the `catch` swallowed it (the
whole call then returns silently) — the only throw available here is the
stack overflow of the unguarded `isJsonObject`. -/
def hFinalAssign (st : Store) (fuel : Nat) (cur : HVal) (s : String)
    (value : HVal) : Option Store :=
  match isJsonObjectH st fuel cur with
  | none => none
  | some true =>
    match cur with
    | .href r =>
      match st[r]? with
      | some (.nObj fs) => some (st.set r (.nObj (setFieldH fs s value)))
      | _ => some st
    | _ => some st
  | some false =>
    match cur with
    | .href r =>
      match st[r]? with
      | some (.nArr es) =>
        if isDigits s then
          some (st.set r (.nArr (arrSetH es ((jsParseInt10 s).getD 0) value)))
        else some st
      | _ => some st
    | _ => some st

/-- The freshly created intermediate container (`[]` when the next segment
parseInts to an integer, `parseInt(undefined)` being `NaN`). -/
def hNewNode (next : Option String) : HNode :=
  match next with
  | some t => if (jsParseInt t).isSome then .nArr [] else .nObj []
  | none => .nObj []

/-- The loop of `setJsonValueAtPointer` (src/mutator.ts lines 78-133) on the
heap.  Each iteration: on the final segment the `try` assignment runs first;
then, for reference values, the identity register check fires *after* that
assignment; then the `isJsonObject`-guarded navigation/creation cascade,
where a missing location allocates a fresh cell.  Writes at non-index array
positions create properties invisible to the library, so — as in the tree
model — they are dropped and the loop is cut short with no error; primitives
simply let the loop run on with no effect. -/
def setLoopH (value : HVal) (fuel : Nat) :
    Store → List Nat → HVal → List String → Store × Option JErr
  | st, _, _, [] => (st, none)
  | st, reg, cur, s :: rest =>
    match (if rest.isEmpty then hFinalAssign st fuel cur s value
           else some st) with
    | none => (st, none)
    | some st1 =>
      match cur with
      | .href r =>
        if r ∈ reg then (st1, some .circularReference)
        else
          match isJsonObjectH st1 fuel cur with
          | none => (st1, some .stackOverflow)
          | some true =>
            match st1[r]? with
            | some (.nObj fs) =>
              (match (match jsParseInt s with
                      | some n => intToString n
                      | none => s) with
               | keyStr =>
                 match lookupFieldH fs keyStr with
                 | some c => setLoopH value fuel st1 (r :: reg) c rest
                 | none =>
                   setLoopH value fuel
                     (st1.set r (.nObj (setFieldH fs keyStr
                        (.href st1.length))) ++ [hNewNode rest.head?])
                     (r :: reg) (.href st1.length) rest)
            | _ => (st1, none)
          | some false =>
            match st1[r]?, jsParseInt s with
            | some (.nArr es), some n =>
              if 0 ≤ n ∧ n.toNat < maxArrayIndex then
                match arrReadH es n with
                | some c => setLoopH value fuel st1 (r :: reg) c rest
                | none =>
                  setLoopH value fuel
                    (st1.set r (.nArr (arrWriteAtH es n.toNat
                       (.href st1.length))) ++ [hNewNode rest.head?])
                    (r :: reg) (.href st1.length) rest
              else (st1, none)
            | _, _ => (st1, none)
      | _ => setLoopH value fuel st1 reg cur rest

/-- `setJsonValueAtPointer` on the heap (src/mutator.ts): the result pair is
the final store (the function mutates in place) and the error, if any. -/
def setJsonValueAtPointerH (st : Store) (root : HVal) (p : String)
    (value : HVal) (fuel : Nat) : Store × Option JErr :=
  match isJsonValueH st fuel value with
  | none => (st, some .stackOverflow)
  | some false => (st, some .invalidValue)
  | some true =>
    match isJsonObjectH st fuel root with
    | none => (st, some .stackOverflow)
    | some false => (st, some .invalidObject)
    | some true =>
      match getJsonPointerSegments p with
      | .error e => (st, some e)
      | .ok path => setLoopH value fuel st [] root path

/-- The walk of `getJsonValueAtPointer` on the heap: array steps by pure
digit index (`Array.isArray` does not recurse), every other step runs the
recursive `isJsonObject` guard (fuel!); `some none` is `undefined`, `none`
is the guard overflowing. -/
def walkGetH (st : Store) (fuel : Nat) : HVal → List String → Option (Option HVal)
  | cur, [] => some (some cur)
  | cur, key :: rest =>
    match cur with
    | .href r =>
      match st[r]? with
      | some (.nArr es) =>
        if isDigits key then
          match (if ((jsParseInt10 key).getD 0) < (es.length : Int) then
                   es.getD ((jsParseInt10 key).getD 0).toNat none
                 else none) with
          | some v => walkGetH st fuel v rest
          | none => some none
        else
          match isJsonObjectH st fuel cur with
          | none => none
          | some _ => some none
      | some (.nObj fs) =>
        match isJsonObjectH st fuel cur with
        | none => none
        | some true =>
          match lookupFieldH fs key with
          | some v => walkGetH st fuel v rest
          | none => some none
        | some false => some none
      | none => some none
    | _ =>
      match isJsonObjectH st fuel cur with
      | none => none
      | some _ => some none

/-- `getJsonValueAtPointer` on the heap (read-only). -/
def getJsonValueAtPointerH (st : Store) (fuel : Nat) (root : HVal)
    (p : String) : Except JErr (Option HVal) :=
  if p = "/" ∨ p = "" then .ok (some root)
  else
    match isJsonObjectH st fuel root with
    | none => .error .stackOverflow
    | some false => .error .invalidObject
    | some true =>
      if ¬ isJsonPointer p then .error (.invalidPointer p)
      else
        match walkGetH st fuel root (segsOf p) with
        | none => .error .stackOverflow
        | some r => .ok r

/-- The final-iteration mutation of `remove` (src/mutator.ts lines 233-243):
`.ok (true, st)` means the splice branch ran and returned, `.ok (false, st)`
means control falls through to the navigation block of the same iteration. -/
def removeFinalH (st : Store) (fuel : Nat) (cur : HVal) (key : String) :
    Except JErr (Bool × Store) :=
  match isJsonArrayH st fuel cur with
  | none => .error .stackOverflow
  | some true =>
    if isSafeIntegerOpt (jsParseInt10 key) then
      match cur with
      | .href r =>
        match st[r]? with
        | some (.nArr es) =>
          .ok (true, st.set r (.nArr (spliceOneH es ((jsParseInt10 key).getD 0))))
        | _ => .ok (true, st)
      | _ => .ok (true, st)
    else
      match isJsonObjectH st fuel cur with
      | none => .error .stackOverflow
      | some _ => .ok (false, st)
  | some false =>
    match isJsonObjectH st fuel cur with
    | none => .error .stackOverflow
    | some true =>
      match cur with
      | .href r =>
        match st[r]? with
        | some (.nObj fs) => .ok (false, st.set r (.nObj (removeFieldH fs key)))
        | _ => .ok (false, st)
      | _ => .ok (false, st)
    | some false => .ok (false, st)

/-- The navigation block of one `remove` iteration (src/mutator.ts lines
246-259): the bare `return` on a non-container is modelled as navigating to
`undefined`, which stops every later iteration just the same. -/
def removeNavH (st : Store) (fuel : Nat) (cur : HVal) (key : String) :
    Except JErr (Option HVal) :=
  match isJsonArrayH st fuel cur with
  | none => .error .stackOverflow
  | some true =>
    if isSafeIntegerOpt (jsParseInt10 key) then
      match cur with
      | .href r =>
        match st[r]? with
        | some (.nArr es) => .ok (arrReadH es ((jsParseInt10 key).getD 0))
        | _ => .ok none
      | _ => .ok none
    else
      match isJsonObjectH st fuel cur with
      | none => .error .stackOverflow
      | some true =>
        match cur with
        | .href r =>
          match st[r]? with
          | some (.nObj fs) => .ok (lookupFieldH fs key)
          | _ => .ok none
        | _ => .ok none
      | some false => .ok none
  | some false =>
    match isJsonObjectH st fuel cur with
    | none => .error .stackOverflow
    | some true =>
      match cur with
      | .href r =>
        match st[r]? with
        | some (.nObj fs) => .ok (lookupFieldH fs key)
        | _ => .ok none
      | _ => .ok none
    | some false => .ok none

/-- The loop of `removeJsonValueAtPointer` on the heap. -/
def removeLoopH (fuel : Nat) : Store → Option HVal → List String → Store × Option JErr
  | st, _, [] => (st, none)
  | st, none, _ :: _ => (st, none)
  | st, some cur, key :: rest =>
    match (if rest.isEmpty then removeFinalH st fuel cur key
           else .ok (false, st)) with
    | .error e => (st, some e)
    | .ok (true, st1) => (st1, none)
    | .ok (false, st1) =>
      match removeNavH st1 fuel cur key with
      | .error e => (st1, some e)
      | .ok cur2 => removeLoopH fuel st1 cur2 rest

/-- `removeJsonValueAtPointer` on the heap (src/mutator.ts). -/
def removeJsonValueAtPointerH (st : Store) (root : HVal) (p : String)
    (fuel : Nat) : Store × Option JErr :=
  if ¬ isJsonPointer p then (st, some (.invalidPointer p))
  else
    match isJsonObjectH st fuel root with
    | none => (st, some .stackOverflow)
    | some false => (st, some .invalidObject)
    | some true =>
      if p = "" then (st, some .cannotDeleteRoot)
      else removeLoopH fuel st (some root) (segsOf p)

/-- `a.every((item, i) => deepEquals(item, b[i]))` over slots, threading the
overflow outcome; holes in `a` are skipped, a hole in `b` reads as
`undefined`. -/
def deepEqualsArrH (f : HVal → HVal → Option Bool) :
    List (Option HVal) → List (Option HVal) → Option Bool
  | [], _ => some true
  | none :: xs, ys => deepEqualsArrH f xs (ys.drop 1)
  | some a :: xs, ys =>
    match (match ys.head? with
           | some (some b) => f a b
           | _ => some false) with
    | none => none
    | some false => some false
    | some true => deepEqualsArrH f xs (ys.drop 1)

/-- `keysA.every(key => key in b && deepEquals(a[key], b[key]))`. -/
def deepEqualsObjH (f : HVal → HVal → Option Bool) :
    List (String × HVal) → List (String × HVal) → Option Bool
  | [], _ => some true
  | (k, v) :: fs, gs =>
    match (match lookupFieldH gs k with
           | some w => f v w
           | none => some false) with
    | none => none
    | some false => some false
    | some true => deepEqualsObjH f fs gs

/-- `deepEquals` on the heap: `===` is now genuine reference equality on
`HVal`; the structural recursion through references burns fuel. -/
def deepEqualsH (st : Store) : Nat → HVal → HVal → Option Bool
  | 0, _, _ => none
  | fuel + 1, a, b =>
    if a = b then some true
    else if a = .null ∨ b = .null then some false
    else
      match a, b with
      | .href ra, .href rb =>
        match st[ra]?, st[rb]? with
        | some (.nArr xs), some (.nArr ys) =>
          if xs.length = ys.length then deepEqualsArrH (deepEqualsH st fuel) xs ys
          else some false
        | some (.nObj fs), some (.nObj gs) =>
          if fs.length = gs.length then deepEqualsObjH (deepEqualsH st fuel) fs gs
          else some false
        | _, _ => some false
      | _, _ => some false

/-- `deepEquals(value!, operation.value!)` with possibly-undefined sides:
`undefined === undefined` passes, a single `undefined` fails on the `typeof`
mismatch before any recursion. -/
def deepEqualsUH (st : Store) (fuel : Nat) : Option HVal → Option HVal → Option Bool
  | none, none => some true
  | none, some _ => some false
  | some _, none => some false
  | some a, some b => deepEqualsH st fuel a b

/-- The sequential copy of an array's slots (`JSON.stringify` renders a hole
as `null`, so the copy fills it with `null`). -/
def copyArrH (f : Store → HVal → Option (Store × HVal)) :
    Store → List (Option HVal) → Option (Store × List (Option HVal))
  | st, [] => some (st, [])
  | st, slot :: rest =>
    match f st (slot.getD .null) with
    | none => none
    | some (st1, v1) =>
      match copyArrH f st1 rest with
      | none => none
      | some (st2, vs) => some (st2, some v1 :: vs)

def copyObjH (f : Store → HVal → Option (Store × HVal)) :
    Store → List (String × HVal) → Option (Store × List (String × HVal))
  | st, [] => some (st, [])
  | st, (k, v) :: rest =>
    match f st v with
    | none => none
    | some (st1, v1) =>
      match copyObjH f st1 rest with
      | none => none
      | some (st2, fs) => some (st2, (k, v1) :: fs)

/-- `JSON.parse(JSON.stringify(v))` on the heap: a structural copy into
fresh cells (sharing is severed, holes become `null`); `none` models the
serializer throwing (cycle detection or stack exhaustion). -/
def copyH : Nat → Store → HVal → Option (Store × HVal)
  | 0, _, _ => none
  | fuel + 1, st, v =>
    match v with
    | .href r =>
      match st[r]? with
      | none => some (st, .null)
      | some (.nArr es) =>
        match copyArrH (copyH fuel) st es with
        | none => none
        | some (st1, es1) => some (st1 ++ [.nArr es1], .href st1.length)
      | some (.nObj fs) =>
        match copyObjH (copyH fuel) st fs with
        | none => none
        | some (st1, fs1) => some (st1 ++ [.nObj fs1], .href st1.length)
    | other => some (st, other)

/-- A JSON-Patch operation over the heap: `value` is a *reference* (the JS
`operation.value` is not copied by `add`/`replace`/`move`). -/
structure HOp where
  op : String
  path : String
  value : Option HVal := none
  fromPath : Option String := none

/-- The operation loop of `applyJsonPatch` on the heap (src/compare.ts
lines 342-425), acting on the copy root. -/
def applyOpsH (fuel : Nat) : Store → HVal → List HOp → Store × Option JErr
  | st, _, [] => (st, none)
  | st, root, o :: rest =>
    match o.op with
    | "add" =>
      match o.value with
      | none => (st, some (.missingValue "add"))
      | some v =>
        match setJsonValueAtPointerH st root o.path v fuel with
        | (st1, some e) => (st1, some e)
        | (st1, none) => applyOpsH fuel st1 root rest
    | "remove" =>
      match getJsonPointerSegments o.path with
      | .error e => (st, some e)
      | .ok segs =>
        if segs.isEmpty then (st, some .cannotRemoveRoot)
        else
          match getJsonValueAtPointerH st fuel root o.path with
          | .error e => (st, some e)
          | .ok none => (st, some (.pathNotFound o.path))
          | .ok (some _) =>
            match removeJsonValueAtPointerH st root o.path fuel with
            | (st1, some e) => (st1, some e)
            | (st1, none) => applyOpsH fuel st1 root rest
    | "replace" =>
      match o.value with
      | none => (st, some (.missingValue "replace"))
      | some v =>
        match getJsonValueAtPointerH st fuel root o.path with
        | .error e => (st, some e)
        | .ok none => (st, some (.pathNotFound o.path))
        | .ok (some _) =>
          match setJsonValueAtPointerH st root o.path v fuel with
          | (st1, some e) => (st1, some e)
          | (st1, none) => applyOpsH fuel st1 root rest
    | "move" =>
      match o.fromPath with
      | none => (st, some (.missingFrom "move"))
      | some fp =>
        if fp = "" then (st, some (.missingFrom "move"))
        else
          match getJsonValueAtPointerH st fuel root fp with
          | .error e => (st, some e)
          | .ok none => (st, some (.sourcePathNotFound fp))
          | .ok (some v) =>
            match removeJsonValueAtPointerH st root fp fuel with
            | (st1, some e) => (st1, some e)
            | (st1, none) =>
              match setJsonValueAtPointerH st1 root o.path v fuel with
              | (st2, some e) => (st2, some e)
              | (st2, none) => applyOpsH fuel st2 root rest
    | "copy" =>
      match o.fromPath with
      | none => (st, some (.missingFrom "copy"))
      | some fp =>
        if fp = "" then (st, some (.missingFrom "copy"))
        else
          match getJsonValueAtPointerH st fuel root fp with
          | .error e => (st, some e)
          | .ok none => (st, some (.sourcePathNotFound fp))
          | .ok (some v) =>
            match copyH fuel st v with
            | none => (st, some .stackOverflow)
            | some (st1, v1) =>
              match setJsonValueAtPointerH st1 root o.path v1 fuel with
              | (st2, some e) => (st2, some e)
              | (st2, none) => applyOpsH fuel st2 root rest
    | "test" =>
      match getJsonValueAtPointerH st fuel root o.path with
      | .error e => (st, some e)
      | .ok got =>
        match deepEqualsUH st fuel got o.value with
        | none => (st, some .stackOverflow)
        | some false => (st, some (.testFailed o.path))
        | some true => applyOpsH fuel st root rest
    | op => (st, some (.unknownOperation op))

/-- `applyJsonPatch` on the heap: deep-copy the input first, then run the
operations against the copy root. -/
def applyJsonPatchH (st : Store) (root : Nat) (ops : List HOp) (fuel : Nat) :
    Store × Option JErr :=
  match copyH fuel st (.href root) with
  | none => (st, some .stackOverflow)
  | some (st1, newRoot) => applyOpsH fuel st1 newRoot ops

/-! ## Small facts about the predicates -/

theorem deepEqualsU_some_some (a b : JSVal) :
    deepEqualsU (some a) (some b) = deepEquals a b := rfl

theorem isJsonArrayB_arr (xs : List (Option JSVal)) :
    isJsonArrayB (.arr xs) = true := by
  simp [isJsonArrayB, isArray, isJsonValueB_eq_true]

theorem isJsonObjectB_arr (xs : List (Option JSVal)) :
    isJsonObjectB (.arr xs) = false := by
  simp [isJsonObjectB, isArray]

/-! ## Decimal rendering meets `parseInt` -/

/-- Mirror of the digit accumulation performed while rendering `n`. -/
def shiftDigits : Nat → Nat → Nat → Nat
  | 0, a, _ => a
  | fuel + 1, a, n =>
    if n < 10 then a * 10 + n
    else shiftDigits fuel a (n / 10) * 10 + n % 10

theorem decDigitVal_digitChar {d : Nat} (h : d < 10) :
    decDigitVal (digitChar d) = some d := by
  interval_cases d <;> decide

theorem digitChar_bounds {d : Nat} (h : d < 10) :
    '0' ≤ digitChar d ∧ digitChar d ≤ '9' := by
  interval_cases d <;> decide

theorem digitChar_not_ws {d : Nat} (h : d < 10) : isJsWs (digitChar d) = false := by
  interval_cases d <;> decide

theorem digitChar_ne {d : Nat} (h : d < 10) :
    digitChar d ≠ '-' ∧ digitChar d ≠ '+' ∧ digitChar d ≠ 'x' ∧ digitChar d ≠ 'X'
      ∧ digitChar d ≠ '/' ∧ digitChar d ≠ '~' := by
  interval_cases d <;> decide

theorem natToCharsAux_mem : ∀ fuel n acc c, c ∈ natToCharsAux fuel n acc →
    c ∈ acc ∨ ∃ d, d < 10 ∧ c = digitChar d := by
  intro fuel
  induction fuel with
  | zero => intro n acc c h; exact Or.inl h
  | succ fuel ih =>
    intro n acc c h
    rw [natToCharsAux] at h
    split at h
    · rename_i h10
      rcases List.mem_cons.mp h with h1 | h1
      · exact Or.inr ⟨n, h10, h1⟩
      · exact Or.inl h1
    · rcases ih (n / 10) (digitChar (n % 10) :: acc) c h with h1 | h1
      · rcases List.mem_cons.mp h1 with h2 | h2
        · exact Or.inr ⟨n % 10, by omega, h2⟩
        · exact Or.inl h2
      · exact Or.inr h1

theorem natToCharsAux_head : ∀ fuel n acc, n < fuel →
    ∃ d rest, d < 10 ∧ natToCharsAux fuel n acc = digitChar d :: rest := by
  intro fuel
  induction fuel with
  | zero => intro n acc h; omega
  | succ fuel ih =>
    intro n acc h
    rw [natToCharsAux]
    by_cases h10 : n < 10
    · exact ⟨n, acc, h10, by rw [if_pos h10]⟩
    · rw [if_neg h10]
      exact ih (n / 10) _ (by omega)

theorem parseDigitsAux_render : ∀ fuel n acc a, n < fuel →
    parseDigitsAux decDigitVal 10 (natToCharsAux fuel n acc) (some a)
      = parseDigitsAux decDigitVal 10 acc (some (shiftDigits fuel a n)) := by
  intro fuel
  induction fuel with
  | zero => intro n acc a h; omega
  | succ fuel ih =>
    intro n acc a h
    rw [natToCharsAux, shiftDigits]
    by_cases h10 : n < 10
    · rw [if_pos h10, if_pos h10, parseDigitsAux, decDigitVal_digitChar h10]
      rfl
    · rw [if_neg h10, if_neg h10]
      rw [ih (n / 10) _ a (by omega)]
      rw [parseDigitsAux, decDigitVal_digitChar (by omega : n % 10 < 10)]
      rfl

theorem shiftDigits_zero : ∀ fuel n, n < fuel → shiftDigits fuel 0 n = n := by
  intro fuel
  induction fuel with
  | zero => intro n h; omega
  | succ fuel ih =>
    intro n h
    rw [shiftDigits]
    by_cases h10 : n < 10
    · rw [if_pos h10]; omega
    · rw [if_neg h10, ih (n / 10) (by omega)]
      omega

theorem dropWhile_eq_self_of_all {p : Char → Bool} :
    ∀ cs : List Char, (∀ c ∈ cs, p c = false) → cs.dropWhile p = cs := by
  intro cs h
  cases cs with
  | nil => rfl
  | cons c cs =>
    rw [List.dropWhile_cons, if_neg (by simp [h c (by simp)])]

/-- `Number.parseInt` (any radix mode) reads a rendered natural back. -/
theorem jsParseIntCore_render (auto : Bool) (fuel n : Nat) (h : n < fuel) :
    jsParseIntCore auto (natToCharsAux fuel n []) = some n := by
  obtain ⟨d, rest, hd, heq⟩ := natToCharsAux_head fuel n [] h
  have hdigits : ∀ c ∈ digitChar d :: rest, ∃ e, e < 10 ∧ c = digitChar e := by
    intro c hc
    rw [← heq] at hc
    rcases natToCharsAux_mem fuel n [] c hc with h0 | h0
    · exact absurd h0 (by simp)
    · exact h0
  have hws : (digitChar d :: rest).dropWhile isJsWs = digitChar d :: rest := by
    apply dropWhile_eq_self_of_all
    intro c hc
    obtain ⟨e, he, rfl⟩ := hdigits c hc
    exact digitChar_not_ws he
  have hne1 : ¬ ((digitChar d :: rest).head? = some '-') := by
    simpa using (digitChar_ne hd).1
  have hne2 : ¬ ((digitChar d :: rest).head? = some '-'
      ∨ (digitChar d :: rest).head? = some '+') := by
    rintro (hcon | hcon)
    · exact (digitChar_ne hd).1 (by simpa using hcon)
    · exact (digitChar_ne hd).2.1 (by simpa using hcon)
  have hhex : ¬ (auto = true ∧ ((digitChar d :: rest).take 2 = ['0', 'x']
      ∨ (digitChar d :: rest).take 2 = ['0', 'X'])) := by
    rintro ⟨-, hcon⟩
    rcases hcon with hcon | hcon <;>
    · cases rest with
      | nil => simp at hcon
      | cons c' rest' =>
        obtain ⟨e, he, hc'⟩ := hdigits c' (by simp)
        simp only [List.take_succ_cons, List.take_zero, List.cons.injEq,
          List.take] at hcon
        rw [hc'] at hcon
        first
          | exact (digitChar_ne he).2.2.1 hcon.2.1
          | exact (digitChar_ne he).2.2.2.1 hcon.2.1
  have hpar : parseDigitsAux decDigitVal 10 (digitChar d :: rest) none = some n := by
    have hstep : parseDigitsAux decDigitVal 10 (digitChar d :: rest) none
        = parseDigitsAux decDigitVal 10 (digitChar d :: rest) (some 0) := by
      rw [parseDigitsAux, parseDigitsAux, decDigitVal_digitChar hd]
      rfl
    rw [hstep, ← heq, parseDigitsAux_render fuel n [] 0 h, shiftDigits_zero fuel n h]
    rw [parseDigitsAux]
  rw [jsParseIntCore, heq]
  simp only [hws]
  rw [if_neg hne2, if_neg hne1]
  rw [if_neg hhex, if_neg hhex]
  rw [hpar]
  simp

theorem jsParseInt10_natToString (n : Nat) :
    jsParseInt10 (natToString n) = some (n : Int) := by
  have := jsParseIntCore_render false (n + 1) n (by omega)
  simpa [jsParseInt10, natToString] using this

theorem jsParseInt_natToString (n : Nat) :
    jsParseInt (natToString n) = some (n : Int) := by
  have := jsParseIntCore_render true (n + 1) n (by omega)
  simpa [jsParseInt, natToString] using this

theorem natToString_ne_nil (n : Nat) : (natToString n).data ≠ [] := by
  obtain ⟨d, rest, hd, heq⟩ := natToCharsAux_head (n + 1) n [] (by omega)
  simp [natToString, heq]

theorem isDigits_natToString (n : Nat) : isDigits (natToString n) = true := by
  rw [isDigits]
  simp only [decide_eq_true_eq]
  constructor
  · simpa using natToString_ne_nil n
  · rw [List.all_eq_true]
    intro c hc
    rcases natToCharsAux_mem (n + 1) n [] c (by simpa [natToString] using hc) with h | h
    · simp at h
    · obtain ⟨d, hd, rfl⟩ := h
      simpa using digitChar_bounds hd

theorem natToString_no_slash (n : Nat) : '/' ∉ (natToString n).data := by
  intro hmem
  rcases natToCharsAux_mem (n + 1) n [] _ (by simpa [natToString] using hmem) with h | h
  · simp at h
  · obtain ⟨d, hd, hchar⟩ := h
    exact (digitChar_ne hd).2.2.2.2.1 hchar.symm

theorem natToString_no_tilde (n : Nat) : '~' ∉ (natToString n).data := by
  intro hmem
  rcases natToCharsAux_mem (n + 1) n [] _ (by simpa [natToString] using hmem) with h | h
  · simp at h
  · obtain ⟨d, hd, hchar⟩ := h
    exact (digitChar_ne hd).2.2.2.2.2 hchar.symm

/-! ## Splitting generated pointers -/

namespace Codec

theorem splitSlash_no_slash (cs : List Char) (h : '/' ∉ cs) : splitSlash cs = [cs] := by
  induction cs with
  | nil => rfl
  | cons c cs ih =>
    rw [splitSlash]
    rw [if_neg (by intro hc; exact h (by simp [hc]))]
    rw [ih (by intro hc; exact h (by simp [hc]))]

theorem splitSlash_append (xs ys : List Char) (hys : '/' ∉ ys) :
    splitSlash (xs ++ '/' :: ys) = splitSlash xs ++ [ys] := by
  induction xs with
  | nil =>
    rw [List.nil_append]
    simp [splitSlash, splitSlash_no_slash ys hys]
  | cons c xs ih =>
    rw [List.cons_append, splitSlash, splitSlash]
    by_cases hc : c = '/'
    · rw [if_pos hc, if_pos hc, ih]
      rfl
    · rw [if_neg hc, if_neg hc, ih]
      cases h0 : splitSlash xs with
      | nil => exact absurd h0 (splitSlash_ne_nil xs)
      | cons t ts => rfl

theorem replSlash_no_slash : ∀ cs : List Char, '/' ∉ replSlash cs := by
  intro cs
  induction cs with
  | nil => simp [replSlash]
  | cons c cs ih =>
    rw [replSlash]
    split
    · simp only [List.mem_cons]
      rintro (h | h | h) <;> simp_all
    · rename_i hc
      simp only [List.mem_cons]
      rintro (h | h)
      · exact hc h.symm
      · exact ih h

theorem repl21_no_tilde (cs : List Char) (h : '~' ∉ cs) : repl21 cs = cs := by
  induction cs with
  | nil => rfl
  | cons c cs ih =>
    rw [repl21_cons_ne (by intro hc; exact h (by simp [hc])) cs]
    rw [ih (by intro hc; exact h (by simp [hc]))]

theorem repl20_no_tilde (cs : List Char) (h : '~' ∉ cs) : repl20 cs = cs := by
  induction cs with
  | nil => rfl
  | cons c cs ih =>
    rw [repl20_cons_ne (by intro hc; exact h (by simp [hc])) cs]
    rw [ih (by intro hc; exact h (by simp [hc]))]

theorem repl21_no_tilde_mem (cs : List Char) (h : '~' ∉ cs) : repl21 cs = cs :=
  repl21_no_tilde cs h

end Codec

theorem encodePointer_no_slash (k : String) : '/' ∉ (encodePointer k).data :=
  Codec.replSlash_no_slash _

theorem decodePointer_no_tilde (s : String) (h : '~' ∉ s.data) :
    decodePointer s = s := by
  cases s with
  | mk data =>
    show String.mk (Codec.repl20 (Codec.repl21 data)) = String.mk data
    rw [Codec.repl21_no_tilde data h, Codec.repl20_no_tilde data h]

theorem decodePointer_natToString (n : Nat) :
    decodePointer (natToString n) = natToString n :=
  decodePointer_no_tilde _ (natToString_no_tilde n)

theorem drop_one_append_singleton {α : Type} (l : List α) (x : α) (h : l ≠ []) :
    (l ++ [x]).drop 1 = l.drop 1 ++ [x] := by
  cases l with
  | nil => exact absurd rfl h
  | cons a l => rfl

/-- Appending one segment to a pointer string splits off one decoded
segment. -/
theorem segsOf_append (pre seg : String) (hseg : '/' ∉ seg.data) :
    segsOf (pre ++ "/" ++ seg) = segsOf pre ++ [decodePointer seg] := by
  have hdata : (pre ++ "/" ++ seg).data = pre.data ++ '/' :: seg.data := by
    simp
  rw [segsOf, hdata, Codec.splitSlash_append pre.data seg.data hseg]
  rw [drop_one_append_singleton _ _ (Codec.splitSlash_ne_nil pre.data)]
  rw [List.map_append]
  rfl

/-! ## Claim C2 — pointer round-trip -/

theorem string_ext {a b : String} (h : a.data = b.data) : a = b := by
  cases a
  cases b
  exact congrArg String.mk (by simpa using h)

theorem band_eq_true {a b : Bool} (h : (a && b) = true) : a = true ∧ b = true := by
  constructor <;> simp_all

theorem genPairs_head (v : JSVal) (pre : String) : (pre, v) ∈ genPairs v pre := by
  rw [genPairs.eq_def]
  exact List.mem_cons_self _ _

theorem append_slash_assoc (a s t : String) :
    (a ++ "/" ++ s) ++ "/" ++ t = a ++ "/" ++ (s ++ "/" ++ t) := by
  apply string_ext
  simp

theorem mem_insertSorted {a s : String} {l : List String}
    (h : a ∈ insertSorted s l) : a = s ∨ a ∈ l := by
  induction l with
  | nil => simpa [insertSorted] using h
  | cons t ts ih =>
    rw [insertSorted] at h
    split at h
    · simpa using h
    · rcases List.mem_cons.mp h with h1 | h1
      · right; simp [h1]
      · rcases ih h1 with h2 | h2
        · exact Or.inl h2
        · right; simp [h2]

theorem mem_sortStrings {a : String} {l : List String}
    (h : a ∈ sortStrings l) : a ∈ l := by
  induction l with
  | nil => simpa [sortStrings] using h
  | cons s ss ih =>
    rw [sortStrings] at h
    rcases mem_insertSorted h with h1 | h1
    · simp [h1]
    · simp [ih h1]

theorem mem_dedupAux {a : String} : ∀ {seen l : List String},
    a ∈ dedupAux seen l → a ∈ l := by
  intro seen l
  induction l generalizing seen with
  | nil => intro h; simpa [dedupAux] using h
  | cons s ss ih =>
    intro h
    rw [dedupAux] at h
    split at h
    · exact List.mem_cons_of_mem _ (ih h)
    · rcases List.mem_cons.mp h with h1 | h1
      · simp [h1]
      · exact List.mem_cons_of_mem _ (ih h1)

theorem lookupField_of_mem {fs : List (String × JSVal)} {k : String} {v : JSVal}
    (hmem : (k, v) ∈ fs) (hnodup : (fs.map Prod.fst).Nodup) :
    lookupField fs k = some v := by
  induction fs with
  | nil => simp at hmem
  | cons f fs ih =>
    obtain ⟨k', w⟩ := f
    rcases List.mem_cons.mp hmem with h | h
    · obtain ⟨rfl, rfl⟩ := Prod.mk.injEq .. |>.mp h.symm
      simp [lookupField]
    · have hk : ¬ k' = k := by
        intro hkk
        subst hkk
        have hin : k' ∈ fs.map Prod.fst := List.mem_map.mpr ⟨(k', v), h, rfl⟩
        rw [List.map_cons, List.nodup_cons] at hnodup
        exact hnodup.1 hin
      rw [lookupField, if_neg hk]
      exact ih h ((List.nodup_cons.mp (by simpa using hnodup)).2)

mutual

theorem mem_getAll_pairs (v : JSVal) (pre p : String)
    (h : p ∈ getAllJsonPointers v pre) : ∃ x, (p, x) ∈ genPairs v pre := by
  have hroot : (if pre = "" then "" else pre) = pre := by split <;> simp_all
  cases v with
  | arr xs =>
    rw [getAllJsonPointers.eq_def] at h
    have h1 := mem_dedupAux (mem_sortStrings h)
    rw [hroot] at h1
    rcases List.mem_cons.mp h1 with h2 | h2
    · exact ⟨.arr xs, by rw [h2]; exact genPairs_head _ pre⟩
    · obtain ⟨x, hx⟩ := mem_genArr_pairs xs pre 0 p h2
      exact ⟨x, by rw [genPairs.eq_def]; exact List.mem_cons_of_mem _ hx⟩
  | obj fs =>
    rw [getAllJsonPointers.eq_def] at h
    have h1 := mem_dedupAux (mem_sortStrings h)
    rw [hroot] at h1
    rcases List.mem_cons.mp h1 with h2 | h2
    · exact ⟨.obj fs, by rw [h2]; exact genPairs_head _ pre⟩
    · obtain ⟨x, hx⟩ := mem_genObj_pairs fs pre p h2
      exact ⟨x, by rw [genPairs.eq_def]; exact List.mem_cons_of_mem _ hx⟩
  | null =>
    rw [getAllJsonPointers.eq_def] at h
    have h1 := mem_dedupAux (mem_sortStrings h)
    rw [hroot] at h1
    rcases List.mem_cons.mp h1 with h2 | h2
    · exact ⟨.null, by rw [h2]; exact genPairs_head _ pre⟩
    · exact absurd h2 (List.not_mem_nil p)
  | bool b =>
    rw [getAllJsonPointers.eq_def] at h
    have h1 := mem_dedupAux (mem_sortStrings h)
    rw [hroot] at h1
    rcases List.mem_cons.mp h1 with h2 | h2
    · exact ⟨.bool b, by rw [h2]; exact genPairs_head _ pre⟩
    · exact absurd h2 (List.not_mem_nil p)
  | num n =>
    rw [getAllJsonPointers.eq_def] at h
    have h1 := mem_dedupAux (mem_sortStrings h)
    rw [hroot] at h1
    rcases List.mem_cons.mp h1 with h2 | h2
    · exact ⟨.num n, by rw [h2]; exact genPairs_head _ pre⟩
    · exact absurd h2 (List.not_mem_nil p)
  | str s =>
    rw [getAllJsonPointers.eq_def] at h
    have h1 := mem_dedupAux (mem_sortStrings h)
    rw [hroot] at h1
    rcases List.mem_cons.mp h1 with h2 | h2
    · exact ⟨.str s, by rw [h2]; exact genPairs_head _ pre⟩
    · exact absurd h2 (List.not_mem_nil p)

theorem mem_genArr_pairs (xs : List (Option JSVal)) (pre : String) (i : Nat)
    (p : String) (h : p ∈ genArr xs pre i) : ∃ x, (p, x) ∈ pairsArr xs pre i := by
  match xs with
  | [] => simp [genArr] at h
  | none :: xs =>
    rw [genArr] at h
    obtain ⟨x, hx⟩ := mem_genArr_pairs xs pre (i + 1) p h
    exact ⟨x, by rw [pairsArr]; exact hx⟩
  | some item :: xs =>
    rw [genArr] at h
    rcases List.mem_append.mp h with h1 | h1
    · rcases List.mem_cons.mp h1 with h2 | h2
      · refine ⟨item, ?_⟩
        rw [pairsArr]
        apply List.mem_append.mpr
        left
        rw [h2]
        exact genPairs_head item _
      · obtain ⟨x, hx⟩ := mem_getAll_pairs item _ p h2
        exact ⟨x, by rw [pairsArr]; exact List.mem_append.mpr (Or.inl hx)⟩
    · obtain ⟨x, hx⟩ := mem_genArr_pairs xs pre (i + 1) p h1
      exact ⟨x, by rw [pairsArr]; exact List.mem_append.mpr (Or.inr hx)⟩

theorem mem_genObj_pairs (fs : List (String × JSVal)) (pre p : String)
    (h : p ∈ genObj fs pre) : ∃ x, (p, x) ∈ pairsObj fs pre := by
  match fs with
  | [] => simp [genObj] at h
  | (k, v) :: fs =>
    rw [genObj] at h
    rcases List.mem_append.mp h with h1 | h1
    · rcases List.mem_cons.mp h1 with h2 | h2
      · refine ⟨v, ?_⟩
        rw [pairsObj]
        apply List.mem_append.mpr
        left
        rw [h2]
        exact genPairs_head v _
      · obtain ⟨x, hx⟩ := mem_getAll_pairs v _ p h2
        exact ⟨x, by rw [pairsObj]; exact List.mem_append.mpr (Or.inl hx)⟩
    · obtain ⟨x, hx⟩ := mem_genObj_pairs fs pre p h1
      exact ⟨x, by rw [pairsObj]; exact List.mem_append.mpr (Or.inr hx)⟩

end

theorem walkGet_arr_index {xs : List (Option JSVal)} {j : Nat} {item : JSVal}
    (hget : xs.getD j none = some item) (hlt : j < xs.length) (rel : List String) :
    walkGet (.arr xs) (natToString j :: rel) = walkGet item rel := by
  have harr : arrGet xs ((j : Int)) = some item := by
    rw [arrGet,
      if_pos (by constructor
                 · exact Int.ofNat_nonneg j
                 · simpa using hlt)]
    simpa using hget
  rw [walkGet]
  simp only [isDigits_natToString, if_true, jsParseInt10_natToString,
    Option.getD_some, harr]

theorem walkGet_obj_key {fs : List (String × JSVal)} {k : String} {v : JSVal}
    (hlook : lookupField fs k = some v) (rel : List String) :
    walkGet (.obj fs) (k :: rel) = walkGet v rel := by
  rw [walkGet]
  simp only [hlook]

theorem segsOf_child (pre : String) (k : String) :
    segsOf (pre ++ "/" ++ encodePointer k) = segsOf pre ++ [k] := by
  rw [segsOf_append pre (encodePointer k) (encodePointer_no_slash k), decode_encode]

theorem segsOf_child_index (pre : String) (n : Nat) :
    segsOf (pre ++ "/" ++ natToString n) = segsOf pre ++ [natToString n] := by
  rw [segsOf_append pre (natToString n) (natToString_no_slash n),
    decodePointer_natToString]

mutual

theorem genPairs_resolve (v : JSVal) (pre p : String) (x : JSVal)
    (hnodup : nodupKeysVal v = true)
    (hmem : (p, x) ∈ genPairs v pre) :
    ∃ rel, segsOf p = segsOf pre ++ rel
      ∧ walkGet v rel = some x
      ∧ (rel = [] → p = pre)
      ∧ (rel ≠ [] → ∃ t, p = pre ++ "/" ++ t) := by
  rw [genPairs.eq_def] at hmem
  rcases List.mem_cons.mp hmem with h | h
  · obtain ⟨rfl, rfl⟩ := Prod.mk.injEq .. |>.mp h
    exact ⟨[], by simp, by rw [walkGet], fun _ => rfl, by simp⟩
  · cases v with
    | arr xs =>
      obtain ⟨j, item, rel, hget, hlt, hsegs, hwalk, t, hp⟩ :=
        pairsArr_resolve xs pre 0 p x (by simpa [nodupKeysVal] using hnodup) h
      refine ⟨natToString (0 + j) :: rel, hsegs, ?_, by simp, fun _ => ⟨t, hp⟩⟩
      rw [Nat.zero_add]
      rw [walkGet_arr_index hget hlt rel]
      exact hwalk
    | obj fs =>
      obtain ⟨k, w, rel, hmem', hsegs, hwalk, t, hp⟩ :=
        pairsObj_resolve fs pre p x (by
          rw [nodupKeysVal] at hnodup
          exact (band_eq_true hnodup).2) h
      refine ⟨k :: rel, hsegs, ?_, by simp, fun _ => ⟨t, hp⟩⟩
      have hnd : (fs.map Prod.fst).Nodup := by
        rw [nodupKeysVal] at hnodup
        simpa using (band_eq_true hnodup).1
      rw [walkGet_obj_key (lookupField_of_mem hmem' hnd) rel]
      exact hwalk
    | null => simp at h
    | bool b => simp at h
    | num n => simp at h
    | str s => simp at h

theorem pairsArr_resolve (xs : List (Option JSVal)) (pre : String) (i : Nat)
    (p : String) (x : JSVal)
    (hnodup : nodupKeysArr xs = true)
    (hmem : (p, x) ∈ pairsArr xs pre i) :
    ∃ j item rel, xs.getD j none = some item ∧ j < xs.length
      ∧ segsOf p = segsOf pre ++ (natToString (i + j) :: rel)
      ∧ walkGet item rel = some x
      ∧ ∃ t, p = pre ++ "/" ++ t := by
  match xs with
  | [] => simp [pairsArr] at hmem
  | none :: xs =>
    rw [pairsArr] at hmem
    obtain ⟨j, item, rel, hget, hlt, hsegs, hwalk, t, hp⟩ :=
      pairsArr_resolve xs pre (i + 1) p x (by simpa [nodupKeysArr] using hnodup) hmem
    refine ⟨j + 1, item, rel, by simpa using hget, by simpa using hlt, ?_, hwalk, t, hp⟩
    have harith : i + (j + 1) = i + 1 + j := by omega
    rw [harith]
    exact hsegs
  | some item0 :: xs =>
    rw [pairsArr] at hmem
    have hnd := band_eq_true (by simpa [nodupKeysArr] using hnodup)
    rcases List.mem_append.mp hmem with h1 | h1
    · obtain ⟨rel, hsegs, hwalk, hnil, hcons⟩ :=
        genPairs_resolve item0 (pre ++ "/" ++ natToString i) p x hnd.1 h1
      refine ⟨0, item0, rel, by simp, by simp, ?_, hwalk, ?_⟩
      · rw [hsegs, segsOf_child_index, Nat.add_zero]
        simp
      · rcases Classical.em (rel = []) with hr | hr
        · exact ⟨natToString i, hnil hr⟩
        · obtain ⟨t, hp⟩ := hcons hr
          exact ⟨natToString i ++ "/" ++ t, by rw [hp, append_slash_assoc]⟩
    · obtain ⟨j, item, rel, hget, hlt, hsegs, hwalk, t, hp⟩ :=
        pairsArr_resolve xs pre (i + 1) p x hnd.2 h1
      refine ⟨j + 1, item, rel, by simpa using hget, by simpa using hlt, ?_, hwalk, t, hp⟩
      have harith : i + (j + 1) = i + 1 + j := by omega
      rw [harith]
      exact hsegs

theorem pairsObj_resolve (fs : List (String × JSVal)) (pre p : String) (x : JSVal)
    (hnodup : nodupKeysObj fs = true)
    (hmem : (p, x) ∈ pairsObj fs pre) :
    ∃ k v rel, (k, v) ∈ fs
      ∧ segsOf p = segsOf pre ++ (k :: rel)
      ∧ walkGet v rel = some x
      ∧ ∃ t, p = pre ++ "/" ++ t := by
  match fs with
  | [] => simp [pairsObj] at hmem
  | (k0, v0) :: fs =>
    rw [pairsObj] at hmem
    have hnd := band_eq_true (by simpa [nodupKeysObj] using hnodup)
    rcases List.mem_append.mp hmem with h1 | h1
    · obtain ⟨rel, hsegs, hwalk, hnil, hcons⟩ :=
        genPairs_resolve v0 (pre ++ "/" ++ encodePointer k0) p x hnd.1 h1
      refine ⟨k0, v0, rel, by simp, ?_, hwalk, ?_⟩
      · rw [hsegs, segsOf_child]
        simp
      · rcases Classical.em (rel = []) with hr | hr
        · exact ⟨encodePointer k0, hnil hr⟩
        · obtain ⟨t, hp⟩ := hcons hr
          exact ⟨encodePointer k0 ++ "/" ++ t, by rw [hp, append_slash_assoc]⟩
    · obtain ⟨k, v, rel, hmem', hsegs, hwalk, t, hp⟩ :=
        pairsObj_resolve fs pre p x hnd.2 h1
      exact ⟨k, v, rel, List.mem_cons_of_mem _ hmem', hsegs, hwalk, t, hp⟩

end

theorem isJsonPointer_of_slash {p : String} {cs : List Char}
    (h : p.data = '/' :: cs) : isJsonPointer p = true := by
  rw [isJsonPointer, h]
  have h2 : 0 < (Codec.splitSlash ('/' :: cs)).length :=
    List.length_pos.mpr (Codec.splitSlash_ne_nil _)
  simp [h2]

/-- C2 counterexample: on the root-level array `[0]`, the generated pointer
`/0` makes `getJsonValueAtPointer` throw `InvalidObject` rather than return
the stored value. -/
theorem C2_counterexample :
    "/0" ∈ getAllJsonPointers (.arr [some (.num 0)]) ""
    ∧ getJsonValueAtPointer (.arr [some (.num 0)]) "/0" = .error .invalidObject := by
  constructor
  · simp [getAllJsonPointers, genArr, genObj, sortStrings, insertSorted,
      dedupFirst, dedupAux, natToString, natToCharsAux, digitChar]
  · decide

/-- C2 (amended): for every JSON value `v` that is not a root-level array
and, when an object, has no top-level empty-string key (whose pointer `/`
is shadowed by the root check), every pointer produced by
`getAllJsonPointers` resolves through `getJsonValueAtPointer` — never
`undefined`, never a throw — to the very value stored at the location the
pointer was generated from. -/
theorem C2_pointer_roundtrip (v : JSVal) (p : String)
    (hnodup : nodupKeysVal v = true)
    (hnotarr : isArray v = false)
    (hnokey : ∀ fs, v = .obj fs → lookupField fs "" = none)
    (hmem : p ∈ getAllJsonPointers v "") :
    ∃ x, (p, x) ∈ genPairs v "" ∧ getJsonValueAtPointer v p = .ok (some x) := by
  obtain ⟨x, hpair⟩ := mem_getAll_pairs v "" p hmem
  obtain ⟨rel, hsegs, hwalk, hnil, hcons⟩ := genPairs_resolve v "" p x hnodup hpair
  refine ⟨x, hpair, ?_⟩
  have hsegs0 : segsOf p = rel := by simpa [show segsOf "" = [] from rfl] using hsegs
  rcases rel with _ | ⟨r, rs⟩
  · have hp : p = "" := hnil rfl
    subst hp
    rw [getJsonValueAtPointer, if_pos (Or.inr rfl)]
    have hx : some v = some x := by simpa [walkGet] using hwalk
    rw [hx]
  · obtain ⟨t, hp⟩ := hcons (by simp)
    have hpdata : p.data = '/' :: t.data := by
      rw [hp]; simp
    have hpne : ¬ p = "" := by
      intro h0
      rw [h0] at hpdata
      simp at hpdata
    by_cases hslash : p = "/"
    · -- pointer "/" would need a top-level empty key; excluded
      have h2 : ([""] : List String) = r :: rs := by
        have hroot2 : segsOf "/" = [""] := rfl
        rw [hslash, hroot2] at hsegs0
        exact hsegs0
      have hre : r = "" := (List.cons.injEq .. |>.mp h2.symm).1
      have hrs : rs = [] := (List.cons.injEq .. |>.mp h2.symm).2
      subst hre
      subst hrs
      cases v with
      | obj fs =>
        have hl := hnokey fs rfl
        rw [walkGet] at hwalk
        simp [hl] at hwalk
      | arr xs => simp [isArray] at hnotarr
      | null => simp [walkGet] at hwalk
      | bool b => simp [walkGet] at hwalk
      | num n => simp [walkGet] at hwalk
      | str s => simp [walkGet] at hwalk
    · rw [getJsonValueAtPointer,
        if_neg (by rintro (h0 | h0); exact hslash h0; exact hpne h0)]
      have hobj : isJsonObjectB v = true := by
        cases v with
        | obj fs => exact isJsonObjectB_obj fs
        | arr xs => simp [isArray] at hnotarr
        | null => simp [walkGet] at hwalk
        | bool b => simp [walkGet] at hwalk
        | num n => simp [walkGet] at hwalk
        | str s => simp [walkGet] at hwalk
      rw [if_neg (by simp [hobj])]
      rw [if_neg (by simp [isJsonPointer_of_slash hpdata])]
      rw [hsegs0, hwalk]

/-- C2 witness: on `{a: 1}` the pointer `/a` resolves to the stored `1`. -/
theorem C2_witness :
    nodupKeysVal (.obj [("a", .num 1)]) = true
    ∧ isArray (.obj [("a", .num 1)]) = false
    ∧ "/a" ∈ getAllJsonPointers (.obj [("a", .num 1)]) ""
    ∧ ∃ x, ("/a", x) ∈ genPairs (.obj [("a", .num 1)]) ""
        ∧ getJsonValueAtPointer (.obj [("a", .num 1)]) "/a" = .ok (some x) := by
  have hmem : "/a" ∈ getAllJsonPointers (.obj [("a", .num 1)]) "" := by
    simp [getAllJsonPointers, genArr, genObj, sortStrings, insertSorted,
      dedupFirst, dedupAux, encodePointer, Codec.replTilde, Codec.replSlash]
  refine ⟨by decide, by decide, hmem, ?_⟩
  exact C2_pointer_roundtrip (.obj [("a", .num 1)]) "/a" (by decide) (by decide)
    (by intro fs h; cases h; decide) hmem

/-! ## Claim C4 — diff on type mismatches -/

/-- C4 counterexample: at path `/a` the source holds an array and the target
an object; the claim demands a single `replace` at `/a`, but `getJsonDiff`
falls through every branch and emits no operation at all. -/
theorem C4_counterexample :
    getJsonDiff (.obj [("a", .arr [])]) (.obj [("a", .obj [])]) = []
      ∧ deepEquals (.arr []) (.obj []) = false := by
  constructor
  · simp [getJsonDiff, diffWalk, deepEqualsU, deepEquals, beqVal, beqObj, beqArr,
      jsTypeofU, jsTypeof, isJsonObjectU, isJsonArrayU, isJsonObjectB, isJsonArrayB,
      isJsonValueB, isJsonValueObj, isJsonValueArr, isArray, diffObjSrc, diffObjTgt,
      lookupField, encodePointer, Codec.replTilde, Codec.replSlash]
  · decide

/-- C4 (amended): when the subtree values at a path are not deeply equal and
their `typeof`s differ, or either side is `null`, or either side is neither a
JSON object nor a JSON array, the diff emits exactly one `replace` at that
path carrying the target value; but when one side is an array and the other
an object (`typeof` agrees), no branch applies and *no* operation is emitted
for that subtree. -/
theorem C4_diff_mismatch (path : String) (s t : JSVal)
    (hne : deepEquals s t = false) :
    ((jsTypeof s ≠ jsTypeof t ∨ s = .null ∨ t = .null
        ∨ (isJsonObjectB s = false ∧ isJsonArrayB s = false)
        ∨ (isJsonObjectB t = false ∧ isJsonArrayB t = false)) →
      diffWalk path (some s) (some t)
        = [{op := "replace", path := path, value := some t}])
    ∧ ((∃ xs gs, s = .arr xs ∧ t = .obj gs) ∨ (∃ fs ys, s = .obj fs ∧ t = .arr ys) →
      diffWalk path (some s) (some t) = []) := by
  constructor
  · intro h
    rw [diffWalk.eq_def]
    rw [if_neg (by simp [deepEqualsU_some_some, hne])]
    rw [if_pos]
    · rcases h with h | h | h | ⟨h1, h2⟩ | ⟨h1, h2⟩
      · left; simpa [jsTypeofU] using h
      · right; left; simp [h]
      · right; right; left; simp [h]
      · right; right; right; left
        simp [isJsonObjectU, isJsonArrayU, h1, h2]
      · right; right; right; right
        simp [isJsonObjectU, isJsonArrayU, h1, h2]
  · rintro (⟨xs, gs, rfl, rfl⟩ | ⟨fs, ys, rfl, rfl⟩) <;>
    · rw [diffWalk.eq_def]
      rw [if_neg (by simp [deepEqualsU_some_some, hne])]
      rw [if_neg (by
        simp [jsTypeofU, jsTypeof, isJsonObjectU, isJsonArrayU,
          isJsonObjectB, isJsonArrayB, isArray, isJsonValueB_eq_true])]

/-- C4 witness: a primitive change produces the single `replace`. -/
theorem C4_witness :
    deepEquals (.num 1) (.num 2) = false ∧
    diffWalk "/x" (some (.num 1)) (some (.num 2))
      = [{op := "replace", path := "/x", value := some (.num 2)}] := by
  refine ⟨by decide, ?_⟩
  exact (C4_diff_mismatch "/x" (.num 1) (.num 2) (by decide)).1
    (Or.inr (Or.inr (Or.inr (Or.inl (by decide)))))

/-! ## Claim C5 — containers created during `set` descent -/

/-- C5 counterexample: setting with pointer segments `a`, `-1` on `{}` creates an *array* at the
missing location `a`, although the next segment `-1` does not look like a
non-negative integer (the code's criterion is `Number.isInteger
(Number.parseInt(next))`, which accepts `-1`). -/
theorem C5_counterexample :
    setJsonValueAtPointer (.obj []) "/a/-1" (.num 7)
      = .ok (.obj [("a", .arr [])])
    ∧ jsParseInt "-1" = some (-1) := by
  constructor
  · decide
  · decide

theorem assignFinal_isArray (v cur : JSVal) (s : String) :
    isArray (assignFinal v cur s) = isArray cur := by
  cases cur <;> simp only [assignFinal] <;> (repeat' split) <;> simp [isArray]

theorem setNav_isArray (recur : JSVal → JSVal) (next : Option String)
    (s : String) (cur : JSVal) :
    isArray (setNav recur next s cur) = isArray cur := by
  cases cur <;> simp only [setNav] <;> (repeat' split) <;> simp [isArray]

/-- The top constructor of a value survives `setWalk`. -/
theorem setWalk_isArray (v cur : JSVal) (segs : List String) :
    isArray (setWalk v cur segs) = isArray cur := by
  cases segs with
  | nil => rw [setWalk]
  | cons s rest =>
    rw [setWalk]
    rw [setNav_isArray]
    split
    · rw [assignFinal_isArray]
    · rfl

/-- C5 (amended): at every missing intermediate location of `set`'s descent
— a missing key of an object parent, or a missing slot of an array parent
reached through an in-range integer segment — the container created is an
array iff `Number.parseInt(nextSegment)` parses to an integer; this includes
negative numerals, whitespace- or `0x`-prefixed numerals and digit-prefixed
garbage, not only non-negative integers; otherwise an object is created. -/
theorem C5_created_container (k next : String) (rest : List String)
    (v : JSVal) :
    (∀ fs : List (String × JSVal),
      lookupField fs (match jsParseInt k with
        | some n => intToString n
        | none => k) = none →
      ∃ c, setWalk v (.obj fs) (k :: next :: rest)
          = .obj (setField fs (match jsParseInt k with
                | some n => intToString n
                | none => k) c)
        ∧ (isArray c = true ↔ (jsParseInt next).isSome))
    ∧ (∀ (xs : List (Option JSVal)) (n : Int),
      jsParseInt k = some n → 0 ≤ n ∧ n.toNat < maxArrayIndex →
      arrGet xs n = none →
      ∃ c, setWalk v (.arr xs) (k :: next :: rest)
          = .arr (arrWriteAt xs n.toNat c)
        ∧ (isArray c = true ↔ (jsParseInt next).isSome)) := by
  constructor
  · intro fs hmiss
    rw [setWalk]
    cases h : jsParseInt k with
    | some n =>
      simp only [h] at hmiss ⊢
      refine ⟨setWalk v (newContainer (some next)) (next :: rest), ?_, ?_⟩
      · simp [setNav, h, hmiss]
      · rw [setWalk_isArray]
        simp [newContainer]
        cases hn : jsParseInt next <;> simp [isArray]
    | none =>
      simp only [h] at hmiss ⊢
      refine ⟨setWalk v (newContainer (some next)) (next :: rest), ?_, ?_⟩
      · simp [setNav, h, hmiss]
      · rw [setWalk_isArray]
        simp [newContainer]
        cases hn : jsParseInt next <;> simp [isArray]
  · intro xs n hk hrange hmiss
    rw [setWalk]
    refine ⟨setWalk v (newContainer (some next)) (next :: rest), ?_, ?_⟩
    · simp [setNav, hk, hmiss, hrange]
    · rw [setWalk_isArray]
      simp [newContainer]
      cases hn : jsParseInt next <;> simp [isArray]

/-- C5 witness: creating under object key `a` with next segment `b` gives an
object, and creating at the missing index `0` of an empty array parent with
next segment `b` also gives an object. -/
theorem C5_witness :
    (lookupField [] (match jsParseInt "a" with
      | some n => intToString n
      | none => "a") = none
    ∧ ∃ c, setWalk (.num 1) (.obj []) ["a", "b"]
        = .obj (setField [] (match jsParseInt "a" with
              | some n => intToString n
              | none => "a") c)
        ∧ (isArray c = true ↔ (jsParseInt "b").isSome))
    ∧ (jsParseInt "0" = some 0
    ∧ arrGet [] 0 = none
    ∧ ∃ c, setWalk (.num 7) (.arr []) ["0", "b"]
        = .arr (arrWriteAt [] (Int.toNat 0) c)
        ∧ (isArray c = true ↔ (jsParseInt "b").isSome)) := by
  refine ⟨⟨by decide, ?_⟩, by decide, by decide, ?_⟩
  · exact (C5_created_container "a" "b" [] (.num 1)).1 [] (by decide)
  · exact (C5_created_container "0" "b" [] (.num 7)).2 [] 0 (by decide)
      (by decide) (by decide)

/-! ## Claim C6 — the `test` operation -/

/-- C6 counterexample: a `test` whose path does not resolve fails with
`TestFailed`, not with the `PathNotFound` error the claim requires. -/
theorem C6_counterexample :
    applyJsonPatch (.obj []) [{op := "test", path := "/x", value := some (.num 1)}]
      = .error (.testFailed "/x")
    ∧ JErr.testFailed "/x" ≠ JErr.pathNotFound "/x" := by
  exact ⟨by decide, by decide⟩

/-- C6 (amended): a `test` whose path does not resolve *passes* when the
operation's `value` is also absent (`undefined === undefined`) and otherwise
fails with `TestFailed` — never with `PathNotFound`; a `test` whose path
resolves to `v` fails with `TestFailed` exactly when `deepEquals` rejects
`v` against the operation's value. -/
theorem C6_test_behavior (doc : JSVal) (path : String) (tval : Option JSVal)
    (rest : List JsonPatchOperation)
    (hobj : isJsonObjectB doc = true) (hptr : isJsonPointer path = true)
    (hroot : ¬ (path = "/" ∨ path = "")) :
    (walkGet doc (segsOf path) = none →
        applyOps doc ({op := "test", path := path, value := tval, fromPath := none} :: rest)
          = if tval = none then applyOps doc rest else .error (.testFailed path))
    ∧ (∀ v, walkGet doc (segsOf path) = some v →
        applyOps doc ({op := "test", path := path, value := tval, fromPath := none} :: rest)
          = if deepEqualsU (some v) tval = true then applyOps doc rest
            else .error (.testFailed path)) := by
  have hget : getJsonValueAtPointer doc path = .ok (walkGet doc (segsOf path)) := by
    rw [getJsonValueAtPointer, if_neg hroot, if_neg (by simp [hobj]),
      if_neg (by simp [hptr])]
  constructor
  · intro hnone
    rw [applyOps]
    simp only [hget, hnone]
    cases tval with
    | none => simp [deepEqualsU]
    | some w => simp [deepEqualsU]
  · intro v hsome
    rw [applyOps]
    simp only [hget, hsome]
    by_cases h : deepEqualsU (some v) tval = true
    · simp [h]
    · simp [h]

/-! ## Claim C9 — `remove` with final segment `-1` -/

/-- The read-only view of `removeWalk`'s navigation: the subtree the loop's
`nestedValue` reaches after consuming the given segments (arrays are entered
through `Number.isSafeInteger(parseInt(key, 10))`, objects by string key). -/
def navRemove : JSVal → List String → Option JSVal
  | cur, [] => some cur
  | cur, key :: rest =>
    match cur with
    | .arr xs =>
      if isSafeIntegerOpt (jsParseInt10 key) then
        match arrGet xs ((jsParseInt10 key).getD 0) with
        | some c => navRemove c rest
        | none => none
      else none
    | .obj fs =>
      match lookupField fs key with
      | some c => navRemove c rest
      | none => none
    | _ => none

theorem spliceOne_neg_one (xs : List (Option JSVal)) (h : xs ≠ []) :
    spliceOne xs (-1) = xs.dropLast := by
  have hlen : 1 ≤ xs.length := List.length_pos.mpr h
  rw [spliceOne]
  have hstart : (if (-1 : Int) < 0 then
      max ((xs.length : Int) + (-1)) 0 else min (-1) (xs.length : Int))
      = (xs.length : Int) - 1 := by
    rw [if_pos (by norm_num)]
    omega
  rw [hstart]
  have htonat : ((xs.length : Int) - 1).toNat = xs.length - 1 := by omega
  rw [htonat]
  have hdrop : xs.drop (xs.length - 1 + 1) = [] := by
    apply List.drop_eq_nil_of_le
    omega
  rw [hdrop, List.append_nil, List.dropLast_eq_take]

theorem lookupField_setField_self (fs : List (String × JSVal)) (k : String)
    (v : JSVal) : lookupField (setField fs k v) k = some v := by
  induction fs with
  | nil => simp [setField, lookupField]
  | cons f fs ih =>
    obtain ⟨k', w⟩ := f
    by_cases h : k' = k
    · simp [setField, lookupField, h]
    · simp [setField, lookupField, h, ih]

theorem arrGet_set_self (xs : List (Option JSVal)) (i : Int) (c c' : JSVal)
    (h : arrGet xs i = some c) :
    arrGet (xs.set i.toNat (some c')) i = some c' := by
  rw [arrGet] at h ⊢
  split at h
  · rename_i hb
    rw [if_pos (by simpa using hb)]
    rw [List.getD_eq_getElem?_getD]
    rw [List.getElem?_set_self (by simpa using hb.2)]
    rfl
  · exact absurd h (by simp)

/-- One path step of `removeWalk` on the segments `segs ++ ["-1"]`. -/
theorem removeWalk_dropLast (segs : List String) (cur : JSVal)
    (xs : List (Option JSVal))
    (hnav : navRemove cur segs = some (.arr xs)) (hne : xs ≠ []) :
    navRemove (removeWalk cur (segs ++ ["-1"])) segs = some (.arr xs.dropLast) := by
  induction segs generalizing cur with
  | nil =>
    have hcur : cur = .arr xs := by simpa [navRemove] using hnav
    subst hcur
    rw [List.nil_append, removeWalk]
    simp only [List.isEmpty_nil, if_true]
    rw [if_pos (by decide)]
    have h1 : (jsParseInt10 "-1").getD 0 = -1 := by decide
    rw [h1, spliceOne_neg_one xs hne]
    rfl
  | cons key segs ih =>
    have hres : (segs ++ ["-1"]).isEmpty = false := by simp
    cases cur with
    | null => simp [navRemove] at hnav
    | bool b => simp [navRemove] at hnav
    | num n => simp [navRemove] at hnav
    | str t => simp [navRemove] at hnav
    | arr ys =>
      by_cases hsafe : isSafeIntegerOpt (jsParseInt10 key) = true
      · cases hget : arrGet ys ((jsParseInt10 key).getD 0) with
        | none => simp [navRemove, hsafe, hget] at hnav
        | some c =>
          simp only [navRemove, hsafe, hget, if_true] at hnav
          simp only [List.cons_append, removeWalk, List.append_eq, hres,
            Bool.false_eq_true, if_false, hsafe, hget, if_true]
          simp only [navRemove, hsafe, if_true]
          rw [arrGet_set_self ys _ c _ hget]
          exact ih c hnav
      · simp [navRemove, hsafe] at hnav
    | obj fs =>
      cases hget : lookupField fs key with
      | none => simp [navRemove, hget] at hnav
      | some c =>
        simp only [navRemove, hget] at hnav
        simp only [List.cons_append, removeWalk, List.append_eq, hres, hget,
          Bool.false_eq_true, if_false]
        simp only [navRemove, lookupField_setField_self]
        exact ih c hnav

/-- C9: on a JSON object whose parent path (under `remove`'s own navigation)
reaches a non-empty array, `removeJsonValueAtPointer` with final segment
`-1` raises no error and removes the last element of that array: the final
segment is parsed with `parseInt`, and `splice(-1, 1)` deletes from the
end. -/
theorem C9_remove_last (j : JSVal) (p : String) (segs : List String)
    (xs : List (Option JSVal))
    (hobj : isJsonObjectB j = true)
    (hptr : isJsonPointer p = true)
    (hsegs : segsOf p = segs ++ ["-1"])
    (hnav : navRemove j segs = some (.arr xs))
    (hne : xs ≠ []) :
    ∃ d, removeJsonValueAtPointer j p = .ok d
      ∧ navRemove d segs = some (.arr xs.dropLast)
      ∧ d ≠ j := by
  have hproot : p ≠ "" := by
    intro h
    rw [h] at hsegs
    simp [segsOf, Codec.splitSlash] at hsegs
  refine ⟨removeWalk j (segsOf p), ?_, ?_, ?_⟩
  · rw [removeJsonValueAtPointer, if_neg (by simp [hptr]),
      if_neg (by simp [hobj]), if_neg hproot]
  · rw [hsegs]
    exact removeWalk_dropLast segs j xs hnav hne
  · intro heq
    have h1 : navRemove (removeWalk j (segsOf p)) segs = some (.arr xs.dropLast) := by
      rw [hsegs]; exact removeWalk_dropLast segs j xs hnav hne
    rw [heq, hnav] at h1
    have : xs = xs.dropLast := by simpa using h1
    have hlt : xs.dropLast.length < xs.length := by
      rw [List.length_dropLast]
      have := List.length_pos.mpr hne
      omega
    rw [← this] at hlt
    exact lt_irrefl _ hlt

/-- C9 witness: removing at segments `arr`, `-1` from `{arr: [1, 2]}`
deletes the trailing `2`. -/
theorem C9_witness :
    isJsonObjectB (.obj [("arr", .arr [some (.num 1), some (.num 2)])]) = true
    ∧ segsOf "/arr/-1" = ["arr"] ++ ["-1"]
    ∧ navRemove (.obj [("arr", .arr [some (.num 1), some (.num 2)])]) ["arr"]
        = some (.arr [some (.num 1), some (.num 2)])
    ∧ ∃ d, removeJsonValueAtPointer
          (.obj [("arr", .arr [some (.num 1), some (.num 2)])]) "/arr/-1" = .ok d
        ∧ navRemove d ["arr"] = some (.arr [some (.num 1)])
        ∧ d ≠ .obj [("arr", .arr [some (.num 1), some (.num 2)])] := by
  refine ⟨by decide, by decide, by decide, ?_⟩
  have h := C9_remove_last (.obj [("arr", .arr [some (.num 1), some (.num 2)])])
    "/arr/-1" ["arr"] [some (.num 1), some (.num 2)]
    (by decide) (by decide) (by decide) (by decide) (by decide)
  simpa using h

/-- C6 witness: a resolving `test` against an equal value passes. -/
theorem C6_witness :
    isJsonObjectB (.obj [("a", .num 1)]) = true
    ∧ isJsonPointer "/a" = true
    ∧ walkGet (.obj [("a", .num 1)]) (segsOf "/a") = some (.num 1)
    ∧ applyOps (.obj [("a", .num 1)])
        [{op := "test", path := "/a", value := some (.num 1), fromPath := none}]
      = .ok (.obj [("a", .num 1)]) := by
  refine ⟨by decide, by decide, by decide, ?_⟩
  rw [(C6_test_behavior (.obj [("a", .num 1)]) "/a" (some (.num 1)) []
      (by decide) (by decide) (by decide)).2 (.num 1) (by decide)]
  simp [deepEqualsU_some_some]
  decide

/-! ## Claim C3 — set/get consistency -/

theorem lookupField_setField_ne (fs : List (String × JSVal)) (k k' : String)
    (v : JSVal) (h : k ≠ k') :
    lookupField (setField fs k' v) k = lookupField fs k := by
  induction fs with
  | nil =>
    simp [setField, lookupField, Ne.symm h]
  | cons f fs ih =>
    obtain ⟨k0, w⟩ := f
    by_cases h0 : k0 = k'
    · subst h0
      simp [setField, lookupField, Ne.symm h]
    · by_cases h1 : k0 = k
      · simp [setField, lookupField, h0, h1, h]
      · simp [setField, lookupField, h0, h1, h, ih]

theorem digit_char_facts {c : Char} (h1 : '0' ≤ c) (h2 : c ≤ '9') :
    isJsWs c = false ∧ c ≠ '-' ∧ c ≠ '+' ∧ c ≠ 'x' ∧ c ≠ 'X' := by
  refine ⟨?_, ?_, ?_, ?_, ?_⟩
  · simp only [isJsWs, decide_eq_false_iff_not]
    rintro (rfl | rfl | rfl | rfl | rfl | rfl | rfl | rfl) <;>
      revert h1 h2 <;> decide
  · rintro rfl; revert h1 h2; decide
  · rintro rfl; revert h1 h2; decide
  · rintro rfl; revert h1 h2; decide
  · rintro rfl; revert h1 h2; decide

theorem parseDigitsAux_digits :
    ∀ cs : List Char, (∀ c ∈ cs, '0' ≤ c ∧ c ≤ '9') → ∀ a : Nat,
      ∃ m : Nat, parseDigitsAux decDigitVal 10 cs (some a) = some m := by
  intro cs
  induction cs with
  | nil => exact fun _ a => ⟨a, rfl⟩
  | cons c cs ih =>
    intro h a
    have hc := h c (by simp)
    have hd : decDigitVal c = some (c.toNat - '0'.toNat) := by
      rw [decDigitVal, if_pos hc]
    rw [parseDigitsAux, hd]
    exact ih (fun x hx => h x (by simp [hx])) _

theorem jsParseIntCore_digits (c : Char) (cs : List Char)
    (h : ∀ x ∈ c :: cs, '0' ≤ x ∧ x ≤ '9') :
    ∃ m : Nat, ∀ auto : Bool, jsParseIntCore auto (c :: cs) = some (m : Int) := by
  have hc := h c (by simp)
  have hfacts := digit_char_facts hc.1 hc.2
  have hws : (c :: cs).dropWhile isJsWs = c :: cs := by
    apply dropWhile_eq_self_of_all
    intro x hx
    exact (digit_char_facts (h x hx).1 (h x hx).2).1
  have hne2 : ¬ ((c :: cs).head? = some '-' ∨ (c :: cs).head? = some '+') := by
    rintro (hcon | hcon)
    · exact hfacts.2.1 (by simpa using hcon)
    · exact hfacts.2.2.1 (by simpa using hcon)
  have hne1 : ¬ ((c :: cs).head? = some '-') := by
    intro hcon
    exact hfacts.2.1 (by simpa using hcon)
  have hhex : ∀ auto : Bool, ¬ (auto = true ∧ ((c :: cs).take 2 = ['0', 'x']
      ∨ (c :: cs).take 2 = ['0', 'X'])) := by
    intro auto
    rintro ⟨-, hcon | hcon⟩ <;>
      cases cs with
      | nil => simp at hcon
      | cons c2 cs2 =>
        have h2 := digit_char_facts (h c2 (by simp)).1 (h c2 (by simp)).2
        simp only [List.take_succ_cons, List.take_zero, List.cons.injEq,
          List.take] at hcon
        first
          | exact h2.2.2.2.1 hcon.2.1
          | exact h2.2.2.2.2 hcon.2.1
  have hd : decDigitVal c = some (c.toNat - '0'.toNat) := by
    rw [decDigitVal, if_pos hc]
  obtain ⟨m0, hm0⟩ := parseDigitsAux_digits cs
    (fun x hx => h x (by simp [hx])) (c.toNat - '0'.toNat)
  have hpar : parseDigitsAux decDigitVal 10 (c :: cs) none = some m0 := by
    rw [parseDigitsAux, hd]
    simpa using hm0
  refine ⟨m0, fun auto => ?_⟩
  rw [jsParseIntCore]
  simp only [hws]
  rw [if_neg hne2, if_neg hne1]
  rw [if_neg (hhex auto), if_neg (hhex auto), hpar]
  simp

/-- A pure digit string parses to the same natural number under
`Number.parseInt(s)` and `Number.parseInt(s, 10)`. -/
theorem jsParseInt_of_digits (s : String) (h : isDigits s = true) :
    ∃ m : Nat, jsParseInt10 s = some (m : Int) ∧ jsParseInt s = some (m : Int) := by
  rw [isDigits] at h
  obtain ⟨hne, hall⟩ := of_decide_eq_true h
  have hall' : ∀ x ∈ s.data, '0' ≤ x ∧ x ≤ '9' := by
    intro x hx
    exact of_decide_eq_true (List.all_eq_true.mp hall x hx)
  cases hdata : s.data with
  | nil => rw [hdata] at hne; simp at hne
  | cons c cs =>
    rw [hdata] at hall'
    obtain ⟨m, hm⟩ := jsParseIntCore_digits c cs hall'
    refine ⟨m, ?_, ?_⟩
    · rw [jsParseInt10, hdata]; exact hm false
    · rw [jsParseInt, hdata]; exact hm true

theorem arrGet_arrWriteAt (xs : List (Option JSVal)) (m : Nat) (v : JSVal) :
    arrGet (arrWriteAt xs m v) (m : Int) = some v := by
  rw [arrWriteAt]
  by_cases h : m < xs.length
  · rw [if_pos h, arrGet, if_pos ⟨Int.ofNat_nonneg m, by simpa using h⟩]
    rw [Int.toNat_natCast]
    rw [List.getD_eq_getElem?_getD, List.getElem?_set_self (by simpa using h)]
    rfl
  · rw [if_neg h, arrGet]
    have hpre : (xs ++ List.replicate (m - xs.length) none).length = m := by
      simp
      omega
    rw [if_pos ⟨Int.ofNat_nonneg m, by
      rw [Int.toNat_natCast]
      simp
      omega⟩]
    rw [List.getD_eq_getElem?_getD, Int.toNat_natCast,
      List.getElem?_append_right (le_of_eq hpre)]
    simp [hpre]

theorem setWalk_nil (x cur : JSVal) : setWalk x cur [] = cur := by
  rw [setWalk]

theorem setWalk_cons (x cur : JSVal) (s : String) (rest : List String) :
    setWalk x cur (s :: rest)
      = setNav (fun c => setWalk x c rest) rest.head? s
          (if rest.isEmpty then assignFinal x cur s else cur) := by
  rw [setWalk]

theorem walkGet_arr_step {xs : List (Option JSVal)} {s : String} {m : Nat}
    {c : JSVal} (hd : isDigits s = true) (hm : jsParseInt10 s = some (m : Int))
    (hg : arrGet xs (m : Int) = some c) (rel : List String) :
    walkGet (.arr xs) (s :: rel) = walkGet c rel := by
  rw [walkGet]
  simp only [hd, if_true, hm, Option.getD_some, hg]

theorem walkGet_obj_single (x : JSVal) (gs : List (String × JSVal)) (s : String)
    (hg : lookupField gs s = some x) : walkGet (.obj gs) [s] = some x := by
  rw [walkGet_obj_key hg, walkGet]

theorem walkGet_arr_single (x : JSVal) (ys : List (Option JSVal)) (s : String)
    (m : Nat) (hd : isDigits s = true) (hm : jsParseInt10 s = some (m : Int))
    (hg : arrGet ys (m : Int) = some x) : walkGet (.arr ys) [s] = some x := by
  rw [walkGet_arr_step hd hm hg, walkGet]

/-- Along segments accepted by `setGetOk`, reading back after `setWalk`
returns exactly the written value. -/
theorem walkGet_setWalk (x : JSVal) :
    ∀ (segs : List String) (cur : JSVal), setGetOk cur segs = true →
      walkGet (setWalk x cur segs) segs = some x := by
  intro segs
  induction segs with
  | nil =>
    intro cur h
    rw [setGetOk] at h
    simp at h
  | cons s rest ih =>
    intro cur h
    cases cur with
    | null => simp [setGetOk] at h
    | bool b => simp [setGetOk] at h
    | num n => simp [setGetOk] at h
    | str t => simp [setGetOk] at h
    | obj fs =>
      rw [setGetOk] at h
      cases rest with
      | nil =>
        rw [setWalk_cons]
        simp only [List.isEmpty_nil, if_true, List.head?_nil]
        rw [assignFinal, setNav]
        cases hk : jsParseInt s with
        | some n =>
          by_cases hkey : intToString n = s
          · simp only [hkey, lookupField_setField_self, setWalk_nil]
            exact walkGet_obj_single x _ s (lookupField_setField_self _ s x)
          · cases hl : lookupField (setField fs s x) (intToString n) with
            | some c =>
              simp only [hl]
              refine walkGet_obj_single x _ s ?_
              rw [lookupField_setField_ne _ s (intToString n) _
                (fun hc => hkey hc.symm)]
              exact lookupField_setField_self fs s x
            | none =>
              simp only [hl]
              refine walkGet_obj_single x _ s ?_
              rw [lookupField_setField_ne _ s (intToString n) _
                (fun hc => hkey hc.symm)]
              exact lookupField_setField_self fs s x
        | none =>
          simp only [lookupField_setField_self, setWalk_nil]
          exact walkGet_obj_single x _ s (lookupField_setField_self _ s x)
      | cons s2 rest2 =>
        simp only [List.isEmpty_cons, Bool.false_eq_true, if_false] at h
        obtain ⟨hsafe, hrest⟩ := band_eq_true h
        rw [setWalk_cons]
        simp only [List.isEmpty_cons, Bool.false_eq_true, if_false]
        rw [setNav]
        cases hk : jsParseInt s with
        | some n =>
          have hkey : intToString n = s := by
            rw [parseSafeKey, hk] at hsafe
            exact eq_of_beq hsafe
          simp only [hkey]
          cases hl : lookupField fs s with
          | some c =>
            simp only [hl] at hrest ⊢
            rw [walkGet_obj_key (lookupField_setField_self fs s _)]
            exact ih c hrest
          | none =>
            simp only [hl] at hrest ⊢
            rw [walkGet_obj_key (lookupField_setField_self fs s _)]
            exact ih _ hrest
        | none =>
          cases hl : lookupField fs s with
          | some c =>
            simp only [hl] at hrest ⊢
            rw [walkGet_obj_key (lookupField_setField_self fs s _)]
            exact ih c hrest
          | none =>
            simp only [hl] at hrest ⊢
            rw [walkGet_obj_key (lookupField_setField_self fs s _)]
            exact ih _ hrest
    | arr xs =>
      rw [setGetOk] at h
      obtain ⟨h1, h2⟩ := band_eq_true h
      obtain ⟨hd, hbound⟩ := band_eq_true h1
      obtain ⟨m, hm10, hmauto⟩ := jsParseInt_of_digits s hd
      have hmmax : m < maxArrayIndex := by
        rw [hm10] at hbound
        simp only [Option.getD_some, decide_eq_true_eq] at hbound
        exact_mod_cast hbound
      cases rest with
      | nil =>
        rw [setWalk_cons]
        simp only [List.isEmpty_nil, if_true, List.head?_nil]
        rw [assignFinal]
        simp only [hd, if_true, hm10, Option.getD_some]
        rw [arrSet, if_pos ⟨Int.ofNat_nonneg m, by simpa using hmmax⟩]
        rw [setNav]
        simp only [hmauto, Int.toNat_natCast]
        rw [if_pos ⟨Int.ofNat_nonneg m, by simpa using hmmax⟩]
        simp only [Int.toNat_natCast, arrGet_arrWriteAt, setWalk_nil]
        exact walkGet_arr_single x _ s m hd hm10 (arrGet_arrWriteAt _ m x)
      | cons s2 rest2 =>
        simp only [List.isEmpty_cons, Bool.false_eq_true, if_false] at h2
        rw [setWalk_cons]
        simp only [List.isEmpty_cons, Bool.false_eq_true, if_false]
        rw [setNav]
        simp only [hmauto, Int.toNat_natCast]
        rw [if_pos ⟨Int.ofNat_nonneg m, by simpa using hmmax⟩]
        rw [hm10] at h2
        simp only [Option.getD_some] at h2
        cases hl : arrGet xs (m : Int) with
        | some c =>
          simp only [hl] at h2 ⊢
          rw [walkGet_arr_step hd hm10 (arrGet_arrWriteAt xs m _)]
          exact ih c h2
        | none =>
          simp only [hl] at h2 ⊢
          rw [walkGet_arr_step hd hm10 (arrGet_arrWriteAt xs m _)]
          exact ih _ h2

theorem assignFinal_obj (v : JSVal) (fs : List (String × JSVal)) (s : String) :
    assignFinal v (.obj fs) s = .obj (setField fs s v) := by
  rw [assignFinal]

theorem setNav_obj (recur : JSVal → JSVal) (next : Option String) (s : String)
    (fs : List (String × JSVal)) :
    ∃ gs, setNav recur next s (.obj fs) = .obj gs := by
  rw [setNav]
  dsimp only []
  repeat' split
  all_goals exact ⟨_, rfl⟩

/-- `setWalk` keeps an object an object. -/
theorem setWalk_obj (x : JSVal) (fs : List (String × JSVal))
    (segs : List String) : ∃ gs, setWalk x (.obj fs) segs = .obj gs := by
  cases segs with
  | nil => exact ⟨fs, setWalk_nil x _⟩
  | cons s rest =>
    rw [setWalk_cons]
    cases rest with
    | nil =>
      simp only [List.isEmpty_nil, if_true]
      rw [assignFinal_obj]
      exact setNav_obj _ _ _ _
    | cons s2 rest2 =>
      simp only [List.isEmpty_cons, Bool.false_eq_true, if_false]
      exact setNav_obj _ _ _ _

theorem deepEquals_refl (v : JSVal) : deepEquals v v = true := by
  rw [deepEquals.eq_def, if_pos ((beqVal_iff v v).mpr rfl)]

/-- C3 counterexample: the empty pointer is syntactically valid and `set`
with it succeeds as a silent no-op although nothing scalar blocks the path
(the root itself is an object); `get` then returns the whole document, which
is not deeply equal to the assigned value. -/
theorem C3_counterexample :
    isJsonPointer "" = true
    ∧ setJsonValueAtPointer (.obj []) "" (.num 1) = .ok (.obj [])
    ∧ getJsonValueAtPointer (.obj []) "" = .ok (some (.obj []))
    ∧ deepEquals (.obj []) (.num 1) = false := by
  exact ⟨by decide, by decide, by decide, by decide⟩

/-- C3 (amended): for a JSON object `o`, a syntactically valid pointer `p`
other than `/` and a value `x`, if `set`'s descent and `get`'s walk agree
along `p`'s segments — no scalar mid-path, array hops through pure in-range
decimal indices, object hops before the last through parseInt-unambiguous
keys, and a nonempty segment list — then after `setJsonValueAtPointer(o,p,x)`
the read-back `getJsonValueAtPointer` returns a value deeply equal to `x`.
Beyond the claimed blocked-by-scalar exemption, the empty pointer (a valid
no-op that reads back the root), array hops on non-decimal or out-of-range
segments, and parseInt-ambiguous object keys also break the round trip. -/
theorem C3_set_get_consistency (o : JSVal) (p : String) (x : JSVal)
    (fs : List (String × JSVal)) (ho : o = .obj fs)
    (hptr : isJsonPointer p = true) (hslash : p ≠ "/")
    (hW : setGetOk o (segsOf p) = true) :
    ∃ o', setJsonValueAtPointer o p x = .ok o'
      ∧ ∃ y, getJsonValueAtPointer o' p = .ok (some y)
          ∧ deepEquals y x = true := by
  subst ho
  have hset : setJsonValueAtPointer (.obj fs) p x
      = .ok (setWalk x (.obj fs) (segsOf p)) := by
    rw [setJsonValueAtPointer, if_neg (by simp [isJsonValueB_eq_true]),
      if_neg (by simp [isJsonObjectB_obj]), getJsonPointerSegments,
      if_neg (by simp [hptr])]
  refine ⟨setWalk x (.obj fs) (segsOf p), hset, x, ?_, deepEquals_refl x⟩
  obtain ⟨gs, hgs⟩ := setWalk_obj x fs (segsOf p)
  have hpne : p ≠ "" := by
    intro h0
    rw [h0, show segsOf "" = [] from rfl] at hW
    rw [setGetOk] at hW
    simp at hW
  rw [getJsonValueAtPointer,
    if_neg (by rintro (h0 | h0); exact hslash h0; exact hpne h0),
    if_neg (by rw [hgs]; simp [isJsonObjectB_obj]),
    if_neg (by simp [hptr])]
  rw [walkGet_setWalk x (segsOf p) (.obj fs) hW]

/-- C3 witness: setting `/a` on `{a: 0}` and reading it back yields the new
value. -/
theorem C3_witness :
    isJsonPointer "/a" = true
    ∧ setGetOk (.obj [("a", .num 0)]) (segsOf "/a") = true
    ∧ ∃ o', setJsonValueAtPointer (.obj [("a", .num 0)]) "/a" (.num 5) = .ok o'
      ∧ ∃ y, getJsonValueAtPointer o' "/a" = .ok (some y)
          ∧ deepEquals y (.num 5) = true := by
  refine ⟨by decide, by decide, ?_⟩
  exact C3_set_get_consistency (.obj [("a", .num 0)]) "/a" (.num 5)
    [("a", .num 0)] rfl (by decide) (by decide) (by decide)


/-! ## Claim C10 — `set` on a self-cyclic object -/

/-- On the store holding the single self-cyclic object `o` with `o.a === o`,
the unguarded `isJsonValue` recursion never terminates: it overflows at
every stack budget. -/
theorem isJsonValueH_cyc (fuel : Nat) :
    isJsonValueH [.nObj [("a", .href 0)]] fuel (.href 0) = none := by
  induction fuel with
  | zero => rfl
  | succ fuel ih =>
    rw [isJsonValueH]
    simp [everyH, ih]

/-- C10 counterexample: on the self-cyclic `o` (`o.a === o`), the call
`set(o, '/a/b', v)` leaves the store untouched (no `b` is assigned) and dies
with the stack overflow of the validation stage — not with the
circular-reference error the claim demands. -/
theorem C10_counterexample :
    setJsonValueAtPointerH [.nObj [("a", .href 0)]] (.href 0) "/a/b" (.num 1) 10
      = ([.nObj [("a", .href 0)]], some .stackOverflow)
    ∧ JErr.stackOverflow ≠ JErr.circularReference
    ∧ lookupFieldH [("a", HVal.href 0)] "b" = none := by
  exact ⟨by decide, by decide, by decide⟩

/-- C10 (amended): on a self-cyclic `o` (`o.a === o`), at every stack budget
and for every value whose own validation terminates, `set(o, '/a/b', v)`
dies inside the up-front `isJsonObject(obj)` validation — whose unguarded
`isJsonValue` chases the cycle until the stack overflows — before the loop
ever runs: no assignment of `o.b` happens, the register's circular-reference
check is never reached, and the store is returned unchanged with the
overflow as the error. -/
theorem C10_overflow_before_loop (fuel : Nat) (v : HVal)
    (hv : isJsonValueH [.nObj [("a", .href 0)]] fuel v = some true) :
    setJsonValueAtPointerH [.nObj [("a", .href 0)]] (.href 0) "/a/b" v fuel
      = ([.nObj [("a", .href 0)]], some .stackOverflow) := by
  rw [setJsonValueAtPointerH]
  simp only [hv, isJsonObjectH, isJsonValueH_cyc fuel]

/-- C10 witness: the amended theorem applied to the value `1` at stack
budget `10`. -/
theorem C10_witness :
    isJsonValueH [.nObj [("a", .href 0)]] 10 (.num 1) = some true
    ∧ setJsonValueAtPointerH [.nObj [("a", .href 0)]] (.href 0) "/a/b" (.num 1) 10
        = ([.nObj [("a", .href 0)]], some .stackOverflow) := by
  exact ⟨by decide, C10_overflow_before_loop 10 (.num 1) (by decide)⟩


/-! ## Claim C7 — the input region under `applyJsonPatch`

`applyJsonPatch` works on a deep copy, but `add`/`replace`/`move` insert the
operation's `value` *by reference*.  The frame analysis below tracks the
region of store cells at indices `≥ n0` (the cells allocated at or after the
copy): a value is *above* `n0` when it is a primitive or a reference into
that region, and a store is *closed above* `n0` when every cell of the
region only holds values above `n0`.  All mutation performed by the patch
loop stays inside a closed region, so the caller's cells below `n0` survive
untouched — provided no operation value smuggles a reference to them in. -/

/-- Cells below `n0` coincide. -/
def presLow (n0 : Nat) (st0 st1 : Store) : Prop :=
  ∀ j, j < n0 → st1[j]? = st0[j]?

/-- A primitive, or a reference at or above the boundary. -/
def aboveB (n0 : Nat) : HVal → Bool
  | .href r => decide (n0 ≤ r)
  | _ => true

def slotAbove (n0 : Nat) : Option HVal → Bool
  | some v => aboveB n0 v
  | none => true

def nodeAbove (n0 : Nat) : HNode → Bool
  | .nObj fs => fs.all fun kv => aboveB n0 kv.2
  | .nArr es => es.all (slotAbove n0)

/-- Every cell of the region `≥ n0` only holds values above `n0`. -/
def closedAbove (n0 : Nat) (st : Store) : Prop :=
  ∀ j nd, n0 ≤ j → st[j]? = some nd → nodeAbove n0 nd = true

/-- A value with no reference at all (the restriction the amended claim
places on operation values). -/
def refFree : HVal → Bool
  | .href _ => false
  | _ => true

def opValueRefFree (o : HOp) : Bool :=
  match o.value with
  | some v => refFree v
  | none => true

theorem refFree_above (n0 : Nat) (v : HVal) (h : refFree v = true) :
    aboveB n0 v = true := by
  cases v <;> simp_all [refFree, aboveB]

theorem presLow_refl (n0 : Nat) (st : Store) : presLow n0 st st :=
  fun _ _ => rfl

theorem presLow_trans {n0 : Nat} {s1 s2 s3 : Store}
    (h1 : presLow n0 s1 s2) (h2 : presLow n0 s2 s3) : presLow n0 s1 s3 :=
  fun j hj => (h2 j hj).trans (h1 j hj)

theorem presLow_set {n0 : Nat} (st : Store) {r : Nat} (nd : HNode)
    (hr : n0 ≤ r) : presLow n0 st (st.set r nd) := by
  intro j hj
  exact List.getElem?_set_ne (by omega)

theorem presLow_append {n0 : Nat} (st Δ : Store) (hn : n0 ≤ st.length) :
    presLow n0 st (st ++ Δ) := by
  intro j hj
  exact List.getElem?_append_left (by omega)

theorem closedAbove_init (st : Store) : closedAbove st.length st := by
  intro j nd hj hg
  have hlt : j < st.length := by
    by_contra hcon
    rw [List.getElem?_eq_none (by omega)] at hg
    cases hg
  exact absurd hj (Nat.not_le.mpr hlt)

theorem closedAbove_set {n0 : Nat} {st : Store} {r : Nat} {nd : HNode}
    (h : closedAbove n0 st) (hnd : nodeAbove n0 nd = true) :
    closedAbove n0 (st.set r nd) := by
  intro j nd' hj hg
  rcases Nat.lt_or_ge r st.length with hr | hr
  · by_cases hij : r = j
    · subst hij
      rw [List.getElem?_set_self hr] at hg
      cases hg
      exact hnd
    · rw [List.getElem?_set_ne hij] at hg
      exact h j nd' hj hg
  · rw [List.set_eq_of_length_le hr] at hg
    exact h j nd' hj hg

theorem closedAbove_append {n0 : Nat} {st Δ : Store}
    (h : closedAbove n0 st)
    (hΔ : ∀ nd ∈ Δ, nodeAbove n0 nd = true) :
    closedAbove n0 (st ++ Δ) := by
  intro j nd hj hg
  rcases Nat.lt_or_ge j st.length with hr | hr
  · rw [List.getElem?_append_left hr] at hg
    exact h j nd hj hg
  · rw [List.getElem?_append_right hr] at hg
    exact hΔ nd (List.getElem?_mem hg)

theorem lookupFieldH_above {n0 : Nat} :
    ∀ fs : List (String × HVal),
      (fs.all fun kv => aboveB n0 kv.2) = true →
      ∀ {k c}, lookupFieldH fs k = some c → aboveB n0 c = true := by
  intro fs
  induction fs with
  | nil => intro _ k c h; simp [lookupFieldH] at h
  | cons f fs ih =>
    intro hall k c h
    obtain ⟨k0, v0⟩ := f
    rw [List.all_cons] at hall
    obtain ⟨h0, hall⟩ := band_eq_true hall
    rw [lookupFieldH] at h
    by_cases hk : k0 = k
    · rw [if_pos hk] at h
      cases h
      exact h0
    · rw [if_neg hk] at h
      exact ih hall h

theorem setFieldH_all {n0 : Nat} {v : HVal} (hv : aboveB n0 v = true) :
    ∀ fs : List (String × HVal),
      (fs.all fun kv => aboveB n0 kv.2) = true →
      ∀ k, ((setFieldH fs k v).all fun kv => aboveB n0 kv.2) = true := by
  intro fs
  induction fs with
  | nil => intro _ k; simp [setFieldH, hv]
  | cons f fs ih =>
    intro hall k
    obtain ⟨k0, v0⟩ := f
    rw [List.all_cons] at hall
    obtain ⟨h0, hall⟩ := band_eq_true hall
    rw [setFieldH]
    by_cases hk : k0 = k
    · rw [if_pos hk]
      simp [hv, hall]
    · rw [if_neg hk]
      simp [h0, ih hall k]

theorem removeFieldH_all {n0 : Nat} :
    ∀ fs : List (String × HVal),
      (fs.all fun kv => aboveB n0 kv.2) = true →
      ∀ k, ((removeFieldH fs k).all fun kv => aboveB n0 kv.2) = true := by
  intro fs
  induction fs with
  | nil => intro _ k; simp [removeFieldH]
  | cons f fs ih =>
    intro hall k
    obtain ⟨k0, v0⟩ := f
    rw [List.all_cons] at hall
    obtain ⟨h0, hall⟩ := band_eq_true hall
    rw [removeFieldH]
    by_cases hk : k0 = k
    · rw [if_pos hk]
      exact ih hall k
    · rw [if_neg hk]
      simp [h0, ih hall k]

theorem getD_slot_above {n0 : Nat} {es : List (Option HVal)}
    (hall : es.all (slotAbove n0) = true) {i : Nat} {c : HVal}
    (h : es.getD i none = some c) : aboveB n0 c = true := by
  rw [List.getD_eq_getElem?_getD] at h
  cases hg : es[i]? with
  | none => rw [hg] at h; simp at h
  | some slot =>
    rw [hg] at h
    simp only [Option.getD_some] at h
    subst h
    have hmem := List.getElem?_mem hg
    have := List.all_eq_true.mp hall _ hmem
    simpa [slotAbove] using this

theorem arrReadH_above {n0 : Nat} {es : List (Option HVal)}
    (hall : es.all (slotAbove n0) = true) {i : Int} {c : HVal}
    (h : arrReadH es i = some c) : aboveB n0 c = true := by
  rw [arrReadH] at h
  split at h
  · exact getD_slot_above hall h
  · simp at h

theorem all_set {α : Type} (p : α → Bool) :
    ∀ (l : List α) (n : Nat) (a : α), l.all p = true → p a = true →
      (l.set n a).all p = true := by
  intro l
  induction l with
  | nil => intro n a _ _; simp
  | cons x l ih =>
    intro n a hall ha
    rw [List.all_cons] at hall
    obtain ⟨hx, hl⟩ := band_eq_true hall
    cases n with
    | zero =>
      rw [List.set_cons_zero, List.all_cons]
      simp [ha, hl]
    | succ n =>
      rw [List.set_cons_succ, List.all_cons]
      simp [hx, ih n a hl ha]

theorem arrWriteAtH_all {n0 : Nat} {es : List (Option HVal)}
    (hall : es.all (slotAbove n0) = true) {v : HVal}
    (hv : aboveB n0 v = true) (n : Nat) :
    (arrWriteAtH es n v).all (slotAbove n0) = true := by
  rw [arrWriteAtH]
  split
  · exact all_set _ es n (some v) hall (by simpa [slotAbove] using hv)
  · simp only [List.all_append, Bool.and_eq_true]
    refine ⟨⟨hall, ?_⟩, ?_⟩
    · rw [List.all_eq_true]
      intro x hx
      rw [List.eq_of_mem_replicate hx]
      rfl
    · simpa [slotAbove] using hv

theorem arrSetH_all {n0 : Nat} {es : List (Option HVal)}
    (hall : es.all (slotAbove n0) = true) {v : HVal}
    (hv : aboveB n0 v = true) (i : Int) :
    (arrSetH es i v).all (slotAbove n0) = true := by
  rw [arrSetH]
  split
  · exact arrWriteAtH_all hall hv _
  · exact hall

theorem spliceOneH_all {n0 : Nat} {es : List (Option HVal)}
    (hall : es.all (slotAbove n0) = true) (i : Int) :
    (spliceOneH es i).all (slotAbove n0) = true := by
  rw [spliceOneH]
  rw [List.all_eq_true] at hall ⊢
  intro x hx
  rcases List.mem_append.mp hx with hx | hx
  · exact hall x (List.mem_of_mem_take hx)
  · exact hall x (List.mem_of_mem_drop hx)

theorem hNewNode_above (n0 : Nat) (next : Option String) :
    nodeAbove n0 (hNewNode next) = true := by
  cases next with
  | none => rfl
  | some t =>
    rw [hNewNode]
    split <;> rfl

theorem cellFieldsAbove {n0 : Nat} {st : Store} {r : Nat}
    {fs : List (String × HVal)} (h : closedAbove n0 st) (hr : n0 ≤ r)
    (hg : st[r]? = some (.nObj fs)) :
    (fs.all fun kv => aboveB n0 kv.2) = true := by
  have := h r _ hr hg
  simpa [nodeAbove] using this

theorem cellSlotsAbove {n0 : Nat} {st : Store} {r : Nat}
    {es : List (Option HVal)} (h : closedAbove n0 st) (hr : n0 ≤ r)
    (hg : st[r]? = some (.nArr es)) :
    es.all (slotAbove n0) = true := by
  have := h r _ hr hg
  simpa [nodeAbove] using this


theorem hFinalAssign_frame {n0 : Nat} {st : Store} {fuel : Nat} {cur : HVal}
    {s : String} {value : HVal} {st1 : Store}
    (hcl : closedAbove n0 st) (hcur : aboveB n0 cur = true)
    (hval : aboveB n0 value = true)
    (hfa : hFinalAssign st fuel cur s value = some st1) :
    presLow n0 st st1 ∧ closedAbove n0 st1 ∧ st1.length = st.length := by
  rw [hFinalAssign.eq_def] at hfa
  cases hio : isJsonObjectH st fuel cur with
  | none =>
    simp only [hio] at hfa
    exact absurd hfa (by simp)
  | some b =>
    simp only [hio] at hfa
    cases b with
    | true =>
      cases cur with
      | href r =>
        have hr : n0 ≤ r := by simpa [aboveB] using hcur
        cases hcell : st[r]? with
        | none =>
          simp only [hcell] at hfa
          cases hfa
          exact ⟨presLow_refl n0 st, hcl, rfl⟩
        | some nd =>
          cases nd with
          | nObj fs =>
            simp only [hcell] at hfa
            cases hfa
            refine ⟨presLow_set st _ hr, closedAbove_set hcl ?_, by simp⟩
            simpa [nodeAbove] using
              setFieldH_all hval fs (cellFieldsAbove hcl hr hcell) s
          | nArr es =>
            simp only [hcell] at hfa
            cases hfa
            exact ⟨presLow_refl n0 st, hcl, rfl⟩
      | null =>
        have hst : some st = some st1 := hfa
        cases hst
        exact ⟨presLow_refl n0 st, hcl, rfl⟩
      | bool bb =>
        have hst : some st = some st1 := hfa
        cases hst
        exact ⟨presLow_refl n0 st, hcl, rfl⟩
      | num nn =>
        have hst : some st = some st1 := hfa
        cases hst
        exact ⟨presLow_refl n0 st, hcl, rfl⟩
      | str ss =>
        have hst : some st = some st1 := hfa
        cases hst
        exact ⟨presLow_refl n0 st, hcl, rfl⟩
    | false =>
      cases cur with
      | href r =>
        have hr : n0 ≤ r := by simpa [aboveB] using hcur
        cases hcell : st[r]? with
        | none =>
          simp only [hcell] at hfa
          cases hfa
          exact ⟨presLow_refl n0 st, hcl, rfl⟩
        | some nd =>
          cases nd with
          | nArr es =>
            simp only [hcell] at hfa
            by_cases hd : isDigits s = true
            · rw [if_pos hd] at hfa
              cases hfa
              refine ⟨presLow_set st _ hr, closedAbove_set hcl ?_, by simp⟩
              simpa [nodeAbove] using
                arrSetH_all (cellSlotsAbove hcl hr hcell) hval _
            · rw [if_neg hd] at hfa
              cases hfa
              exact ⟨presLow_refl n0 st, hcl, rfl⟩
          | nObj fs =>
            simp only [hcell] at hfa
            cases hfa
            exact ⟨presLow_refl n0 st, hcl, rfl⟩
      | null =>
        have hst : some st = some st1 := hfa
        cases hst
        exact ⟨presLow_refl n0 st, hcl, rfl⟩
      | bool bb =>
        have hst : some st = some st1 := hfa
        cases hst
        exact ⟨presLow_refl n0 st, hcl, rfl⟩
      | num nn =>
        have hst : some st = some st1 := hfa
        cases hst
        exact ⟨presLow_refl n0 st, hcl, rfl⟩
      | str ss =>
        have hst : some st = some st1 := hfa
        cases hst
        exact ⟨presLow_refl n0 st, hcl, rfl⟩

theorem setLoopH_frame {n0 : Nat} (value : HVal) (fuel : Nat)
    (hval : aboveB n0 value = true) :
    ∀ (path : List String) (st : Store) (reg : List Nat) (cur : HVal),
      closedAbove n0 st → n0 ≤ st.length → aboveB n0 cur = true →
      presLow n0 st (setLoopH value fuel st reg cur path).1
      ∧ closedAbove n0 (setLoopH value fuel st reg cur path).1
      ∧ n0 ≤ (setLoopH value fuel st reg cur path).1.length := by
  intro path
  induction path with
  | nil =>
    intro st reg cur hcl hlen hcur
    rw [setLoopH]
    exact ⟨presLow_refl n0 st, hcl, hlen⟩
  | cons s rest ih =>
    intro st reg cur hcl hlen hcur
    rw [setLoopH]
    cases hfab : (if rest.isEmpty then hFinalAssign st fuel cur s value
        else some st) with
    | none =>
      simp only [hfab]
      exact ⟨presLow_refl n0 st, hcl, hlen⟩
    | some st1 =>
      simp only [hfab]
      have htrio : presLow n0 st st1 ∧ closedAbove n0 st1 ∧ n0 ≤ st1.length := by
        split at hfab
        · obtain ⟨p, c, e⟩ := hFinalAssign_frame hcl hcur hval hfab
          exact ⟨p, c, by omega⟩
        · cases hfab
          exact ⟨presLow_refl n0 st, hcl, hlen⟩
      obtain ⟨hp1, hc1, hl1⟩ := htrio
      cases cur with
      | href r =>
        have hr : n0 ≤ r := by simpa [aboveB] using hcur
        by_cases hreg : r ∈ reg
        · simp only [if_pos hreg]
          exact ⟨hp1, hc1, hl1⟩
        · simp only [if_neg hreg]
          cases hio : isJsonObjectH st1 fuel (.href r) with
          | none =>
            simp only [hio]
            exact ⟨hp1, hc1, hl1⟩
          | some b =>
            cases b with
            | true =>
              simp only [hio]
              cases hcell : st1[r]? with
              | none =>
                simp only [hcell]
                exact ⟨hp1, hc1, hl1⟩
              | some nd =>
                cases nd with
                | nArr es =>
                  simp only [hcell]
                  exact ⟨hp1, hc1, hl1⟩
                | nObj fs =>
                  simp only [hcell]
                  cases hlk : lookupFieldH fs (match jsParseInt s with
                      | some n => intToString n
                      | none => s) with
                  | some c =>
                    simp only [hlk]
                    have hca : aboveB n0 c = true :=
                      lookupFieldH_above fs (cellFieldsAbove hc1 hr hcell) hlk
                    obtain ⟨p2, c2, l2⟩ := ih st1 (r :: reg) c hc1 hl1 hca
                    exact ⟨presLow_trans hp1 p2, c2, l2⟩
                  | none =>
                    simp only [hlk]
                    have hnode : nodeAbove n0 (.nObj (setFieldH fs
                        (match jsParseInt s with
                         | some n => intToString n
                         | none => s) (.href st1.length))) = true := by
                      simpa [nodeAbove] using
                        setFieldH_all (by simpa [aboveB] using hl1) fs
                          (cellFieldsAbove hc1 hr hcell) _
                    have hp12 : presLow n0 st1 (st1.set r (.nObj (setFieldH fs
                        (match jsParseInt s with
                         | some n => intToString n
                         | none => s) (.href st1.length))) ++ [hNewNode rest.head?]) :=
                      presLow_trans (presLow_set st1 _ hr)
                        (presLow_append _ _ (by simp; omega))
                    have hc12 : closedAbove n0 (st1.set r (.nObj (setFieldH fs
                        (match jsParseInt s with
                         | some n => intToString n
                         | none => s) (.href st1.length))) ++ [hNewNode rest.head?]) :=
                      closedAbove_append (closedAbove_set hc1 hnode)
                        (by intro nd hnd
                            rw [List.mem_singleton] at hnd
                            subst hnd
                            exact hNewNode_above n0 _)
                    have hl12 : n0 ≤ (st1.set r (.nObj (setFieldH fs
                        (match jsParseInt s with
                         | some n => intToString n
                         | none => s) (.href st1.length))) ++ [hNewNode rest.head?]).length := by
                      simp
                      omega
                    obtain ⟨p2, c2, l2⟩ := ih _ (r :: reg) (.href st1.length)
                      hc12 hl12 (by simpa [aboveB] using hl1)
                    exact ⟨presLow_trans hp1 (presLow_trans hp12 p2), c2, l2⟩
            | false =>
              simp only [hio]
              cases hcell : st1[r]? with
              | none =>
                simp only [hcell]
                exact ⟨hp1, hc1, hl1⟩
              | some nd =>
                cases nd with
                | nObj fs =>
                  simp only [hcell]
                  exact ⟨hp1, hc1, hl1⟩
                | nArr es =>
                  try simp only [hcell]
                  cases hpi : jsParseInt s with
                  | none =>
                    simp only [hpi]
                    exact ⟨hp1, hc1, hl1⟩
                  | some n =>
                    simp only [hpi]
                    by_cases hb : 0 ≤ n ∧ n.toNat < maxArrayIndex
                    · rw [if_pos hb]
                      cases hread : arrReadH es n with
                      | some c =>
                        simp only [hread]
                        have hca : aboveB n0 c = true :=
                          arrReadH_above (cellSlotsAbove hc1 hr hcell) hread
                        obtain ⟨p2, c2, l2⟩ := ih st1 (r :: reg) c hc1 hl1 hca
                        exact ⟨presLow_trans hp1 p2, c2, l2⟩
                      | none =>
                        simp only [hread]
                        have hnode : nodeAbove n0 (.nArr (arrWriteAtH es n.toNat
                            (.href st1.length))) = true := by
                          simpa [nodeAbove] using
                            arrWriteAtH_all (cellSlotsAbove hc1 hr hcell)
                              (by simpa [aboveB] using hl1) n.toNat
                        have hp12 : presLow n0 st1 (st1.set r (.nArr (arrWriteAtH es
                            n.toNat (.href st1.length))) ++ [hNewNode rest.head?]) :=
                          presLow_trans (presLow_set st1 _ hr)
                            (presLow_append _ _ (by simp; omega))
                        have hc12 : closedAbove n0 (st1.set r (.nArr (arrWriteAtH es
                            n.toNat (.href st1.length))) ++ [hNewNode rest.head?]) :=
                          closedAbove_append (closedAbove_set hc1 hnode)
                            (by intro nd hnd
                                rw [List.mem_singleton] at hnd
                                subst hnd
                                exact hNewNode_above n0 _)
                        have hl12 : n0 ≤ (st1.set r (.nArr (arrWriteAtH es
                            n.toNat (.href st1.length))) ++ [hNewNode rest.head?]).length := by
                          simp
                          omega
                        obtain ⟨p2, c2, l2⟩ := ih _ (r :: reg) (.href st1.length)
                          hc12 hl12 (by simpa [aboveB] using hl1)
                        exact ⟨presLow_trans hp1 (presLow_trans hp12 p2), c2, l2⟩
                    · rw [if_neg hb]
                      exact ⟨hp1, hc1, hl1⟩
      | null =>
        obtain ⟨p2, c2, l2⟩ := ih st1 reg .null hc1 hl1 rfl
        exact ⟨presLow_trans hp1 p2, c2, l2⟩
      | bool b =>
        obtain ⟨p2, c2, l2⟩ := ih st1 reg (.bool b) hc1 hl1 rfl
        exact ⟨presLow_trans hp1 p2, c2, l2⟩
      | num n =>
        obtain ⟨p2, c2, l2⟩ := ih st1 reg (.num n) hc1 hl1 rfl
        exact ⟨presLow_trans hp1 p2, c2, l2⟩
      | str t =>
        obtain ⟨p2, c2, l2⟩ := ih st1 reg (.str t) hc1 hl1 rfl
        exact ⟨presLow_trans hp1 p2, c2, l2⟩


theorem setJsonValueAtPointerH_frame {n0 : Nat} {st : Store} {root : HVal}
    {p : String} {value : HVal} {fuel : Nat}
    (hcl : closedAbove n0 st) (hlen : n0 ≤ st.length)
    (hroot : aboveB n0 root = true) (hval : aboveB n0 value = true) :
    presLow n0 st (setJsonValueAtPointerH st root p value fuel).1
    ∧ closedAbove n0 (setJsonValueAtPointerH st root p value fuel).1
    ∧ n0 ≤ (setJsonValueAtPointerH st root p value fuel).1.length := by
  cases h1 : isJsonValueH st fuel value with
  | none =>
    rw [setJsonValueAtPointerH.eq_def, h1]
    exact ⟨presLow_refl n0 st, hcl, hlen⟩
  | some b =>
    cases b with
    | false =>
      rw [setJsonValueAtPointerH.eq_def, h1]
      exact ⟨presLow_refl n0 st, hcl, hlen⟩
    | true =>
      cases h2 : isJsonObjectH st fuel root with
      | none =>
        rw [setJsonValueAtPointerH.eq_def, h1, h2]
        exact ⟨presLow_refl n0 st, hcl, hlen⟩
      | some b2 =>
        cases b2 with
        | false =>
          rw [setJsonValueAtPointerH.eq_def, h1, h2]
          exact ⟨presLow_refl n0 st, hcl, hlen⟩
        | true =>
          cases h3 : getJsonPointerSegments p with
          | error e =>
            rw [setJsonValueAtPointerH.eq_def, h1, h2, h3]
            exact ⟨presLow_refl n0 st, hcl, hlen⟩
          | ok path =>
            rw [setJsonValueAtPointerH.eq_def, h1, h2, h3]
            exact setLoopH_frame value fuel hval path st [] root hcl hlen hroot

theorem walkGetH_above {n0 : Nat} {st : Store} {fuel : Nat}
    (hcl : closedAbove n0 st) :
    ∀ (segs : List String) (cur : HVal), aboveB n0 cur = true →
      ∀ {v : HVal}, walkGetH st fuel cur segs = some (some v) →
        aboveB n0 v = true := by
  intro segs
  induction segs with
  | nil =>
    intro cur hcur v h
    have h' : (some (some cur) : Option (Option HVal)) = some (some v) := h
    cases h'
    exact hcur
  | cons key rest ih =>
    intro cur hcur v h
    cases cur with
    | href r =>
      have hr : n0 ≤ r := by simpa [aboveB] using hcur
      cases hcell : st[r]? with
      | none =>
        rw [walkGetH.eq_def] at h
        simp only [hcell] at h
        simp at h
      | some nd =>
        cases nd with
        | nArr es =>
          rw [walkGetH.eq_def] at h
          simp only [hcell] at h
          by_cases hd : isDigits key = true
          · rw [if_pos hd] at h
            cases hread : (if ((jsParseInt10 key).getD 0) < (es.length : Int) then
                es.getD ((jsParseInt10 key).getD 0).toNat none
              else none) with
            | none =>
              rw [hread] at h
              simp at h
            | some w =>
              rw [hread] at h
              have h2 : walkGetH st fuel w rest = some (some v) := h
              have hw : aboveB n0 w = true := by
                split at hread
                · exact getD_slot_above (cellSlotsAbove hcl hr hcell) hread
                · exact absurd hread (by simp)
              exact ih w hw h2
          · rw [if_neg hd] at h
            cases hio : isJsonObjectH st fuel (.href r) with
            | none => rw [hio] at h; simp at h
            | some bb => rw [hio] at h; simp at h
        | nObj fs =>
          rw [walkGetH.eq_def] at h
          simp only [hcell] at h
          cases hio : isJsonObjectH st fuel (.href r) with
          | none => rw [hio] at h; simp at h
          | some bb =>
            cases bb with
            | false => rw [hio] at h; simp at h
            | true =>
              rw [hio] at h
              cases hlk : lookupFieldH fs key with
              | none => rw [hlk] at h; simp at h
              | some c =>
                rw [hlk] at h
                have h2 : walkGetH st fuel c rest = some (some v) := h
                exact ih c
                  (lookupFieldH_above fs (cellFieldsAbove hcl hr hcell) hlk) h2
    | null =>
      have h2 : (match isJsonObjectH st fuel HVal.null with
          | none => (none : Option (Option HVal))
          | some _ => some none) = some (some v) := h
      cases hio : isJsonObjectH st fuel HVal.null with
      | none => rw [hio] at h2; simp at h2
      | some bb => rw [hio] at h2; simp at h2
    | bool b =>
      have h2 : (match isJsonObjectH st fuel (HVal.bool b) with
          | none => (none : Option (Option HVal))
          | some _ => some none) = some (some v) := h
      cases hio : isJsonObjectH st fuel (HVal.bool b) with
      | none => rw [hio] at h2; simp at h2
      | some bb => rw [hio] at h2; simp at h2
    | num n =>
      have h2 : (match isJsonObjectH st fuel (HVal.num n) with
          | none => (none : Option (Option HVal))
          | some _ => some none) = some (some v) := h
      cases hio : isJsonObjectH st fuel (HVal.num n) with
      | none => rw [hio] at h2; simp at h2
      | some bb => rw [hio] at h2; simp at h2
    | str t =>
      have h2 : (match isJsonObjectH st fuel (HVal.str t) with
          | none => (none : Option (Option HVal))
          | some _ => some none) = some (some v) := h
      cases hio : isJsonObjectH st fuel (HVal.str t) with
      | none => rw [hio] at h2; simp at h2
      | some bb => rw [hio] at h2; simp at h2

theorem getJsonValueAtPointerH_above {n0 : Nat} {st : Store} {fuel : Nat}
    {root : HVal} {p : String} {v : HVal}
    (hcl : closedAbove n0 st) (hroot : aboveB n0 root = true)
    (h : getJsonValueAtPointerH st fuel root p = .ok (some v)) :
    aboveB n0 v = true := by
  rw [getJsonValueAtPointerH] at h
  split at h
  · cases h
    exact hroot
  · split at h
    · exact absurd h (by simp)
    · exact absurd h (by simp)
    · split at h
      · exact absurd h (by simp)
      · cases hw : walkGetH st fuel root (segsOf p) with
        | none => rw [hw] at h; simp at h
        | some res =>
          rw [hw] at h
          cases res with
          | none => simp at h
          | some w =>
            have hv : w = v := by simpa using h
            subst hv
            exact walkGetH_above hcl (segsOf p) root hroot hw


theorem removeFinalH_frame {n0 : Nat} {st : Store} {fuel : Nat} {cur : HVal}
    {key : String} {b : Bool} {st1 : Store}
    (hcl : closedAbove n0 st) (hcur : aboveB n0 cur = true)
    (hfa : removeFinalH st fuel cur key = .ok (b, st1)) :
    presLow n0 st st1 ∧ closedAbove n0 st1 ∧ st1.length = st.length := by
  rw [removeFinalH.eq_def] at hfa
  cases h1 : isJsonArrayH st fuel cur with
  | none =>
    simp only [h1] at hfa
    exact absurd hfa (by simp)
  | some b1 =>
    simp only [h1] at hfa
    cases b1 with
    | true =>
      by_cases hsafe : isSafeIntegerOpt (jsParseInt10 key) = true
      · rw [if_pos hsafe] at hfa
        cases cur with
        | href r =>
          have hr : n0 ≤ r := by simpa [aboveB] using hcur
          cases hcell : st[r]? with
          | none =>
            simp only [hcell] at hfa
            cases hfa
            exact ⟨presLow_refl n0 st, hcl, rfl⟩
          | some nd =>
            cases nd with
            | nArr es =>
              simp only [hcell] at hfa
              cases hfa
              refine ⟨presLow_set st _ hr, closedAbove_set hcl ?_, by simp⟩
              simpa [nodeAbove] using
                spliceOneH_all (cellSlotsAbove hcl hr hcell) _
            | nObj fs =>
              simp only [hcell] at hfa
              cases hfa
              exact ⟨presLow_refl n0 st, hcl, rfl⟩
        | null =>
          have h2 : (Except.ok ((true, st) : Bool × Store) : Except JErr (Bool × Store))
              = .ok (b, st1) := hfa
          cases h2
          exact ⟨presLow_refl n0 st, hcl, rfl⟩
        | bool bb =>
          have h2 : (Except.ok ((true, st) : Bool × Store) : Except JErr (Bool × Store))
              = .ok (b, st1) := hfa
          cases h2
          exact ⟨presLow_refl n0 st, hcl, rfl⟩
        | num nn =>
          have h2 : (Except.ok ((true, st) : Bool × Store) : Except JErr (Bool × Store))
              = .ok (b, st1) := hfa
          cases h2
          exact ⟨presLow_refl n0 st, hcl, rfl⟩
        | str ss =>
          have h2 : (Except.ok ((true, st) : Bool × Store) : Except JErr (Bool × Store))
              = .ok (b, st1) := hfa
          cases h2
          exact ⟨presLow_refl n0 st, hcl, rfl⟩
      · rw [if_neg hsafe] at hfa
        cases h2 : isJsonObjectH st fuel cur with
        | none => rw [h2] at hfa; simp at hfa
        | some b2 =>
          rw [h2] at hfa
          have h3 : (Except.ok ((false, st) : Bool × Store) : Except JErr (Bool × Store))
              = .ok (b, st1) := hfa
          cases h3
          exact ⟨presLow_refl n0 st, hcl, rfl⟩
    | false =>
      cases h2 : isJsonObjectH st fuel cur with
      | none => rw [h2] at hfa; simp at hfa
      | some b2 =>
        rw [h2] at hfa
        cases b2 with
        | false =>
          have h3 : (Except.ok ((false, st) : Bool × Store) : Except JErr (Bool × Store))
              = .ok (b, st1) := hfa
          cases h3
          exact ⟨presLow_refl n0 st, hcl, rfl⟩
        | true =>
          cases cur with
          | href r =>
            have hr : n0 ≤ r := by simpa [aboveB] using hcur
            cases hcell : st[r]? with
            | none =>
              simp only [hcell] at hfa
              cases hfa
              exact ⟨presLow_refl n0 st, hcl, rfl⟩
            | some nd =>
              cases nd with
              | nObj fs =>
                simp only [hcell] at hfa
                cases hfa
                refine ⟨presLow_set st _ hr, closedAbove_set hcl ?_, by simp⟩
                simpa [nodeAbove] using
                  removeFieldH_all fs (cellFieldsAbove hcl hr hcell) key
              | nArr es =>
                simp only [hcell] at hfa
                cases hfa
                exact ⟨presLow_refl n0 st, hcl, rfl⟩
          | null =>
            have h3 : (Except.ok ((false, st) : Bool × Store) : Except JErr (Bool × Store))
                = .ok (b, st1) := hfa
            cases h3
            exact ⟨presLow_refl n0 st, hcl, rfl⟩
          | bool bb =>
            have h3 : (Except.ok ((false, st) : Bool × Store) : Except JErr (Bool × Store))
                = .ok (b, st1) := hfa
            cases h3
            exact ⟨presLow_refl n0 st, hcl, rfl⟩
          | num nn =>
            have h3 : (Except.ok ((false, st) : Bool × Store) : Except JErr (Bool × Store))
                = .ok (b, st1) := hfa
            cases h3
            exact ⟨presLow_refl n0 st, hcl, rfl⟩
          | str ss =>
            have h3 : (Except.ok ((false, st) : Bool × Store) : Except JErr (Bool × Store))
                = .ok (b, st1) := hfa
            cases h3
            exact ⟨presLow_refl n0 st, hcl, rfl⟩

theorem removeNavH_above {n0 : Nat} {st : Store} {fuel : Nat} {cur : HVal}
    {key : String} {res : Option HVal}
    (hcl : closedAbove n0 st) (hcur : aboveB n0 cur = true)
    (hnav : removeNavH st fuel cur key = .ok res) :
    ∀ c, res = some c → aboveB n0 c = true := by
  intro c hres
  subst hres
  rw [removeNavH.eq_def] at hnav
  cases h1 : isJsonArrayH st fuel cur with
  | none =>
    simp only [h1] at hnav
    exact absurd hnav (by simp)
  | some b1 =>
    simp only [h1] at hnav
    cases b1 with
    | true =>
      by_cases hsafe : isSafeIntegerOpt (jsParseInt10 key) = true
      · rw [if_pos hsafe] at hnav
        cases cur with
        | href r =>
          have hr : n0 ≤ r := by simpa [aboveB] using hcur
          cases hcell : st[r]? with
          | none =>
            simp only [hcell] at hnav
            simp at hnav
          | some nd =>
            cases nd with
            | nArr es =>
              simp only [hcell] at hnav
              have h2 : arrReadH es ((jsParseInt10 key).getD 0) = some c := by
                simpa using hnav
              exact arrReadH_above (cellSlotsAbove hcl hr hcell) h2
            | nObj fs =>
              simp only [hcell] at hnav
              simp at hnav
        | null => simp at hnav
        | bool bb => simp at hnav
        | num nn => simp at hnav
        | str ss => simp at hnav
      · rw [if_neg hsafe] at hnav
        cases h2 : isJsonObjectH st fuel cur with
        | none => rw [h2] at hnav; simp at hnav
        | some b2 =>
          rw [h2] at hnav
          cases b2 with
          | false => simp at hnav
          | true =>
            cases cur with
            | href r =>
              have hr : n0 ≤ r := by simpa [aboveB] using hcur
              cases hcell : st[r]? with
              | none =>
                simp only [hcell] at hnav
                simp at hnav
              | some nd =>
                cases nd with
                | nObj fs =>
                  simp only [hcell] at hnav
                  have h3 : lookupFieldH fs key = some c := by
                    simpa using hnav
                  exact lookupFieldH_above fs (cellFieldsAbove hcl hr hcell) h3
                | nArr es =>
                  simp only [hcell] at hnav
                  simp at hnav
            | null => simp at hnav
            | bool bb => simp at hnav
            | num nn => simp at hnav
            | str ss => simp at hnav
    | false =>
      cases h2 : isJsonObjectH st fuel cur with
      | none => rw [h2] at hnav; simp at hnav
      | some b2 =>
        rw [h2] at hnav
        cases b2 with
        | false => simp at hnav
        | true =>
          cases cur with
          | href r =>
            have hr : n0 ≤ r := by simpa [aboveB] using hcur
            cases hcell : st[r]? with
            | none =>
              simp only [hcell] at hnav
              simp at hnav
            | some nd =>
              cases nd with
              | nObj fs =>
                simp only [hcell] at hnav
                have h3 : lookupFieldH fs key = some c := by
                  simpa using hnav
                exact lookupFieldH_above fs (cellFieldsAbove hcl hr hcell) h3
              | nArr es =>
                simp only [hcell] at hnav
                simp at hnav
          | null => simp at hnav
          | bool bb => simp at hnav
          | num nn => simp at hnav
          | str ss => simp at hnav

theorem removeLoopH_frame {n0 : Nat} (fuel : Nat) :
    ∀ (segs : List String) (st : Store) (curO : Option HVal),
      closedAbove n0 st → n0 ≤ st.length →
      (∀ c, curO = some c → aboveB n0 c = true) →
      presLow n0 st (removeLoopH fuel st curO segs).1
      ∧ closedAbove n0 (removeLoopH fuel st curO segs).1
      ∧ n0 ≤ (removeLoopH fuel st curO segs).1.length := by
  intro segs
  induction segs with
  | nil =>
    intro st curO hcl hlen hc
    rw [removeLoopH]
    exact ⟨presLow_refl n0 st, hcl, hlen⟩
  | cons key rest ih =>
    intro st curO hcl hlen hc
    cases curO with
    | none =>
      rw [removeLoopH]
      exact ⟨presLow_refl n0 st, hcl, hlen⟩
    | some cur =>
      have hcur := hc cur rfl
      rw [removeLoopH]
      cases hfb : (if rest.isEmpty then removeFinalH st fuel cur key
          else .ok (false, st)) with
      | error e =>
        simp only [hfb]
        exact ⟨presLow_refl n0 st, hcl, hlen⟩
      | ok pair =>
        obtain ⟨b, st1⟩ := pair
        try simp only [hfb]
        have htrio : presLow n0 st st1 ∧ closedAbove n0 st1 ∧ n0 ≤ st1.length := by
          split at hfb
          · obtain ⟨p, c, e⟩ := removeFinalH_frame hcl hcur hfb
            exact ⟨p, c, by omega⟩
          · cases hfb
            exact ⟨presLow_refl n0 st, hcl, hlen⟩
        obtain ⟨hp1, hc1, hl1⟩ := htrio
        cases b with
        | true => exact ⟨hp1, hc1, hl1⟩
        | false =>
          cases hnav : removeNavH st1 fuel cur key with
          | error e =>
            simp only [hnav]
            exact ⟨hp1, hc1, hl1⟩
          | ok cur2 =>
            simp only [hnav]
            obtain ⟨p2, c2, l2⟩ := ih st1 cur2 hc1 hl1
              (removeNavH_above hc1 hcur hnav)
            exact ⟨presLow_trans hp1 p2, c2, l2⟩

theorem removeJsonValueAtPointerH_frame {n0 : Nat} {st : Store} {root : HVal}
    {p : String} {fuel : Nat}
    (hcl : closedAbove n0 st) (hlen : n0 ≤ st.length)
    (hroot : aboveB n0 root = true) :
    presLow n0 st (removeJsonValueAtPointerH st root p fuel).1
    ∧ closedAbove n0 (removeJsonValueAtPointerH st root p fuel).1
    ∧ n0 ≤ (removeJsonValueAtPointerH st root p fuel).1.length := by
  by_cases hp : ¬ isJsonPointer p = true
  · rw [removeJsonValueAtPointerH, if_pos hp]
    exact ⟨presLow_refl n0 st, hcl, hlen⟩
  · cases h1 : isJsonObjectH st fuel root with
    | none =>
      have hres : removeJsonValueAtPointerH st root p fuel
          = (st, some .stackOverflow) := by
        rw [removeJsonValueAtPointerH, if_neg hp, h1]
      rw [hres]
      exact ⟨presLow_refl n0 st, hcl, hlen⟩
    | some b =>
      cases b with
      | false =>
        have hres : removeJsonValueAtPointerH st root p fuel
            = (st, some .invalidObject) := by
          rw [removeJsonValueAtPointerH, if_neg hp, h1]
        rw [hres]
        exact ⟨presLow_refl n0 st, hcl, hlen⟩
      | true =>
        by_cases hroot0 : p = ""
        · have hres : removeJsonValueAtPointerH st root p fuel
              = (st, some .cannotDeleteRoot) := by
            rw [removeJsonValueAtPointerH, if_neg hp, h1, if_pos hroot0]
          rw [hres]
          exact ⟨presLow_refl n0 st, hcl, hlen⟩
        · have hres : removeJsonValueAtPointerH st root p fuel
              = removeLoopH fuel st (some root) (segsOf p) := by
            rw [removeJsonValueAtPointerH, if_neg hp, h1, if_neg hroot0]
          rw [hres]
          exact removeLoopH_frame fuel (segsOf p) st (some root) hcl hlen
            (fun c hcc => by cases hcc; exact hroot)

theorem copyArrH_frame {n0 : Nat} (f : Store → HVal → Option (Store × HVal))
    (hf : ∀ st v st1 v1, closedAbove n0 st → n0 ≤ st.length →
      f st v = some (st1, v1) →
      presLow n0 st st1 ∧ closedAbove n0 st1 ∧ n0 ≤ st1.length
        ∧ aboveB n0 v1 = true) :
    ∀ (es : List (Option HVal)) (st : Store) (st2 : Store)
      (es1 : List (Option HVal)),
      closedAbove n0 st → n0 ≤ st.length →
      copyArrH f st es = some (st2, es1) →
      presLow n0 st st2 ∧ closedAbove n0 st2 ∧ n0 ≤ st2.length
        ∧ es1.all (slotAbove n0) = true := by
  intro es
  induction es with
  | nil =>
    intro st st2 es1 hcl hlen h
    have h' : (some ((st, ([] : List (Option HVal))))
        : Option (Store × List (Option HVal))) = some (st2, es1) := h
    cases h'
    exact ⟨presLow_refl n0 st, hcl, hlen, rfl⟩
  | cons slot rest ih =>
    intro st st2 es1 hcl hlen h
    rw [copyArrH] at h
    cases hf1 : f st (slot.getD .null) with
    | none =>
      rw [hf1] at h
      simp at h
    | some pair1 =>
      obtain ⟨stA, vA⟩ := pair1
      rw [hf1] at h
      have hB : (match copyArrH f stA rest with
          | none => none
          | some (st2x, vs) =>
            some ((st2x, some vA :: vs) : Store × List (Option HVal)))
          = some (st2, es1) := h
      obtain ⟨pA, cA, lA, aA⟩ := hf st (slot.getD .null) stA vA hcl hlen hf1
      cases hrest : copyArrH f stA rest with
      | none =>
        rw [hrest] at hB
        simp at hB
      | some pairB =>
        obtain ⟨stB, vsB⟩ := pairB
        rw [hrest] at hB
        have h' : (some ((stB, some vA :: vsB))
            : Option (Store × List (Option HVal))) = some (st2, es1) := hB
        cases h'
        obtain ⟨pB, cB, lB, aB⟩ := ih stA _ _ cA lA hrest
        refine ⟨presLow_trans pA pB, cB, lB, ?_⟩
        rw [List.all_cons]
        simp only [slotAbove, aA, aB, Bool.and_self]

theorem copyObjH_frame {n0 : Nat} (f : Store → HVal → Option (Store × HVal))
    (hf : ∀ st v st1 v1, closedAbove n0 st → n0 ≤ st.length →
      f st v = some (st1, v1) →
      presLow n0 st st1 ∧ closedAbove n0 st1 ∧ n0 ≤ st1.length
        ∧ aboveB n0 v1 = true) :
    ∀ (fs : List (String × HVal)) (st : Store) (st2 : Store)
      (fs1 : List (String × HVal)),
      closedAbove n0 st → n0 ≤ st.length →
      copyObjH f st fs = some (st2, fs1) →
      presLow n0 st st2 ∧ closedAbove n0 st2 ∧ n0 ≤ st2.length
        ∧ (fs1.all fun kv => aboveB n0 kv.2) = true := by
  intro fs
  induction fs with
  | nil =>
    intro st st2 fs1 hcl hlen h
    have h' : (some ((st, ([] : List (String × HVal))))
        : Option (Store × List (String × HVal))) = some (st2, fs1) := h
    cases h'
    exact ⟨presLow_refl n0 st, hcl, hlen, rfl⟩
  | cons kv rest ih =>
    intro st st2 fs1 hcl hlen h
    obtain ⟨k, v⟩ := kv
    rw [copyObjH] at h
    cases hf1 : f st v with
    | none =>
      rw [hf1] at h
      simp at h
    | some pair1 =>
      obtain ⟨stA, vA⟩ := pair1
      rw [hf1] at h
      have hB : (match copyObjH f stA rest with
          | none => none
          | some (st2x, gs) =>
            some ((st2x, (k, vA) :: gs) : Store × List (String × HVal)))
          = some (st2, fs1) := h
      obtain ⟨pA, cA, lA, aA⟩ := hf st v stA vA hcl hlen hf1
      cases hrest : copyObjH f stA rest with
      | none =>
        rw [hrest] at hB
        simp at hB
      | some pairB =>
        obtain ⟨stB, fsB⟩ := pairB
        rw [hrest] at hB
        have h' : (some ((stB, (k, vA) :: fsB))
            : Option (Store × List (String × HVal))) = some (st2, fs1) := hB
        cases h'
        obtain ⟨pB, cB, lB, aB⟩ := ih stA _ _ cA lA hrest
        refine ⟨presLow_trans pA pB, cB, lB, ?_⟩
        rw [List.all_cons]
        simp only [aA, aB, Bool.and_self]

theorem copyH_frame {n0 : Nat} :
    ∀ (fuel : Nat) (st : Store) (v : HVal) (st1 : Store) (v1 : HVal),
      closedAbove n0 st → n0 ≤ st.length →
      copyH fuel st v = some (st1, v1) →
      presLow n0 st st1 ∧ closedAbove n0 st1 ∧ n0 ≤ st1.length
        ∧ aboveB n0 v1 = true := by
  intro fuel
  induction fuel with
  | zero =>
    intro st v st1 v1 _ _ h
    exact absurd h (by simp [copyH])
  | succ fuel ih =>
    intro st v st1 v1 hcl hlen h
    cases v with
    | null =>
      have h' : (some ((st, HVal.null)) : Option (Store × HVal))
          = some (st1, v1) := h
      cases h'
      exact ⟨presLow_refl n0 st, hcl, hlen, rfl⟩
    | bool b =>
      have h' : (some ((st, HVal.bool b)) : Option (Store × HVal))
          = some (st1, v1) := h
      cases h'
      exact ⟨presLow_refl n0 st, hcl, hlen, rfl⟩
    | num n =>
      have h' : (some ((st, HVal.num n)) : Option (Store × HVal))
          = some (st1, v1) := h
      cases h'
      exact ⟨presLow_refl n0 st, hcl, hlen, rfl⟩
    | str s =>
      have h' : (some ((st, HVal.str s)) : Option (Store × HVal))
          = some (st1, v1) := h
      cases h'
      exact ⟨presLow_refl n0 st, hcl, hlen, rfl⟩
    | href r =>
      have h2 : (match st[r]? with
          | none => some ((st, HVal.null))
          | some (.nArr es) =>
            (match copyArrH (copyH fuel) st es with
             | none => none
             | some (stx, es1) =>
               some ((stx ++ [HNode.nArr es1], HVal.href stx.length)))
          | some (.nObj fs) =>
            (match copyObjH (copyH fuel) st fs with
             | none => none
             | some (stx, fs1) =>
               some ((stx ++ [HNode.nObj fs1], HVal.href stx.length)))
          : Option (Store × HVal)) = some (st1, v1) := h
      cases hcell : st[r]? with
      | none =>
        rw [hcell] at h2
        have h3 : (some ((st, HVal.null)) : Option (Store × HVal))
            = some (st1, v1) := h2
        cases h3
        exact ⟨presLow_refl n0 st, hcl, hlen, rfl⟩
      | some nd =>
        cases nd with
        | nArr es =>
          rw [hcell] at h2
          have h3 : (match copyArrH (copyH fuel) st es with
              | none => none
              | some (stx, es1) =>
                some ((stx ++ [HNode.nArr es1], HVal.href stx.length)
                  : Store × HVal)) = some (st1, v1) := h2
          cases hca : copyArrH (copyH fuel) st es with
          | none =>
            rw [hca] at h3
            simp at h3
          | some pairA =>
            obtain ⟨stA, esA⟩ := pairA
            rw [hca] at h3
            have h4 : (some ((stA ++ [HNode.nArr esA], HVal.href stA.length))
                : Option (Store × HVal)) = some (st1, v1) := h3
            cases h4
            obtain ⟨pA, cA, lA, allA⟩ := copyArrH_frame (copyH fuel)
              (fun s1 w s2 w1 c l hh => ih s1 w s2 w1 c l hh)
              es st stA esA hcl hlen hca
            refine ⟨presLow_trans pA (presLow_append stA _ lA),
              closedAbove_append cA ?_, by simp; omega,
              by simpa [aboveB] using lA⟩
            intro nd hnd
            rw [List.mem_singleton] at hnd
            subst hnd
            simpa [nodeAbove] using allA
        | nObj fs =>
          rw [hcell] at h2
          have h3 : (match copyObjH (copyH fuel) st fs with
              | none => none
              | some (stx, fs1) =>
                some ((stx ++ [HNode.nObj fs1], HVal.href stx.length)
                  : Store × HVal)) = some (st1, v1) := h2
          cases hco : copyObjH (copyH fuel) st fs with
          | none =>
            rw [hco] at h3
            simp at h3
          | some pairA =>
            obtain ⟨stA, fsA⟩ := pairA
            rw [hco] at h3
            have h4 : (some ((stA ++ [HNode.nObj fsA], HVal.href stA.length))
                : Option (Store × HVal)) = some (st1, v1) := h3
            cases h4
            obtain ⟨pA, cA, lA, allA⟩ := copyObjH_frame (copyH fuel)
              (fun s1 w s2 w1 c l hh => ih s1 w s2 w1 c l hh)
              fs st stA fsA hcl hlen hco
            refine ⟨presLow_trans pA (presLow_append stA _ lA),
              closedAbove_append cA ?_, by simp; omega,
              by simpa [aboveB] using lA⟩
            intro nd hnd
            rw [List.mem_singleton] at hnd
            subst hnd
            simpa [nodeAbove] using allA


/-- The store/error result of a patch step keeps the cells below `n0`
intact, the region above closed, and the store at least `n0` long. -/
def frameOK (n0 : Nat) (st : Store) (res : Store × Option JErr) : Prop :=
  presLow n0 st res.1 ∧ closedAbove n0 res.1 ∧ n0 ≤ res.1.length

theorem frameOK_trans {n0 : Nat} {st st1 : Store}
    (h1 : presLow n0 st st1 ∧ closedAbove n0 st1 ∧ n0 ≤ st1.length)
    {res : Store × Option JErr} (h2 : frameOK n0 st1 res) : frameOK n0 st res :=
  ⟨presLow_trans h1.1 h2.1, h2.2⟩

theorem applyOpsH_frame {n0 : Nat} (fuel : Nat) :
    ∀ (ops : List HOp) (st : Store) (root : HVal),
      closedAbove n0 st → n0 ≤ st.length → aboveB n0 root = true →
      (∀ o ∈ ops, opValueRefFree o = true) →
      frameOK n0 st (applyOpsH fuel st root ops) := by
  intro ops
  induction ops with
  | nil =>
    intro st root hcl hlen hroot hops
    rw [applyOpsH]
    exact ⟨presLow_refl n0 st, hcl, hlen⟩
  | cons o rest ih =>
    intro st root hcl hlen hroot hops
    have hop := hops o (by simp)
    have hrest : ∀ o' ∈ rest, opValueRefFree o' = true :=
      fun o' ho' => hops o' (by simp [ho'])
    rw [applyOpsH]
    split
    · -- add
      cases hv : o.value with
      | none => exact ⟨presLow_refl n0 st, hcl, hlen⟩
      | some v =>
        show frameOK n0 st
          (match setJsonValueAtPointerH st root o.path v fuel with
           | (st1, some e) => (st1, some e)
           | (st1, none) => applyOpsH fuel st1 root rest)
        have hrf : refFree v = true := by
          have h0 := hop
          rw [opValueRefFree, hv] at h0
          exact h0
        have hset := @setJsonValueAtPointerH_frame n0 st root o.path v fuel
          hcl hlen hroot (refFree_above n0 v hrf)
        cases hres : setJsonValueAtPointerH st root o.path v fuel with
        | mk st1 e1 =>
          rw [hres] at hset
          cases e1 with
          | some e => exact ⟨hset.1, hset.2.1, hset.2.2⟩
          | none =>
            exact frameOK_trans ⟨hset.1, hset.2.1, hset.2.2⟩
              (ih st1 root hset.2.1 hset.2.2 hroot hrest)
    · -- remove
      cases hseg : getJsonPointerSegments o.path with
      | error e => exact ⟨presLow_refl n0 st, hcl, hlen⟩
      | ok segs =>
        show frameOK n0 st
          (if segs.isEmpty then (st, some .cannotRemoveRoot)
           else
            match getJsonValueAtPointerH st fuel root o.path with
            | .error e => (st, some e)
            | .ok none => (st, some (.pathNotFound o.path))
            | .ok (some _) =>
              match removeJsonValueAtPointerH st root o.path fuel with
              | (st1, some e) => (st1, some e)
              | (st1, none) => applyOpsH fuel st1 root rest)
        by_cases hemp : segs.isEmpty = true
        · rw [if_pos hemp]
          exact ⟨presLow_refl n0 st, hcl, hlen⟩
        · rw [if_neg hemp]
          cases hget : getJsonValueAtPointerH st fuel root o.path with
          | error e => exact ⟨presLow_refl n0 st, hcl, hlen⟩
          | ok got =>
            cases got with
            | none => exact ⟨presLow_refl n0 st, hcl, hlen⟩
            | some w =>
              have hrem := @removeJsonValueAtPointerH_frame n0 st root
                o.path fuel hcl hlen hroot
              cases hres : removeJsonValueAtPointerH st root o.path fuel with
              | mk st1 e1 =>
                rw [hres] at hrem
                cases e1 with
                | some e => exact ⟨hrem.1, hrem.2.1, hrem.2.2⟩
                | none =>
                  exact frameOK_trans ⟨hrem.1, hrem.2.1, hrem.2.2⟩
                    (ih st1 root hrem.2.1 hrem.2.2 hroot hrest)
    · -- replace
      cases hv : o.value with
      | none => exact ⟨presLow_refl n0 st, hcl, hlen⟩
      | some v =>
        show frameOK n0 st
          (match getJsonValueAtPointerH st fuel root o.path with
           | .error e => (st, some e)
           | .ok none => (st, some (.pathNotFound o.path))
           | .ok (some _) =>
             match setJsonValueAtPointerH st root o.path v fuel with
             | (st1, some e) => (st1, some e)
             | (st1, none) => applyOpsH fuel st1 root rest)
        have hrf : refFree v = true := by
          have h0 := hop
          rw [opValueRefFree, hv] at h0
          exact h0
        cases hget : getJsonValueAtPointerH st fuel root o.path with
        | error e => exact ⟨presLow_refl n0 st, hcl, hlen⟩
        | ok got =>
          cases got with
          | none => exact ⟨presLow_refl n0 st, hcl, hlen⟩
          | some w =>
            have hset := @setJsonValueAtPointerH_frame n0 st root o.path v
              fuel hcl hlen hroot (refFree_above n0 v hrf)
            cases hres : setJsonValueAtPointerH st root o.path v fuel with
            | mk st1 e1 =>
              rw [hres] at hset
              cases e1 with
              | some e => exact ⟨hset.1, hset.2.1, hset.2.2⟩
              | none =>
                exact frameOK_trans ⟨hset.1, hset.2.1, hset.2.2⟩
                  (ih st1 root hset.2.1 hset.2.2 hroot hrest)
    · -- move
      cases hfm : o.fromPath with
      | none => exact ⟨presLow_refl n0 st, hcl, hlen⟩
      | some fp =>
        show frameOK n0 st
          (if fp = "" then (st, some (.missingFrom "move"))
           else
            match getJsonValueAtPointerH st fuel root fp with
            | .error e => (st, some e)
            | .ok none => (st, some (.sourcePathNotFound fp))
            | .ok (some v) =>
              match removeJsonValueAtPointerH st root fp fuel with
              | (st1, some e) => (st1, some e)
              | (st1, none) =>
                match setJsonValueAtPointerH st1 root o.path v fuel with
                | (st2, some e) => (st2, some e)
                | (st2, none) => applyOpsH fuel st2 root rest)
        by_cases hfp : fp = ""
        · rw [if_pos hfp]
          exact ⟨presLow_refl n0 st, hcl, hlen⟩
        · rw [if_neg hfp]
          cases hget : getJsonValueAtPointerH st fuel root fp with
          | error e => exact ⟨presLow_refl n0 st, hcl, hlen⟩
          | ok got =>
            cases got with
            | none => exact ⟨presLow_refl n0 st, hcl, hlen⟩
            | some v =>
              show frameOK n0 st
                (match removeJsonValueAtPointerH st root fp fuel with
                 | (st1, some e) => (st1, some e)
                 | (st1, none) =>
                   match setJsonValueAtPointerH st1 root o.path v fuel with
                   | (st2, some e) => (st2, some e)
                   | (st2, none) => applyOpsH fuel st2 root rest)
              have hva : aboveB n0 v = true :=
                getJsonValueAtPointerH_above hcl hroot hget
              have hrem := @removeJsonValueAtPointerH_frame n0 st root fp
                fuel hcl hlen hroot
              cases hres1 : removeJsonValueAtPointerH st root fp fuel with
              | mk st1 e1 =>
                rw [hres1] at hrem
                cases e1 with
                | some e => exact ⟨hrem.1, hrem.2.1, hrem.2.2⟩
                | none =>
                  show frameOK n0 st
                    (match setJsonValueAtPointerH st1 root o.path v fuel with
                     | (st2, some e) => (st2, some e)
                     | (st2, none) => applyOpsH fuel st2 root rest)
                  have hset := @setJsonValueAtPointerH_frame n0 st1 root
                    o.path v fuel hrem.2.1 hrem.2.2 hroot hva
                  cases hres2 : setJsonValueAtPointerH st1 root o.path v fuel with
                  | mk st2 e2 =>
                    rw [hres2] at hset
                    cases e2 with
                    | some e =>
                      exact ⟨presLow_trans hrem.1 hset.1, hset.2.1, hset.2.2⟩
                    | none =>
                      exact frameOK_trans
                        ⟨presLow_trans hrem.1 hset.1, hset.2.1, hset.2.2⟩
                        (ih st2 root hset.2.1 hset.2.2 hroot hrest)
    · -- copy
      cases hfm : o.fromPath with
      | none => exact ⟨presLow_refl n0 st, hcl, hlen⟩
      | some fp =>
        show frameOK n0 st
          (if fp = "" then (st, some (.missingFrom "copy"))
           else
            match getJsonValueAtPointerH st fuel root fp with
            | .error e => (st, some e)
            | .ok none => (st, some (.sourcePathNotFound fp))
            | .ok (some v) =>
              match copyH fuel st v with
              | none => (st, some .stackOverflow)
              | some (st1, v1) =>
                match setJsonValueAtPointerH st1 root o.path v1 fuel with
                | (st2, some e) => (st2, some e)
                | (st2, none) => applyOpsH fuel st2 root rest)
        by_cases hfp : fp = ""
        · rw [if_pos hfp]
          exact ⟨presLow_refl n0 st, hcl, hlen⟩
        · rw [if_neg hfp]
          cases hget : getJsonValueAtPointerH st fuel root fp with
          | error e => exact ⟨presLow_refl n0 st, hcl, hlen⟩
          | ok got =>
            cases got with
            | none => exact ⟨presLow_refl n0 st, hcl, hlen⟩
            | some v =>
              show frameOK n0 st
                (match copyH fuel st v with
                 | none => (st, some .stackOverflow)
                 | some (st1, v1) =>
                   match setJsonValueAtPointerH st1 root o.path v1 fuel with
                   | (st2, some e) => (st2, some e)
                   | (st2, none) => applyOpsH fuel st2 root rest)
              cases hcopy : copyH fuel st v with
              | none => exact ⟨presLow_refl n0 st, hcl, hlen⟩
              | some pairC =>
                obtain ⟨stC, vC⟩ := pairC
                show frameOK n0 st
                  (match setJsonValueAtPointerH stC root o.path vC fuel with
                   | (st2, some e) => (st2, some e)
                   | (st2, none) => applyOpsH fuel st2 root rest)
                obtain ⟨pC, cC, lC, aC⟩ :=
                  copyH_frame fuel st v stC vC hcl hlen hcopy
                have hset := @setJsonValueAtPointerH_frame n0 stC root
                  o.path vC fuel cC lC hroot aC
                cases hres2 : setJsonValueAtPointerH stC root o.path vC fuel with
                | mk st2 e2 =>
                  rw [hres2] at hset
                  cases e2 with
                  | some e =>
                    exact ⟨presLow_trans pC hset.1, hset.2.1, hset.2.2⟩
                  | none =>
                    exact frameOK_trans
                      ⟨presLow_trans pC hset.1, hset.2.1, hset.2.2⟩
                      (ih st2 root hset.2.1 hset.2.2 hroot hrest)
    · -- test
      cases hget : getJsonValueAtPointerH st fuel root o.path with
      | error e => exact ⟨presLow_refl n0 st, hcl, hlen⟩
      | ok got =>
        show frameOK n0 st
          (match deepEqualsUH st fuel got o.value with
           | none => (st, some .stackOverflow)
           | some false => (st, some (.testFailed o.path))
           | some true => applyOpsH fuel st root rest)
        cases hdeq : deepEqualsUH st fuel got o.value with
        | none => exact ⟨presLow_refl n0 st, hcl, hlen⟩
        | some b =>
          cases b with
          | false => exact ⟨presLow_refl n0 st, hcl, hlen⟩
          | true => exact ih st root hcl hlen hroot hrest
    · -- unknown op
      exact ⟨presLow_refl n0 st, hcl, hlen⟩

/-- C7 counterexample: the caller's document is the two-cell store
`json = cell 0 = ⦃a: cell 1⦄` with `cell 1 = ⦃y: 1⦄`.  The patch
`[add /b (cell 1), replace /b/y 2]` succeeds, yet afterwards the *caller's*
inner object `cell 1` reads `⦃y: 2⦄`: the `add` inserted `operation.value`
by reference into the deep copy, and the `replace` then wrote through that
alias straight into the input. -/
theorem C7_counterexample :
    ((applyJsonPatchH [.nObj [("a", .href 1)], .nObj [("y", .num 1)]] 0
        [{ op := "add", path := "/b", value := some (.href 1) },
         { op := "replace", path := "/b/y", value := some (.num 2) }] 40).1)[1]?
      = some (.nObj [("y", .num 2)])
    ∧ (applyJsonPatchH [.nObj [("a", .href 1)], .nObj [("y", .num 1)]] 0
        [{ op := "add", path := "/b", value := some (.href 1) },
         { op := "replace", path := "/b/y", value := some (.num 2) }] 40).2 = none
    ∧ ([HNode.nObj [("a", HVal.href 1)], HNode.nObj [("y", HVal.num 1)]]
        : Store)[1]? = some (.nObj [("y", .num 1)])
    ∧ (HNode.nObj [("y", HVal.num 2)] : HNode) ≠ HNode.nObj [("y", HVal.num 1)] := by
  exact ⟨by decide, by decide, by decide, by decide⟩

/-- C7 (amended): `applyJsonPatch` deep-copies the input and patches the
copy, and this protects the caller's document *provided no operation value
smuggles a reference into it*: when every operation's `value` is
reference-free, every cell of the caller's store survives the whole patch —
on success and on every error path alike.  (`add`, `replace` and `move`
insert `operation.value` by reference, so a value aliasing the input breaks
this, as the counterexample shows.) -/
theorem C7_input_preserved (st : Store) (root : Nat) (ops : List HOp)
    (fuel : Nat) (hops : ∀ o ∈ ops, opValueRefFree o = true) :
    ∀ j, j < st.length → (applyJsonPatchH st root ops fuel).1[j]? = st[j]? := by
  intro j hj
  cases hcopy : copyH fuel st (.href root) with
  | none =>
    rw [applyJsonPatchH, hcopy]
  | some pairC =>
    obtain ⟨st1, newRoot⟩ := pairC
    obtain ⟨pC, cC, lC, aC⟩ := @copyH_frame st.length fuel st
      (.href root) st1 newRoot (closedAbove_init st) (le_refl _) hcopy
    have hfr := @applyOpsH_frame st.length fuel ops st1 newRoot
      cC lC aC hops
    rw [applyJsonPatchH, hcopy]
    show (applyOpsH fuel st1 newRoot ops).1[j]? = st[j]?
    rw [hfr.1 j hj]
    exact pC j hj

/-- C7 witness: a reference-free patch on the two-cell store leaves the
caller's inner cell untouched. -/
theorem C7_witness :
    (∀ o ∈ [{ op := "add", path := "/b", value := some (HVal.num 7) },
            { op := "replace", path := "/b", value := some (HVal.num 8) }],
        opValueRefFree o = true)
    ∧ (applyJsonPatchH [.nObj [("a", .href 1)], .nObj [("y", .num 1)]] 0
        [{ op := "add", path := "/b", value := some (HVal.num 7) },
         { op := "replace", path := "/b", value := some (HVal.num 8) }] 40).1[1]?
      = ([HNode.nObj [("a", HVal.href 1)], HNode.nObj [("y", HVal.num 1)]]
          : Store)[1]? := by
  refine ⟨by decide, ?_⟩
  exact C7_input_preserved _ 0 _ 40 (by decide) 1 (by decide)


/-! ## Claim C1 — the diff/patch inverse

`applyJsonPatch (getJsonDiff a b)` is analysed against a specification-side
patch function `patchVal` and a path updater `updateAt`: the semantic layer
shows the generated operations transform the document into
`updateAt doc path (patchVal s t)`, and a pure layer shows
`deepEquals (patchVal s t) t`.  Conditions: well-formedness (no array
holes, unique parseInt-unambiguous object keys, array lengths within the
index cap) and compatibility (the diff walk meets no array-versus-object
mismatch, which emits nothing and loses the difference). -/

theorem applyOps_append (l2 : List JsonPatchOperation) :
    ∀ (doc : JSVal) (l1 : List JsonPatchOperation), applyOps doc (l1 ++ l2)
      = (match applyOps doc l1 with
         | .error e => .error e
         | .ok d => applyOps d l2) := by
  intro doc l1
  induction doc, l1 using applyOps.induct <;>
    simp_all [applyOps, List.cons_append]

mutual

/-- Well-formedness: no array holes, arrays within the index cap, object
keys unique and `parseInt`-unambiguous. -/
def wfVal : JSVal → Bool
  | .arr xs => decide (xs.length ≤ maxArrayIndex) && wfArr xs
  | .obj fs => decide ((fs.map Prod.fst).Nodup) && wfObj fs
  | _ => true

def wfArr : List (Option JSVal) → Bool
  | [] => true
  | none :: _ => false
  | some v :: xs => wfVal v && wfArr xs

def wfObj : List (String × JSVal) → Bool
  | [] => true
  | (k, v) :: fs => parseSafeKey k && wfVal v && wfObj fs

end

mutual

/-- The diff walk meets no array-versus-object mismatch anywhere. -/
def compatV (s t : JSVal) : Bool :=
  if deepEquals s t then true
  else if ¬ jsTypeof s = jsTypeof t ∨ s = .null ∨ t = .null
      ∨ (¬ isJsonObjectB s ∧ ¬ isJsonArrayB s)
      ∨ (¬ isJsonObjectB t ∧ ¬ isJsonArrayB t) then true
  else
    match s, t with
    | .arr xs, .arr ys =>
      decide (2 * ((xs.length : Int) - ys.length).natAbs > xs.length)
        || compatArr xs ys
    | .obj fs, .obj gs => compatObj fs gs
    | _, _ => false

/-- Pointwise compatibility over the common prefix. -/
def compatArr : List (Option JSVal) → List (Option JSVal) → Bool
  | some a :: xs, some b :: ys => compatV a b && compatArr xs ys
  | _ :: _, _ :: _ => false
  | _, _ => true

def compatObj : List (String × JSVal) → List (String × JSVal) → Bool
  | [], _ => true
  | (k, v) :: fs, gs =>
    (match lookupField gs k with
     | some w => compatV v w
     | none => true)
    && compatObj fs gs

end

/-- The target-only fields appended by the `add` loop. -/
def filterNew (gs fs : List (String × JSVal)) : List (String × JSVal) :=
  gs.filter fun kv => ¬ (lookupField fs kv.1).isSome

mutual

/-- What applying the generated diff produces at one subtree. -/
def patchVal (s t : JSVal) : JSVal :=
  if deepEquals s t then s
  else if ¬ jsTypeof s = jsTypeof t ∨ s = .null ∨ t = .null
      ∨ (¬ isJsonObjectB s ∧ ¬ isJsonArrayB s)
      ∨ (¬ isJsonObjectB t ∧ ¬ isJsonArrayB t) then t
  else
    match s, t with
    | .arr xs, .arr ys =>
      if 2 * ((xs.length : Int) - ys.length).natAbs > xs.length then t
      else .arr (patchArr xs ys ++ ys.drop (min xs.length ys.length))
    | .obj fs, .obj gs => .obj (patchObjSrc fs gs ++ filterNew gs fs)
    | _, _ => s

/-- The common prefix, patched pointwise. -/
def patchArr : List (Option JSVal) → List (Option JSVal) → List (Option JSVal)
  | some a :: xs, some b :: ys => some (patchVal a b) :: patchArr xs ys
  | x :: xs, _ :: ys => x :: patchArr xs ys
  | _, _ => []

/-- The source fields after the source-key loop: recursed where shared,
dropped where target-only removals hit. -/
def patchObjSrc : List (String × JSVal) → List (String × JSVal) →
    List (String × JSVal)
  | [], _ => []
  | (k, v) :: fs, gs =>
    (match lookupField gs k with
     | none => []
     | some w => [(k, patchVal v w)])
      ++ patchObjSrc fs gs

end

/-- The path updater: navigate raw segments and replace the subtree (a
missing final object key appends, a final array index at the length
extends). -/
def updateAt (u : JSVal) : JSVal → List String → JSVal
  | _, [] => u
  | .obj fs, k :: rest =>
    .obj (setField fs k
      (updateAt u ((lookupField fs k).getD (newContainer rest.head?)) rest))
  | .arr xs, k :: rest =>
    .arr (arrWriteAt xs ((jsParseInt10 k).getD 0).toNat
      (updateAt u ((arrGet xs ((jsParseInt10 k).getD 0)).getD
        (newContainer rest.head?)) rest))
  | other, _ :: _ => other

/-- The remove-operation effect along raw segments. -/
def removeAt : JSVal → List String → JSVal
  | doc, [] => doc
  | .obj fs, k :: rest =>
    if rest.isEmpty then .obj (removeField fs k)
    else .obj (setField fs k
      (removeAt ((lookupField fs k).getD .null) rest))
  | .arr xs, k :: rest =>
    if rest.isEmpty then .arr (spliceOne xs ((jsParseInt10 k).getD 0))
    else .arr (arrWriteAt xs ((jsParseInt10 k).getD 0).toNat
      (removeAt ((arrGet xs ((jsParseInt10 k).getD 0)).getD .null) rest))
  | other, _ :: _ => other


theorem patchArr_length :
    ∀ xs ys : List (Option JSVal),
      (patchArr xs ys).length = min xs.length ys.length := by
  intro xs
  induction xs with
  | nil => intro ys; rw [patchArr.eq_def]; simp
  | cons x xs ih =>
    intro ys
    cases ys with
    | nil => rw [patchArr.eq_def]; simp
    | cons y ys =>
      cases x with
      | none =>
        rw [patchArr.eq_def]
        simp only [List.length_cons, ih ys]
        omega
      | some a =>
        cases y with
        | none =>
          rw [patchArr.eq_def]
          simp only [List.length_cons, ih ys]
          omega
        | some b =>
          rw [patchArr.eq_def]
          simp only [List.length_cons, ih ys]
          omega

theorem deepEqualsArr_refl :
    ∀ ys : List (Option JSVal), wfArr ys = true → deepEqualsArr ys ys = true := by
  intro ys
  induction ys with
  | nil => intro h; rfl
  | cons y ys ih =>
    intro h
    cases y with
    | none => rw [wfArr] at h; cases h
    | some b =>
      rw [wfArr] at h
      obtain ⟨hb, hys⟩ := band_eq_true h
      rw [deepEqualsArr]
      simp only [List.head?_cons, List.drop_succ_cons, List.drop_zero]
      rw [deepEquals_refl, ih hys]
      rfl

theorem deepEqualsObj_append (l1 l2 gs : List (String × JSVal)) :
    deepEqualsObj (l1 ++ l2) gs
      = (deepEqualsObj l1 gs && deepEqualsObj l2 gs) := by
  induction l1 with
  | nil => simp [deepEqualsObj]
  | cons f l1 ih =>
    obtain ⟨k, v⟩ := f
    rw [List.cons_append, deepEqualsObj, deepEqualsObj, ih, Bool.and_assoc]

theorem deepEqualsObj_of_lookup :
    ∀ l gs : List (String × JSVal),
      (∀ kv ∈ l, lookupField gs kv.1 = some kv.2) →
      deepEqualsObj l gs = true := by
  intro l
  induction l with
  | nil => intro gs _; rfl
  | cons f l ih =>
    intro gs h
    obtain ⟨k, v⟩ := f
    rw [deepEqualsObj, h (k, v) (by simp)]
    show (deepEquals v v && deepEqualsObj l gs) = true
    rw [deepEquals_refl, ih gs (fun kv hkv => h kv (by simp [hkv]))]
    rfl

theorem wfObj_lookup :
    ∀ gs : List (String × JSVal), wfObj gs = true →
      ∀ {k w}, lookupField gs k = some w → wfVal w = true := by
  intro gs
  induction gs with
  | nil => intro _ k w h; simp [lookupField] at h
  | cons f gs ih =>
    intro hwf k w h
    obtain ⟨k0, v0⟩ := f
    rw [wfObj] at hwf
    obtain ⟨hkv, hgs⟩ := band_eq_true hwf
    obtain ⟨hks, hv0⟩ := band_eq_true hkv
    rw [lookupField] at h
    by_cases hk : k0 = k
    · rw [if_pos hk] at h
      cases h
      exact hv0
    · rw [if_neg hk] at h
      exact ih hgs h

theorem lookupField_isSome_iff (k : String) :
    ∀ fs : List (String × JSVal),
      (lookupField fs k).isSome = true ↔ k ∈ fs.map Prod.fst := by
  intro fs
  induction fs with
  | nil => simp [lookupField]
  | cons f fs ih =>
    obtain ⟨k0, v0⟩ := f
    rw [lookupField]
    by_cases hk : k0 = k
    · subst hk
      simp
    · rw [if_neg hk]
      simp [ih, hk, Ne.symm hk]

theorem countP_cons_key (a : String) (A : List String) (ha : a ∉ A) :
    ∀ B : List String, B.Nodup → a ∈ B →
      B.countP (fun k => decide (k ∈ a :: A))
        = B.countP (fun k => decide (k ∈ A)) + 1 := by
  intro B
  induction B with
  | nil => intro _ h; simp at h
  | cons b B ih =>
    intro hnd hmem
    obtain ⟨hbB, hndB⟩ := List.nodup_cons.mp hnd
    by_cases hba : b = a
    · subst hba
      have h1 : (decide (b ∈ b :: A)) = true := by simp
      have h2 : (decide (b ∈ A)) = false := by simpa using ha
      have hcong : B.countP (fun k => decide (k ∈ b :: A))
          = B.countP (fun k => decide (k ∈ A)) := by
        apply List.countP_congr
        intro x hx
        have hxb : ¬ x = b := fun hc => hbB (hc ▸ hx)
        simp [hxb]
      rw [List.countP_cons, List.countP_cons, h1, h2, hcong]
      simp
    · have hmemB : a ∈ B := by
        rcases List.mem_cons.mp hmem with h | h
        · exact absurd h.symm hba
        · exact h
      rw [List.countP_cons, List.countP_cons, ih hndB hmemB]
      have : (decide (b ∈ a :: A)) = (decide (b ∈ A)) := by
        simp [List.mem_cons, hba]
      rw [this]
      omega


theorem filter_mem_comm :
    ∀ A B : List String, A.Nodup → B.Nodup →
      (A.filter fun k => decide (k ∈ B)).length
        = (B.filter fun k => decide (k ∈ A)).length := by
  intro A
  induction A with
  | nil =>
    intro B _ _
    simp
  | cons a A ih =>
    intro B hA hB
    obtain ⟨haA, hndA⟩ := List.nodup_cons.mp hA
    have hih := ih B hndA hB
    rw [← List.countP_eq_length_filter, ← List.countP_eq_length_filter] at hih ⊢
    rw [List.countP_cons]
    by_cases haB : a ∈ B
    · rw [countP_cons_key a A haA B hB haB, hih]
      have hd : (decide (a ∈ B)) = true := by simpa using haB
      rw [hd]
      simp
    · have h0 : (decide (a ∈ B)) = false := by simpa using haB
      rw [h0]
      have hcong : B.countP (fun k => decide (k ∈ a :: A))
          = B.countP (fun k => decide (k ∈ A)) := by
        apply List.countP_congr
        intro x hx
        have hxa : ¬ x = a := fun hc => haB (hc ▸ hx)
        simp [hxa]
      rw [hcong, hih]
      simp

theorem patchObjSrc_length :
    ∀ fs gs : List (String × JSVal),
      (patchObjSrc fs gs).length
        = (fs.filter fun kv => (lookupField gs kv.1).isSome).length := by
  intro fs
  induction fs with
  | nil => intro gs; rfl
  | cons f fs ih =>
    intro gs
    obtain ⟨k, v⟩ := f
    rw [patchObjSrc]
    cases hlk : lookupField gs k with
    | none =>
      rw [List.filter_cons, if_neg (by simp [hlk])]
      simp only [List.nil_append]
      exact ih gs
    | some w =>
      rw [List.filter_cons, if_pos (by simp [hlk])]
      simp only [List.singleton_append, List.length_cons, ih gs]

theorem length_filter_split (p : String × JSVal → Bool) :
    ∀ l : List (String × JSVal),
      (l.filter p).length + (l.filter fun kv => ¬ p kv).length = l.length := by
  intro l
  induction l with
  | nil => rfl
  | cons f l ih =>
    rw [List.filter_cons, List.filter_cons]
    by_cases hp : p f = true
    · rw [if_pos hp, if_neg (by simp [hp])]
      simp only [List.length_cons]
      omega
    · rw [if_neg hp, if_pos (by simp [hp])]
      simp only [List.length_cons]
      omega

theorem length_filter_keys (p : String → Bool) :
    ∀ l : List (String × JSVal),
      (l.filter fun kv => p kv.1).length = ((l.map Prod.fst).filter p).length := by
  intro l
  induction l with
  | nil => rfl
  | cons f l ih =>
    obtain ⟨k, v⟩ := f
    rw [List.map_cons, List.filter_cons, List.filter_cons]
    by_cases hp : p k = true
    · simp only [hp, if_true, List.length_cons, ih]
    · have h1 : p (k, v).1 = false := by simpa using hp
      have h2 : p k = false := by simpa using hp
      simp only [h1, h2, Bool.false_eq_true, if_false, ih]

theorem patch_obj_length (fs gs : List (String × JSVal))
    (hfs : (fs.map Prod.fst).Nodup) (hgs : (gs.map Prod.fst).Nodup) :
    (patchObjSrc fs gs).length + (filterNew gs fs).length = gs.length := by
  have hgfun : (fun kv : String × JSVal => (lookupField gs kv.1).isSome)
      = (fun kv : String × JSVal => decide (kv.1 ∈ gs.map Prod.fst)) := by
    funext kv
    by_cases hm : kv.1 ∈ gs.map Prod.fst
    · rw [(lookupField_isSome_iff kv.1 gs).mpr hm]
      simp [hm]
    · have hns : ¬ ((lookupField gs kv.1).isSome = true) :=
        fun hc => hm ((lookupField_isSome_iff kv.1 gs).mp hc)
      rw [Bool.not_eq_true] at hns
      rw [hns]
      simp [hm]
  have h1 : (patchObjSrc fs gs).length
      = ((fs.map Prod.fst).filter fun k => decide (k ∈ gs.map Prod.fst)).length := by
    rw [patchObjSrc_length, hgfun]
    exact length_filter_keys (fun k => decide (k ∈ gs.map Prod.fst)) fs
  have h2 : ((fs.map Prod.fst).filter fun k => decide (k ∈ gs.map Prod.fst)).length
      = ((gs.map Prod.fst).filter fun k => decide (k ∈ fs.map Prod.fst)).length :=
    filter_mem_comm _ _ hfs hgs
  have hffun : (fun kv : String × JSVal => (lookupField fs kv.1).isSome)
      = (fun kv : String × JSVal => decide (kv.1 ∈ fs.map Prod.fst)) := by
    funext kv
    by_cases hm : kv.1 ∈ fs.map Prod.fst
    · rw [(lookupField_isSome_iff kv.1 fs).mpr hm]
      simp [hm]
    · have hns : ¬ ((lookupField fs kv.1).isSome = true) :=
        fun hc => hm ((lookupField_isSome_iff kv.1 fs).mp hc)
      rw [Bool.not_eq_true] at hns
      rw [hns]
      simp [hm]
  have h3 : ((gs.map Prod.fst).filter fun k => decide (k ∈ fs.map Prod.fst)).length
      = (gs.filter fun kv => (lookupField fs kv.1).isSome).length := by
    rw [hffun]
    exact (length_filter_keys (fun k => decide (k ∈ fs.map Prod.fst)) gs).symm
  have h4 := length_filter_split
    (fun kv : String × JSVal => (lookupField fs kv.1).isSome) gs
  rw [h1, h2, h3]
  rw [show filterNew gs fs
      = gs.filter (fun kv => ¬ (lookupField fs kv.1).isSome) from rfl]
  omega

theorem deepEquals_arr_intro {xs ys : List (Option JSVal)}
    (hlen : xs.length = ys.length) (h : deepEqualsArr xs ys = true) :
    deepEquals (.arr xs) (.arr ys) = true := by
  rw [deepEquals.eq_def]
  by_cases hb : beqVal (.arr xs) (.arr ys) = true
  · rw [if_pos hb]
  · rw [if_neg hb, if_neg (by rintro (hc | hc) <;> simp at hc),
      if_neg (by simp [jsTypeof])]
    simp [hlen, h]

theorem deepEquals_obj_intro {us gs : List (String × JSVal)}
    (hlen : us.length = gs.length) (h : deepEqualsObj us gs = true) :
    deepEquals (.obj us) (.obj gs) = true := by
  rw [deepEquals.eq_def]
  by_cases hb : beqVal (.obj us) (.obj gs) = true
  · rw [if_pos hb]
  · rw [if_neg hb, if_neg (by rintro (hc | hc) <;> simp at hc),
      if_neg (by simp [jsTypeof])]
    simp [hlen, h]

mutual

/-- Pure layer: the patched subtree deep-equals the diff target. -/
theorem patchVal_de (s t : JSVal) (hws : wfVal s = true) (hwt : wfVal t = true)
    (hc : compatV s t = true) : deepEquals (patchVal s t) t = true := by
  rw [patchVal.eq_def]
  by_cases h1 : deepEquals s t = true
  · rw [if_pos h1]
    exact h1
  · rw [if_neg h1]
    rw [compatV.eq_def, if_neg h1] at hc
    by_cases h2 : ¬ jsTypeof s = jsTypeof t ∨ s = .null ∨ t = .null
        ∨ (¬ isJsonObjectB s ∧ ¬ isJsonArrayB s)
        ∨ (¬ isJsonObjectB t ∧ ¬ isJsonArrayB t)
    · rw [if_pos h2]
      exact deepEquals_refl t
    · rw [if_neg h2]
      rw [if_neg h2] at hc
      cases s <;> cases t <;> try exact absurd hc Bool.false_ne_true
      · rename_i xs ys
        have hc' : (decide (2 * ((xs.length : Int) - ys.length).natAbs
            > xs.length) || compatArr xs ys) = true := hc
        show deepEquals
            (if 2 * ((xs.length : Int) - ys.length).natAbs > xs.length
             then JSVal.arr ys
             else .arr (patchArr xs ys ++ ys.drop (min xs.length ys.length)))
            (.arr ys) = true
        by_cases h3 : 2 * ((xs.length : Int) - ys.length).natAbs > xs.length
        · rw [if_pos h3]
          exact deepEquals_refl (.arr ys)
        · rw [if_neg h3]
          have hdec : (decide (2 * ((xs.length : Int) - ys.length).natAbs
              > xs.length)) = false := by simpa using h3
          rw [hdec, Bool.false_or] at hc'
          rw [wfVal] at hws hwt
          obtain ⟨hxcap, hwxs⟩ := band_eq_true hws
          obtain ⟨hycap, hwys⟩ := band_eq_true hwt
          apply deepEquals_arr_intro
          · rw [List.length_append, patchArr_length, List.length_drop]
            omega
          · exact patchArr_de xs ys hwxs hwys hc'
      · rename_i fs gs
        have hc' : compatObj fs gs = true := hc
        show deepEquals (JSVal.obj (patchObjSrc fs gs ++ filterNew gs fs))
          (.obj gs) = true
        rw [wfVal] at hws hwt
        obtain ⟨hndf, hwfs⟩ := band_eq_true hws
        obtain ⟨hndg, hwgs⟩ := band_eq_true hwt
        have hndf' : (fs.map Prod.fst).Nodup := of_decide_eq_true hndf
        have hndg' : (gs.map Prod.fst).Nodup := of_decide_eq_true hndg
        apply deepEquals_obj_intro
        · rw [List.length_append]
          exact patch_obj_length fs gs hndf' hndg'
        · have hnewlk : ∀ kv ∈ filterNew gs fs,
              lookupField gs kv.1 = some kv.2 := by
            intro kv hkv
            exact lookupField_of_mem (List.mem_of_mem_filter hkv) hndg'
          rw [deepEqualsObj_append, patchObjSrc_de fs gs hwfs hwgs hc',
            deepEqualsObj_of_lookup (filterNew gs fs) gs hnewlk]
          rfl

/-- Pure layer over the common array prefix plus the appended tail. -/
theorem patchArr_de (xs ys : List (Option JSVal)) (hwx : wfArr xs = true)
    (hwy : wfArr ys = true) (hc : compatArr xs ys = true) :
    deepEqualsArr (patchArr xs ys ++ ys.drop (min xs.length ys.length)) ys
      = true := by
  cases xs with
  | nil =>
    have h0 : patchArr ([] : List (Option JSVal)) ys = [] := rfl
    rw [h0, List.nil_append, List.length_nil, Nat.zero_min, List.drop_zero]
    exact deepEqualsArr_refl ys hwy
  | cons x xs =>
    cases ys with
    | nil =>
      have h0 : patchArr (x :: xs) [] = [] := by cases x <;> rfl
      rw [h0, List.drop_nil, List.nil_append]
      rfl
    | cons y ys =>
      cases x with
      | none => rw [wfArr] at hwx; cases hwx
      | some a =>
        cases y with
        | none => rw [wfArr] at hwy; cases hwy
        | some b =>
          rw [wfArr] at hwx hwy
          obtain ⟨hwa, hwxs⟩ := band_eq_true hwx
          obtain ⟨hwb, hwys⟩ := band_eq_true hwy
          have hc' : (compatV a b && compatArr xs ys) = true := hc
          obtain ⟨hcab, hcrest⟩ := band_eq_true hc'
          have hp : patchArr (some a :: xs) (some b :: ys)
              = some (patchVal a b) :: patchArr xs ys := rfl
          have hmin : min (some a :: xs).length (some b :: ys).length
              = min xs.length ys.length + 1 := by
            simp only [List.length_cons]
            omega
          rw [hp, hmin, List.drop_succ_cons, List.cons_append, deepEqualsArr]
          simp only [List.head?_cons, List.drop_succ_cons, List.drop_zero]
          rw [patchVal_de a b hwa hwb hcab,
            patchArr_de xs ys hwxs hwys hcrest]
          rfl

/-- Pure layer over the source-key loop of the object case. -/
theorem patchObjSrc_de (fs gs : List (String × JSVal)) (hwf : wfObj fs = true)
    (hwg : wfObj gs = true) (hc : compatObj fs gs = true) :
    deepEqualsObj (patchObjSrc fs gs) gs = true := by
  cases fs with
  | nil => rfl
  | cons f fs =>
    obtain ⟨k, v⟩ := f
    rw [wfObj] at hwf
    obtain ⟨hkv, hwf'⟩ := band_eq_true hwf
    obtain ⟨hks, hwv⟩ := band_eq_true hkv
    rw [compatObj] at hc
    rw [patchObjSrc]
    cases hlk : lookupField gs k with
    | none =>
      rw [hlk] at hc
      rw [Bool.true_and] at hc
      rw [List.nil_append]
      exact patchObjSrc_de fs gs hwf' hwg hc
    | some w =>
      rw [hlk] at hc
      obtain ⟨h1, h2⟩ := band_eq_true hc
      have h1' : compatV v w = true := h1
      have hw : wfVal w = true := wfObj_lookup gs hwg hlk
      rw [List.singleton_append, deepEqualsObj, hlk]
      show (deepEquals (patchVal v w) w
        && deepEqualsObj (patchObjSrc fs gs) gs) = true
      rw [patchVal_de v w hwv hw h1', patchObjSrc_de fs gs hwf' hwg h2]
      rfl

end

/-! ### Semantic layer for C1: navigation predicates -/

/-- Navigation along raw segments exists and is unambiguous: object hops use
`parseInt`-safe keys, array hops use decimal indices in range on arrays
within the index cap, and every visited child exists. -/
def navOK : JSVal → List String → Bool
  | _, [] => true
  | .obj fs, k :: rest =>
    parseSafeKey k &&
    (match lookupField fs k with
     | some c => navOK c rest
     | none => false)
  | .arr xs, k :: rest =>
    isDigits k && decide (xs.length ≤ maxArrayIndex) &&
    (match arrGet xs ((jsParseInt10 k).getD 0) with
     | some c => navOK c rest
     | none => false)
  | _, _ :: _ => false

/-- Conditions under which the `set` loop acts exactly like the path
updater `updateAt`. -/
def setOK : JSVal → List String → Bool
  | _, [] => false
  | .obj fs, k :: rest =>
    parseSafeKey k &&
    (rest.isEmpty ||
     (match lookupField fs k with
      | some c => setOK c rest
      | none => setOK (newContainer rest.head?) rest))
  | .arr _xs, k :: rest =>
    isDigits k && decide (((jsParseInt10 k).getD 0).toNat < maxArrayIndex) &&
    (rest.isEmpty ||
     (match arrGet _xs ((jsParseInt10 k).getD 0) with
      | some c => setOK c rest
      | none => setOK (newContainer rest.head?) rest))
  | _, _ :: _ => false

/-- Conditions under which the `remove` loop acts exactly like `removeAt`. -/
def removeOK : JSVal → List String → Bool
  | _, [] => false
  | .obj fs, k :: rest =>
    rest.isEmpty ||
    (match lookupField fs k with
     | some c => removeOK c rest
     | none => false)
  | .arr xs, k :: rest =>
    isSafeIntegerOpt (jsParseInt10 k) &&
    (rest.isEmpty ||
     (match arrGet xs ((jsParseInt10 k).getD 0) with
      | some c => removeOK c rest
      | none => false))
  | _, _ :: _ => false

theorem segsOf_nil : segsOf "" = [] := rfl

theorem isJsonPointer_nil : isJsonPointer "" = true := by decide

theorem isJsonPointer_child (p e : String) (h : isJsonPointer p = true) :
    isJsonPointer (p ++ "/" ++ e) = true := by
  have hdata : (p ++ "/" ++ e).data = p.data ++ '/' :: e.data := by simp
  cases hp : p.data with
  | nil =>
    rw [hp] at hdata
    exact isJsonPointer_of_slash hdata
  | cons c cs =>
    by_cases hc : c = '/'
    · subst hc
      rw [hp] at hdata
      rw [List.cons_append] at hdata
      exact isJsonPointer_of_slash hdata
    · exfalso
      rw [isJsonPointer] at h
      have hpe : ¬ p = "" := by
        intro hcon
        rw [hcon] at hp
        simp at hp
      have hd : (decide (p = "")) = false := by simpa using hpe
      rw [hd, Bool.false_or] at h
      obtain ⟨h1, _⟩ := band_eq_true h
      rw [hp] at h1
      split at h1
      · rename_i heq
        exact hc (by injection heq)
      · exact Bool.false_ne_true h1

theorem walkGet_nil (doc : JSVal) : walkGet doc [] = some doc := rfl

theorem walkGet_append (Q : List String) :
    ∀ (P : List String) (doc : JSVal),
      walkGet doc (P ++ Q) = (walkGet doc P).bind fun s => walkGet s Q := by
  intro P
  induction P with
  | nil => intro doc; rfl
  | cons k P ih =>
    intro doc
    cases doc with
    | null => rfl
    | bool b => rfl
    | num n => rfl
    | str s => rfl
    | arr xs =>
      rw [List.cons_append, walkGet]
      conv_rhs => rw [walkGet]
      show (if isDigits k = true then
              match arrGet xs ((jsParseInt10 k).getD 0) with
              | some v => walkGet v (P ++ Q)
              | none => none
            else none)
          = (Option.bind (if isDigits k = true then
              match arrGet xs ((jsParseInt10 k).getD 0) with
              | some v => walkGet v P
              | none => none
            else none) fun s => walkGet s Q)
      by_cases hd : isDigits k = true
      · rw [if_pos hd, if_pos hd]
        cases hg : arrGet xs ((jsParseInt10 k).getD 0) with
        | some v => exact ih v
        | none => rfl
      · rw [if_neg hd, if_neg hd]
        rfl
    | obj fs =>
      rw [List.cons_append, walkGet]
      conv_rhs => rw [walkGet]
      show (match lookupField fs k with
            | some v => walkGet v (P ++ Q)
            | none => none)
          = (Option.bind (match lookupField fs k with
              | some v => walkGet v P
              | none => none) fun s => walkGet s Q)
      cases hg : lookupField fs k with
      | some v => exact ih v
      | none => rfl

/-! ### Field-list and slot-list algebra -/

theorem setField_setField (fs : List (String × JSVal)) (k : String)
    (v w : JSVal) : setField (setField fs k v) k w = setField fs k w := by
  induction fs with
  | nil => simp [setField]
  | cons f fs ih =>
    obtain ⟨k0, u⟩ := f
    by_cases h : k0 = k
    · simp [setField, h]
    · simp [setField, h, ih]

theorem setField_eq_of_lookup (fs : List (String × JSVal)) (k : String)
    (c : JSVal) (h : lookupField fs k = some c) : setField fs k c = fs := by
  induction fs with
  | nil => simp [lookupField] at h
  | cons f fs ih =>
    obtain ⟨k0, u⟩ := f
    rw [lookupField] at h
    by_cases hk : k0 = k
    · rw [if_pos hk] at h
      cases h
      rw [setField, if_pos hk]
    · rw [if_neg hk] at h
      rw [setField, if_neg hk, ih h]

theorem lookupField_append_none (l1 l2 : List (String × JSVal)) (k : String)
    (h : lookupField l1 k = none) :
    lookupField (l1 ++ l2) k = lookupField l2 k := by
  induction l1 with
  | nil => rfl
  | cons f l1 ih =>
    obtain ⟨k0, u⟩ := f
    rw [lookupField] at h
    by_cases hk : k0 = k
    · rw [if_pos hk] at h; cases h
    · rw [if_neg hk] at h
      rw [List.cons_append, lookupField, if_neg hk]
      exact ih h

theorem lookupField_append_some (l1 l2 : List (String × JSVal)) (k : String)
    (c : JSVal) (h : lookupField l1 k = some c) :
    lookupField (l1 ++ l2) k = some c := by
  induction l1 with
  | nil => simp [lookupField] at h
  | cons f l1 ih =>
    obtain ⟨k0, u⟩ := f
    rw [lookupField] at h
    rw [List.cons_append, lookupField]
    by_cases hk : k0 = k
    · rw [if_pos hk] at h
      rw [if_pos hk]
      exact h
    · rw [if_neg hk] at h
      rw [if_neg hk]
      exact ih h

theorem setField_append_none (l1 l2 : List (String × JSVal)) (k : String)
    (v : JSVal) (h : lookupField l1 k = none) :
    setField (l1 ++ l2) k v = l1 ++ setField l2 k v := by
  induction l1 with
  | nil => rfl
  | cons f l1 ih =>
    obtain ⟨k0, u⟩ := f
    rw [lookupField] at h
    by_cases hk : k0 = k
    · rw [if_pos hk] at h; cases h
    · rw [if_neg hk] at h
      rw [List.cons_append, setField, if_neg hk, List.cons_append, ih h]

theorem setField_of_lookup_none (l : List (String × JSVal)) (k : String)
    (v : JSVal) (h : lookupField l k = none) :
    setField l k v = l ++ [(k, v)] := by
  induction l with
  | nil => rfl
  | cons f l ih =>
    obtain ⟨k0, u⟩ := f
    rw [lookupField] at h
    by_cases hk : k0 = k
    · rw [if_pos hk] at h; cases h
    · rw [if_neg hk] at h
      rw [setField, if_neg hk, List.cons_append, ih h]

theorem removeField_append_none (l1 l2 : List (String × JSVal)) (k : String)
    (h : lookupField l1 k = none) :
    removeField (l1 ++ l2) k = l1 ++ removeField l2 k := by
  induction l1 with
  | nil => rfl
  | cons f l1 ih =>
    obtain ⟨k0, u⟩ := f
    rw [lookupField] at h
    by_cases hk : k0 = k
    · rw [if_pos hk] at h; cases h
    · rw [if_neg hk] at h
      rw [List.cons_append, removeField, if_neg hk, List.cons_append, ih h]

theorem removeField_of_lookup_none (l : List (String × JSVal)) (k : String)
    (h : lookupField l k = none) : removeField l k = l := by
  induction l with
  | nil => rfl
  | cons f l ih =>
    obtain ⟨k0, u⟩ := f
    rw [lookupField] at h
    by_cases hk : k0 = k
    · rw [if_pos hk] at h; cases h
    · rw [if_neg hk] at h
      rw [removeField, if_neg hk, ih h]

theorem removeField_cons_self (l : List (String × JSVal)) (k : String)
    (v : JSVal) (h : lookupField l k = none) :
    removeField ((k, v) :: l) k = l := by
  rw [removeField, if_pos rfl, removeField_of_lookup_none l k h]

theorem patchObjSrc_append_dist (l1 l2 gs : List (String × JSVal)) :
    patchObjSrc (l1 ++ l2) gs = patchObjSrc l1 gs ++ patchObjSrc l2 gs := by
  induction l1 with
  | nil => rfl
  | cons f l1 ih =>
    obtain ⟨k, v⟩ := f
    rw [List.cons_append, patchObjSrc, patchObjSrc, ih, List.append_assoc]

theorem lookupField_patchObjSrc_none (gs : List (String × JSVal)) (k : String) :
    ∀ fs, lookupField fs k = none →
      lookupField (patchObjSrc fs gs) k = none := by
  intro fs
  induction fs with
  | nil => intro _; rfl
  | cons f fs ih =>
    obtain ⟨k0, v⟩ := f
    intro h
    rw [lookupField] at h
    by_cases hk : k0 = k
    · rw [if_pos hk] at h; cases h
    · rw [if_neg hk] at h
      rw [patchObjSrc]
      cases hlk : lookupField gs k0 with
      | none =>
        rw [List.nil_append]
        exact ih h
      | some w =>
        rw [List.singleton_append, lookupField, if_neg hk]
        exact ih h

theorem set_append_prefix {α : Type} :
    ∀ (pre : List α) (x v : α) (l : List α),
      (pre ++ x :: l).set pre.length v = pre ++ v :: l := by
  intro pre
  induction pre with
  | nil => intro x v l; rfl
  | cons a pre ih =>
    intro x v l
    simp only [List.cons_append, List.length_cons, List.set_cons_succ, ih]

theorem arrGet_append_prefix (pre : List (Option JSVal)) (x : Option JSVal)
    (l : List (Option JSVal)) :
    arrGet (pre ++ x :: l) (pre.length : Int) = x := by
  have h1 : ((pre.length : Int)).toNat = pre.length := Int.toNat_natCast _
  rw [arrGet, if_pos ⟨Int.ofNat_nonneg _, by rw [h1]; simp⟩]
  rw [h1, List.getD_eq_getElem?_getD, List.getElem?_append_right (le_refl _)]
  simp

theorem arrWriteAt_append_prefix (pre : List (Option JSVal)) (x : Option JSVal)
    (l : List (Option JSVal)) (v : JSVal) :
    arrWriteAt (pre ++ x :: l) pre.length v = pre ++ some v :: l := by
  rw [arrWriteAt, if_pos (by simp)]
  exact set_append_prefix pre x (some v) l

theorem arrWriteAt_at_length (xs : List (Option JSVal)) (v : JSVal) :
    arrWriteAt xs xs.length v = xs ++ [some v] := by
  rw [arrWriteAt, if_neg (by omega)]
  simp

theorem arrWriteAt_idem (xs : List (Option JSVal)) (n : Nat) (v : JSVal) :
    arrWriteAt (arrWriteAt xs n v) n v = arrWriteAt xs n v := by
  by_cases h : n < xs.length
  · have hinner : arrWriteAt xs n v = xs.set n (some v) := by
      rw [arrWriteAt, if_pos h]
    rw [hinner, arrWriteAt, if_pos (by simpa using h), List.set_set]
  · have hinner : arrWriteAt xs n v
        = xs ++ List.replicate (n - xs.length) none ++ [some v] := by
      rw [arrWriteAt, if_neg h]
    have hA : (xs ++ List.replicate (n - xs.length) none).length = n := by
      simp
      omega
    have hstep := set_append_prefix (xs ++ List.replicate (n - xs.length) none)
      (some v) (some v) []
    rw [hA] at hstep
    rw [hinner, arrWriteAt, if_pos (by simp; omega), hstep]

theorem spliceOne_last (l : List (Option JSVal)) (x : Option JSVal) :
    spliceOne (l ++ [x]) (l.length : Int) = l := by
  rw [spliceOne]
  have hstart : (if (l.length : Int) < 0 then
      max (((l ++ [x]).length : Int) + (l.length : Int)) 0
      else min ((l.length : Int)) (((l ++ [x]).length : Int)))
      = (l.length : Int) := by
    rw [if_neg (by omega)]
    apply min_eq_left
    simp
  rw [hstart, Int.toNat_natCast, List.take_left]
  have hdrop : (l ++ [x]).drop (l.length + 1) = [] := by
    apply List.drop_eq_nil_of_le
    simp
  rw [hdrop, List.append_nil]

theorem updateAt_nil (u doc : JSVal) : updateAt u doc [] = u := by
  cases doc <;> rfl

theorem removeAt_nil (doc : JSVal) : removeAt doc [] = doc := by
  cases doc <;> rfl

theorem arrGet_some_bounds {xs : List (Option JSVal)} {i : Int} {c : JSVal}
    (h : arrGet xs i = some c) : 0 ≤ i ∧ i.toNat < xs.length := by
  by_cases hb : 0 ≤ i ∧ i.toNat < xs.length
  · exact hb
  · rw [arrGet, if_neg hb] at h
    cases h

theorem set_self_of_getElem {α : Type} :
    ∀ (l : List α) (n : Nat) (a : α), l[n]? = some a → l.set n a = l := by
  intro l
  induction l with
  | nil => intro n a h; simp at h
  | cons x l ih =>
    intro n a h
    cases n with
    | zero =>
      rw [List.getElem?_cons_zero] at h
      have h' : x = a := by injection h
      rw [List.set_cons_zero, h']
    | succ n =>
      rw [List.getElem?_cons_succ] at h
      rw [List.set_cons_succ, ih n a h]

theorem arrGet_some_elem {xs : List (Option JSVal)} {i : Int} {c : JSVal}
    (h : arrGet xs i = some c) : xs[i.toNat]? = some (some c) := by
  obtain ⟨h0, hlt⟩ := arrGet_some_bounds h
  rw [arrGet, if_pos ⟨h0, hlt⟩, List.getD_eq_getElem?_getD] at h
  cases hx : xs[i.toNat]? with
  | none => rw [hx] at h; cases h
  | some e =>
    rw [hx] at h
    have h' : e = some c := h
    rw [h']

theorem arrWriteAt_keep {xs : List (Option JSVal)} {i : Int} {c : JSVal}
    (h : arrGet xs i = some c) : arrWriteAt xs i.toNat c = xs := by
  obtain ⟨h0, hlt⟩ := arrGet_some_bounds h
  rw [arrWriteAt, if_pos hlt]
  exact set_self_of_getElem xs i.toNat (some c) (arrGet_some_elem h)

theorem arrWriteAt_overwrite (xs : List (Option JSVal)) (n : Nat)
    (v w : JSVal) (h : n < xs.length) :
    arrWriteAt (arrWriteAt xs n v) n w = arrWriteAt xs n w := by
  have hinner : arrWriteAt xs n v = xs.set n (some v) := by
    rw [arrWriteAt, if_pos h]
  rw [hinner, arrWriteAt, if_pos (by simpa using h), List.set_set,
    arrWriteAt, if_pos h]

/-- Along `setOK` segments, the `set` loop is exactly the path updater. -/
theorem setWalk_updateAt (v : JSVal) :
    ∀ (P : List String) (cur : JSVal), setOK cur P = true →
      setWalk v cur P = updateAt v cur P := by
  intro P
  induction P with
  | nil =>
    intro cur h
    cases cur <;> exact absurd h Bool.false_ne_true
  | cons s rest ih =>
    intro cur h
    cases cur with
    | null => exact absurd h Bool.false_ne_true
    | bool b => exact absurd h Bool.false_ne_true
    | num n => exact absurd h Bool.false_ne_true
    | str t => exact absurd h Bool.false_ne_true
    | obj fs =>
      have h' : (parseSafeKey s &&
          (rest.isEmpty ||
           (match lookupField fs s with
            | some c => setOK c rest
            | none => setOK (newContainer rest.head?) rest))) = true := h
      obtain ⟨hps, hrest⟩ := band_eq_true h'
      rw [setWalk_cons, updateAt]
      cases rest with
      | nil =>
        simp only [List.isEmpty_nil, if_true]
        rw [assignFinal_obj, setNav, updateAt_nil]
        cases hj : jsParseInt s with
        | none =>
          simp only [lookupField_setField_self, setWalk_nil, setField_setField]
        | some n =>
          have hkey : intToString n = s := by
            rw [parseSafeKey, hj] at hps
            simpa using hps
          simp only [hkey, lookupField_setField_self, setWalk_nil,
            setField_setField]
      | cons s2 rest2 =>
        simp only [List.isEmpty_cons, Bool.false_eq_true, if_false]
        simp only [List.isEmpty_cons, Bool.false_or] at hrest
        rw [setNav]
        cases hj : jsParseInt s with
        | none =>
          cases hlk : lookupField fs s with
          | none =>
            have hrest' : setOK (newContainer (s2 :: rest2).head?)
                (s2 :: rest2) = true := by
              rw [hlk] at hrest
              exact hrest
            simp only [hlk, Option.getD_none]
            rw [ih _ hrest']
          | some c =>
            have hrest' : setOK c (s2 :: rest2) = true := by
              rw [hlk] at hrest
              exact hrest
            simp only [hlk, Option.getD_some]
            rw [ih c hrest']
        | some n =>
          have hkey : intToString n = s := by
            rw [parseSafeKey, hj] at hps
            simpa using hps
          simp only [hkey]
          cases hlk : lookupField fs s with
          | none =>
            have hrest' : setOK (newContainer (s2 :: rest2).head?)
                (s2 :: rest2) = true := by
              rw [hlk] at hrest
              exact hrest
            simp only [hlk, Option.getD_none]
            rw [ih _ hrest']
          | some c =>
            have hrest' : setOK c (s2 :: rest2) = true := by
              rw [hlk] at hrest
              exact hrest
            simp only [hlk, Option.getD_some]
            rw [ih c hrest']
    | arr xs =>
      have h' : (isDigits s
          && decide (((jsParseInt10 s).getD 0).toNat < maxArrayIndex) &&
          (rest.isEmpty ||
           (match arrGet xs ((jsParseInt10 s).getD 0) with
            | some c => setOK c rest
            | none => setOK (newContainer rest.head?) rest))) = true := h
      obtain ⟨hdc, hrest⟩ := band_eq_true h'
      obtain ⟨hd, hcap⟩ := band_eq_true hdc
      obtain ⟨m, hm10, hmr⟩ := jsParseInt_of_digits s hd
      have hgd : (jsParseInt10 s).getD 0 = (m : Int) := by rw [hm10]; rfl
      have hcap' : m < maxArrayIndex := by
        have hx := of_decide_eq_true hcap
        rw [hgd, Int.toNat_natCast] at hx
        exact hx
      rw [setWalk_cons, updateAt, hgd, Int.toNat_natCast]
      cases rest with
      | nil =>
        simp only [List.isEmpty_nil, if_true]
        rw [updateAt_nil, assignFinal, if_pos hd, arrSet, hgd,
          if_pos ⟨Int.ofNat_nonneg m, by rw [Int.toNat_natCast]; exact hcap'⟩,
          Int.toNat_natCast, setNav]
        simp only [hmr]
        rw [if_pos ⟨Int.ofNat_nonneg m, by rw [Int.toNat_natCast]; exact hcap'⟩]
        simp only [arrGet_arrWriteAt, Int.toNat_natCast, setWalk_nil,
          arrWriteAt_idem]
      | cons s2 rest2 =>
        simp only [List.isEmpty_cons, Bool.false_eq_true, if_false]
        simp only [List.isEmpty_cons, Bool.false_or] at hrest
        rw [hgd] at hrest
        rw [setNav]
        simp only [hmr]
        rw [if_pos ⟨Int.ofNat_nonneg m, by rw [Int.toNat_natCast]; exact hcap'⟩,
          Int.toNat_natCast]
        cases hg : arrGet xs ((m : Nat) : Int) with
        | none =>
          have hrest' : setOK (newContainer (s2 :: rest2).head?)
              (s2 :: rest2) = true := by
            rw [hg] at hrest
            exact hrest
          simp only [hg, Option.getD_none]
          rw [ih _ hrest']
        | some c =>
          have hrest' : setOK c (s2 :: rest2) = true := by
            rw [hg] at hrest
            exact hrest
          simp only [hg, Option.getD_some]
          rw [ih c hrest']

theorem arrWriteAt_length_of_lt {xs : List (Option JSVal)} {n : Nat} (v : JSVal)
    (h : n < xs.length) : (arrWriteAt xs n v).length = xs.length := by
  rw [arrWriteAt, if_pos h, List.length_set]

/-- Along `removeOK` segments, the `remove` loop is exactly `removeAt`. -/
theorem removeWalk_removeAt :
    ∀ (P : List String) (cur : JSVal), removeOK cur P = true →
      removeWalk cur P = removeAt cur P := by
  intro P
  induction P with
  | nil =>
    intro cur h
    cases cur <;> exact absurd h Bool.false_ne_true
  | cons s rest ih =>
    intro cur h
    cases cur with
    | null => exact absurd h Bool.false_ne_true
    | bool b => exact absurd h Bool.false_ne_true
    | num n => exact absurd h Bool.false_ne_true
    | str t => exact absurd h Bool.false_ne_true
    | obj fs =>
      have h' : (rest.isEmpty ||
          (match lookupField fs s with
           | some c => removeOK c rest
           | none => false)) = true := h
      rw [removeWalk, removeAt]
      cases rest with
      | nil =>
        simp only [List.isEmpty_nil, if_true]
      | cons s2 rest2 =>
        simp only [List.isEmpty_cons, Bool.false_eq_true, if_false]
        simp only [List.isEmpty_cons, Bool.false_or] at h'
        cases hlk : lookupField fs s with
        | none =>
          rw [hlk] at h'
          exact absurd h' Bool.false_ne_true
        | some c =>
          have hc : removeOK c (s2 :: rest2) = true := by
            rw [hlk] at h'
            exact h'
          simp only [hlk, Option.getD_some]
          rw [ih c hc]
    | arr xs =>
      have h' : (isSafeIntegerOpt (jsParseInt10 s) &&
          (rest.isEmpty ||
           (match arrGet xs ((jsParseInt10 s).getD 0) with
            | some c => removeOK c rest
            | none => false))) = true := h
      obtain ⟨hsafe, hrest⟩ := band_eq_true h'
      rw [removeWalk, removeAt]
      cases rest with
      | nil =>
        simp only [List.isEmpty_nil, if_true]
        rw [if_pos hsafe]
      | cons s2 rest2 =>
        simp only [List.isEmpty_cons, Bool.false_eq_true, if_false]
        simp only [List.isEmpty_cons, Bool.false_or] at hrest
        rw [if_pos hsafe]
        cases hg : arrGet xs ((jsParseInt10 s).getD 0) with
        | none =>
          rw [hg] at hrest
          exact absurd hrest Bool.false_ne_true
        | some c =>
          have hc : removeOK c (s2 :: rest2) = true := by
            rw [hg] at hrest
            exact hrest
          obtain ⟨h0, hlt⟩ := arrGet_some_bounds hg
          simp only [hg, Option.getD_some]
          rw [ih c hc, arrWriteAt, if_pos hlt]

/-- Writing back the value read at `P` changes nothing. -/
theorem updateAt_self :
    ∀ (P : List String) (doc s : JSVal), navOK doc P = true →
      walkGet doc P = some s → updateAt s doc P = doc := by
  intro P
  induction P with
  | nil =>
    intro doc s _ hw
    have h' : some doc = some s := hw
    have hs : doc = s := by injection h'
    rw [updateAt_nil, hs]
  | cons k rest ih =>
    intro doc s hn hw
    cases doc with
    | null => exact absurd hn Bool.false_ne_true
    | bool b => exact absurd hn Bool.false_ne_true
    | num n => exact absurd hn Bool.false_ne_true
    | str t => exact absurd hn Bool.false_ne_true
    | obj fs =>
      have hn' : (parseSafeKey k &&
          (match lookupField fs k with
           | some c => navOK c rest
           | none => false)) = true := hn
      obtain ⟨hps, hrest⟩ := band_eq_true hn'
      cases hlk : lookupField fs k with
      | none =>
        rw [hlk] at hrest
        exact absurd hrest Bool.false_ne_true
      | some c =>
        rw [hlk] at hrest
        have hrest' : navOK c rest = true := hrest
        have hw' : walkGet c rest = some s := by
          rw [walkGet_obj_key hlk] at hw
          exact hw
        rw [updateAt]
        simp only [hlk, Option.getD_some]
        rw [ih c s hrest' hw', setField_eq_of_lookup fs k c hlk]
    | arr xs =>
      have hn' : (isDigits k && decide (xs.length ≤ maxArrayIndex) &&
          (match arrGet xs ((jsParseInt10 k).getD 0) with
           | some c => navOK c rest
           | none => false)) = true := hn
      obtain ⟨hdc, hrest⟩ := band_eq_true hn'
      obtain ⟨hd, hcap⟩ := band_eq_true hdc
      obtain ⟨m, hm10, hmr⟩ := jsParseInt_of_digits k hd
      have hgd : (jsParseInt10 k).getD 0 = (m : Int) := by rw [hm10]; rfl
      cases hg : arrGet xs ((jsParseInt10 k).getD 0) with
      | none =>
        rw [hg] at hrest
        exact absurd hrest Bool.false_ne_true
      | some c =>
        rw [hg] at hrest
        have hrest' : navOK c rest = true := hrest
        rw [hgd] at hg
        have hw' : walkGet c rest = some s := by
          rw [walkGet_arr_step hd hm10 hg] at hw
          exact hw
        rw [updateAt]
        simp only [hgd, hg, Option.getD_some]
        rw [ih c s hrest' hw', arrWriteAt_keep hg]

/-- Updating below an existing location factors through the subtree. -/
theorem updateAt_factor :
    ∀ (P : List String) (doc s : JSVal), navOK doc P = true →
      walkGet doc P = some s →
      ∀ (u : JSVal) (Q : List String),
        updateAt u doc (P ++ Q) = updateAt (updateAt u s Q) doc P := by
  intro P
  induction P with
  | nil =>
    intro doc s _ hw u Q
    have h' : some doc = some s := hw
    have hs : doc = s := by injection h'
    rw [List.nil_append, updateAt_nil, hs]
  | cons k rest ih =>
    intro doc s hn hw u Q
    cases doc with
    | null => exact absurd hn Bool.false_ne_true
    | bool b => exact absurd hn Bool.false_ne_true
    | num n => exact absurd hn Bool.false_ne_true
    | str t => exact absurd hn Bool.false_ne_true
    | obj fs =>
      have hn' : (parseSafeKey k &&
          (match lookupField fs k with
           | some c => navOK c rest
           | none => false)) = true := hn
      obtain ⟨hps, hrest⟩ := band_eq_true hn'
      cases hlk : lookupField fs k with
      | none =>
        rw [hlk] at hrest
        exact absurd hrest Bool.false_ne_true
      | some c =>
        rw [hlk] at hrest
        have hrest' : navOK c rest = true := hrest
        have hw' : walkGet c rest = some s := by
          rw [walkGet_obj_key hlk] at hw
          exact hw
        rw [List.cons_append, updateAt, updateAt]
        simp only [hlk, Option.getD_some]
        rw [ih c s hrest' hw' u Q]
    | arr xs =>
      have hn' : (isDigits k && decide (xs.length ≤ maxArrayIndex) &&
          (match arrGet xs ((jsParseInt10 k).getD 0) with
           | some c => navOK c rest
           | none => false)) = true := hn
      obtain ⟨hdc, hrest⟩ := band_eq_true hn'
      obtain ⟨hd, hcap⟩ := band_eq_true hdc
      obtain ⟨m, hm10, hmr⟩ := jsParseInt_of_digits k hd
      have hgd : (jsParseInt10 k).getD 0 = (m : Int) := by rw [hm10]; rfl
      cases hg : arrGet xs ((jsParseInt10 k).getD 0) with
      | none =>
        rw [hg] at hrest
        exact absurd hrest Bool.false_ne_true
      | some c =>
        rw [hg] at hrest
        have hrest' : navOK c rest = true := hrest
        rw [hgd] at hg
        have hw' : walkGet c rest = some s := by
          rw [walkGet_arr_step hd hm10 hg] at hw
          exact hw
        rw [List.cons_append, updateAt, updateAt]
        simp only [hgd, hg, Option.getD_some]
        rw [ih c s hrest' hw' u Q]

/-- Updating at an existing location keeps it navigable and readable. -/
theorem updateAt_navOK :
    ∀ (P : List String) (doc s : JSVal), navOK doc P = true →
      walkGet doc P = some s → ∀ (c : JSVal),
        navOK (updateAt c doc P) P = true
        ∧ walkGet (updateAt c doc P) P = some c := by
  intro P
  induction P with
  | nil =>
    intro doc s _ _ c
    rw [updateAt_nil]
    exact ⟨by cases c <;> rfl, rfl⟩
  | cons k rest ih =>
    intro doc s hn hw c
    cases doc with
    | null => exact absurd hn Bool.false_ne_true
    | bool b => exact absurd hn Bool.false_ne_true
    | num n => exact absurd hn Bool.false_ne_true
    | str t => exact absurd hn Bool.false_ne_true
    | obj fs =>
      have hn' : (parseSafeKey k &&
          (match lookupField fs k with
           | some c0 => navOK c0 rest
           | none => false)) = true := hn
      obtain ⟨hps, hrest⟩ := band_eq_true hn'
      cases hlk : lookupField fs k with
      | none =>
        rw [hlk] at hrest
        exact absurd hrest Bool.false_ne_true
      | some c0 =>
        rw [hlk] at hrest
        have hrest' : navOK c0 rest = true := hrest
        have hw' : walkGet c0 rest = some s := by
          rw [walkGet_obj_key hlk] at hw
          exact hw
        obtain ⟨ihn, ihw⟩ := ih c0 s hrest' hw' c
        rw [updateAt]
        simp only [hlk, Option.getD_some]
        constructor
        · show (parseSafeKey k &&
              (match lookupField
                  (setField fs k (updateAt c c0 rest)) k with
               | some c1 => navOK c1 rest
               | none => false)) = true
          rw [lookupField_setField_self, hps]
          simpa using ihn
        · rw [walkGet_obj_key (lookupField_setField_self fs k _)]
          exact ihw
    | arr xs =>
      have hn' : (isDigits k && decide (xs.length ≤ maxArrayIndex) &&
          (match arrGet xs ((jsParseInt10 k).getD 0) with
           | some c0 => navOK c0 rest
           | none => false)) = true := hn
      obtain ⟨hdc, hrest⟩ := band_eq_true hn'
      obtain ⟨hd, hcap⟩ := band_eq_true hdc
      obtain ⟨m, hm10, hmr⟩ := jsParseInt_of_digits k hd
      have hgd : (jsParseInt10 k).getD 0 = (m : Int) := by rw [hm10]; rfl
      cases hg : arrGet xs ((jsParseInt10 k).getD 0) with
      | none =>
        rw [hg] at hrest
        exact absurd hrest Bool.false_ne_true
      | some c0 =>
        rw [hg] at hrest
        have hrest' : navOK c0 rest = true := hrest
        rw [hgd] at hg
        obtain ⟨hm0, hmlt⟩ := arrGet_some_bounds hg
        rw [Int.toNat_natCast] at hmlt
        have hw' : walkGet c0 rest = some s := by
          rw [walkGet_arr_step hd hm10 hg] at hw
          exact hw
        obtain ⟨ihn, ihw⟩ := ih c0 s hrest' hw' c
        rw [updateAt]
        simp only [hgd, hg, Option.getD_some, Int.toNat_natCast]
        have hget : arrGet (arrWriteAt xs m (updateAt c c0 rest)) ((m : Nat) : Int)
            = some (updateAt c c0 rest) := arrGet_arrWriteAt xs m _
        constructor
        · show (isDigits k
              && decide ((arrWriteAt xs m (updateAt c c0 rest)).length
                  ≤ maxArrayIndex) &&
              (match arrGet (arrWriteAt xs m (updateAt c c0 rest))
                  ((jsParseInt10 k).getD 0) with
               | some c1 => navOK c1 rest
               | none => false)) = true
          rw [hgd, hget, hd, arrWriteAt_length_of_lt _ hmlt, hcap]
          simpa using ihn
        · rw [walkGet_arr_step hd hm10 hget]
          exact ihw

/-- A second update at the same location overwrites the first. -/
theorem updateAt_absorb :
    ∀ (P : List String) (doc s : JSVal), navOK doc P = true →
      walkGet doc P = some s → ∀ (c c' : JSVal),
        updateAt c' (updateAt c doc P) P = updateAt c' doc P := by
  intro P
  induction P with
  | nil =>
    intro doc s _ _ c c'
    rw [updateAt_nil, updateAt_nil]
  | cons k rest ih =>
    intro doc s hn hw c c'
    cases doc with
    | null => exact absurd hn Bool.false_ne_true
    | bool b => exact absurd hn Bool.false_ne_true
    | num n => exact absurd hn Bool.false_ne_true
    | str t => exact absurd hn Bool.false_ne_true
    | obj fs =>
      have hn' : (parseSafeKey k &&
          (match lookupField fs k with
           | some c0 => navOK c0 rest
           | none => false)) = true := hn
      obtain ⟨hps, hrest⟩ := band_eq_true hn'
      cases hlk : lookupField fs k with
      | none =>
        rw [hlk] at hrest
        exact absurd hrest Bool.false_ne_true
      | some c0 =>
        rw [hlk] at hrest
        have hrest' : navOK c0 rest = true := hrest
        have hw' : walkGet c0 rest = some s := by
          rw [walkGet_obj_key hlk] at hw
          exact hw
        rw [updateAt]
        simp only [hlk, Option.getD_some]
        rw [updateAt]
        simp only [lookupField_setField_self, Option.getD_some]
        rw [ih c0 s hrest' hw' c c', setField_setField, updateAt]
        simp only [hlk, Option.getD_some]
    | arr xs =>
      have hn' : (isDigits k && decide (xs.length ≤ maxArrayIndex) &&
          (match arrGet xs ((jsParseInt10 k).getD 0) with
           | some c0 => navOK c0 rest
           | none => false)) = true := hn
      obtain ⟨hdc, hrest⟩ := band_eq_true hn'
      obtain ⟨hd, hcap⟩ := band_eq_true hdc
      obtain ⟨m, hm10, hmr⟩ := jsParseInt_of_digits k hd
      have hgd : (jsParseInt10 k).getD 0 = (m : Int) := by rw [hm10]; rfl
      cases hg : arrGet xs ((jsParseInt10 k).getD 0) with
      | none =>
        rw [hg] at hrest
        exact absurd hrest Bool.false_ne_true
      | some c0 =>
        rw [hg] at hrest
        have hrest' : navOK c0 rest = true := hrest
        rw [hgd] at hg
        obtain ⟨hm0, hmlt⟩ := arrGet_some_bounds hg
        rw [Int.toNat_natCast] at hmlt
        have hw' : walkGet c0 rest = some s := by
          rw [walkGet_arr_step hd hm10 hg] at hw
          exact hw
        have hget : arrGet (arrWriteAt xs m (updateAt c c0 rest)) ((m : Nat) : Int)
            = some (updateAt c c0 rest) := arrGet_arrWriteAt xs m _
        rw [updateAt]
        simp only [hgd, hg, Option.getD_some, Int.toNat_natCast]
        rw [updateAt]
        simp only [hgd, hget, Option.getD_some, Int.toNat_natCast]
        rw [ih c0 s hrest' hw' c c',
          arrWriteAt_overwrite xs m _ _ hmlt, updateAt]
        simp only [hgd, hg, Option.getD_some, Int.toNat_natCast]

theorem navOK_append :
    ∀ (P : List String) (doc s : JSVal), navOK doc P = true →
      walkGet doc P = some s → ∀ (Q : List String), navOK s Q = true →
        navOK doc (P ++ Q) = true := by
  intro P
  induction P with
  | nil =>
    intro doc s _ hw Q hq
    have h' : some doc = some s := hw
    have hs : doc = s := by injection h'
    rw [List.nil_append, hs]
    exact hq
  | cons k rest ih =>
    intro doc s hn hw Q hq
    cases doc with
    | null => exact absurd hn Bool.false_ne_true
    | bool b => exact absurd hn Bool.false_ne_true
    | num n => exact absurd hn Bool.false_ne_true
    | str t => exact absurd hn Bool.false_ne_true
    | obj fs =>
      have hn' : (parseSafeKey k &&
          (match lookupField fs k with
           | some c0 => navOK c0 rest
           | none => false)) = true := hn
      obtain ⟨hps, hrest⟩ := band_eq_true hn'
      cases hlk : lookupField fs k with
      | none =>
        rw [hlk] at hrest
        exact absurd hrest Bool.false_ne_true
      | some c =>
        rw [hlk] at hrest
        have hrest' : navOK c rest = true := hrest
        have hw' : walkGet c rest = some s := by
          rw [walkGet_obj_key hlk] at hw
          exact hw
        rw [List.cons_append]
        show (parseSafeKey k &&
            (match lookupField fs k with
             | some c0 => navOK c0 (rest ++ Q)
             | none => false)) = true
        rw [hlk, hps]
        simpa using ih c s hrest' hw' Q hq
    | arr xs =>
      have hn' : (isDigits k && decide (xs.length ≤ maxArrayIndex) &&
          (match arrGet xs ((jsParseInt10 k).getD 0) with
           | some c0 => navOK c0 rest
           | none => false)) = true := hn
      obtain ⟨hdc, hrest⟩ := band_eq_true hn'
      obtain ⟨hd, hcap⟩ := band_eq_true hdc
      obtain ⟨m, hm10, hmr⟩ := jsParseInt_of_digits k hd
      have hgd : (jsParseInt10 k).getD 0 = (m : Int) := by rw [hm10]; rfl
      cases hg : arrGet xs ((jsParseInt10 k).getD 0) with
      | none =>
        rw [hg] at hrest
        exact absurd hrest Bool.false_ne_true
      | some c =>
        rw [hg] at hrest
        have hrest' : navOK c rest = true := hrest
        have hg' : arrGet xs ((m : Nat) : Int) = some c := by
          rw [← hgd]
          exact hg
        have hw' : walkGet c rest = some s := by
          rw [walkGet_arr_step hd hm10 hg'] at hw
          exact hw
        rw [List.cons_append]
        show (isDigits k && decide (xs.length ≤ maxArrayIndex) &&
            (match arrGet xs ((jsParseInt10 k).getD 0) with
             | some c0 => navOK c0 (rest ++ Q)
             | none => false)) = true
        rw [hg, hd, hcap]
        simpa using ih c s hrest' hw' Q hq

theorem cap_le_safe (m len : Nat) (hmlt : m < len)
    (hcap : decide (len ≤ maxArrayIndex) = true) :
    isSafeIntegerOpt (some ((m : Nat) : Int)) = true := by
  have hlen := of_decide_eq_true hcap
  have hmax : maxArrayIndex ≤ 2 ^ 53 - 1 := by norm_num [maxArrayIndex]
  rw [isSafeIntegerOpt]
  apply decide_eq_true
  have h1 : ((m : Nat) : Int).natAbs = m := by simp
  rw [h1]
  omega

theorem setOK_of_navOK :
    ∀ (P : List String) (doc : JSVal), P ≠ [] → navOK doc P = true →
      setOK doc P = true := by
  intro P
  induction P with
  | nil => intro doc h _; exact absurd rfl h
  | cons k rest ih =>
    intro doc _ hn
    cases doc with
    | null => exact absurd hn Bool.false_ne_true
    | bool b => exact absurd hn Bool.false_ne_true
    | num n => exact absurd hn Bool.false_ne_true
    | str t => exact absurd hn Bool.false_ne_true
    | obj fs =>
      have hn' : (parseSafeKey k &&
          (match lookupField fs k with
           | some c0 => navOK c0 rest
           | none => false)) = true := hn
      obtain ⟨hps, hrest⟩ := band_eq_true hn'
      show (parseSafeKey k &&
          (rest.isEmpty ||
           (match lookupField fs k with
            | some c => setOK c rest
            | none => setOK (newContainer rest.head?) rest))) = true
      rw [hps, Bool.true_and]
      cases rest with
      | nil => rfl
      | cons s2 r2 =>
        cases hlk : lookupField fs k with
        | none =>
          rw [hlk] at hrest
          exact absurd hrest Bool.false_ne_true
        | some c =>
          rw [hlk] at hrest
          have hrest' : navOK c (s2 :: r2) = true := hrest
          have hset := ih c (by simp) hrest'
          simp [hset]
    | arr xs =>
      have hn' : (isDigits k && decide (xs.length ≤ maxArrayIndex) &&
          (match arrGet xs ((jsParseInt10 k).getD 0) with
           | some c0 => navOK c0 rest
           | none => false)) = true := hn
      obtain ⟨hdc, hrest⟩ := band_eq_true hn'
      obtain ⟨hd, hcap⟩ := band_eq_true hdc
      obtain ⟨m, hm10, hmr⟩ := jsParseInt_of_digits k hd
      have hgd : (jsParseInt10 k).getD 0 = (m : Int) := by rw [hm10]; rfl
      cases hg : arrGet xs ((jsParseInt10 k).getD 0) with
      | none =>
        rw [hg] at hrest
        exact absurd hrest Bool.false_ne_true
      | some c =>
        rw [hg] at hrest
        have hrest' : navOK c rest = true := hrest
        have hmlt : m < xs.length := by
          have hb := (arrGet_some_bounds (hgd ▸ hg)).2
          rw [Int.toNat_natCast] at hb
          exact hb
        have hcapm : decide (((jsParseInt10 k).getD 0).toNat
            < maxArrayIndex) = true := by
          rw [hgd, Int.toNat_natCast]
          exact decide_eq_true
            (lt_of_lt_of_le hmlt (of_decide_eq_true hcap))
        show (isDigits k
            && decide (((jsParseInt10 k).getD 0).toNat < maxArrayIndex) &&
            (rest.isEmpty ||
             (match arrGet xs ((jsParseInt10 k).getD 0) with
              | some c => setOK c rest
              | none => setOK (newContainer rest.head?) rest))) = true
        rw [hd, hcapm]
        cases rest with
        | nil => rfl
        | cons s2 r2 =>
          have hset := ih c (by simp) hrest'
          rw [hg]
          simp [hset]

theorem setOK_append :
    ∀ (P : List String) (doc s : JSVal), navOK doc P = true →
      walkGet doc P = some s → ∀ (Q : List String), setOK s Q = true →
        setOK doc (P ++ Q) = true := by
  intro P
  induction P with
  | nil =>
    intro doc s _ hw Q hq
    have h' : some doc = some s := hw
    have hs : doc = s := by injection h'
    rw [List.nil_append, hs]
    exact hq
  | cons k rest ih =>
    intro doc s hn hw Q hq
    have hQ : Q ≠ [] := by
      intro hcon
      subst hcon
      cases s <;> exact absurd hq Bool.false_ne_true
    have hne : (rest ++ Q).isEmpty = false := by
      cases hie : (rest ++ Q).isEmpty
      · rfl
      · exfalso
        have hnil := List.isEmpty_iff.mp hie
        exact hQ (List.append_eq_nil.mp hnil).2
    cases doc with
    | null => exact absurd hn Bool.false_ne_true
    | bool b => exact absurd hn Bool.false_ne_true
    | num n => exact absurd hn Bool.false_ne_true
    | str t => exact absurd hn Bool.false_ne_true
    | obj fs =>
      have hn' : (parseSafeKey k &&
          (match lookupField fs k with
           | some c0 => navOK c0 rest
           | none => false)) = true := hn
      obtain ⟨hps, hrest⟩ := band_eq_true hn'
      cases hlk : lookupField fs k with
      | none =>
        rw [hlk] at hrest
        exact absurd hrest Bool.false_ne_true
      | some c =>
        rw [hlk] at hrest
        have hrest' : navOK c rest = true := hrest
        have hw' : walkGet c rest = some s := by
          rw [walkGet_obj_key hlk] at hw
          exact hw
        rw [List.cons_append]
        show (parseSafeKey k &&
            ((rest ++ Q).isEmpty ||
             (match lookupField fs k with
              | some c => setOK c (rest ++ Q)
              | none => setOK (newContainer (rest ++ Q).head?) (rest ++ Q)))) = true
        rw [hps, hne, hlk, Bool.false_or, Bool.true_and]
        exact ih c s hrest' hw' Q hq
    | arr xs =>
      have hn' : (isDigits k && decide (xs.length ≤ maxArrayIndex) &&
          (match arrGet xs ((jsParseInt10 k).getD 0) with
           | some c0 => navOK c0 rest
           | none => false)) = true := hn
      obtain ⟨hdc, hrest⟩ := band_eq_true hn'
      obtain ⟨hd, hcap⟩ := band_eq_true hdc
      obtain ⟨m, hm10, hmr⟩ := jsParseInt_of_digits k hd
      have hgd : (jsParseInt10 k).getD 0 = (m : Int) := by rw [hm10]; rfl
      cases hg : arrGet xs ((jsParseInt10 k).getD 0) with
      | none =>
        rw [hg] at hrest
        exact absurd hrest Bool.false_ne_true
      | some c =>
        rw [hg] at hrest
        have hrest' : navOK c rest = true := hrest
        have hg' : arrGet xs ((m : Nat) : Int) = some c := by
          rw [← hgd]
          exact hg
        have hw' : walkGet c rest = some s := by
          rw [walkGet_arr_step hd hm10 hg'] at hw
          exact hw
        have hmlt : m < xs.length := by
          have hb := (arrGet_some_bounds hg').2
          rw [Int.toNat_natCast] at hb
          exact hb
        have hcapm : decide (((jsParseInt10 k).getD 0).toNat
            < maxArrayIndex) = true := by
          rw [hgd, Int.toNat_natCast]
          exact decide_eq_true
            (lt_of_lt_of_le hmlt (of_decide_eq_true hcap))
        rw [List.cons_append]
        show (isDigits k
            && decide (((jsParseInt10 k).getD 0).toNat < maxArrayIndex) &&
            ((rest ++ Q).isEmpty ||
             (match arrGet xs ((jsParseInt10 k).getD 0) with
              | some c => setOK c (rest ++ Q)
              | none => setOK (newContainer (rest ++ Q).head?) (rest ++ Q)))) = true
        rw [hd, hcapm, hne, hg, Bool.false_or]
        simpa using ih c s hrest' hw' Q hq

theorem removeOK_of_navOK :
    ∀ (P : List String) (doc : JSVal), P ≠ [] → navOK doc P = true →
      removeOK doc P = true := by
  intro P
  induction P with
  | nil => intro doc h _; exact absurd rfl h
  | cons k rest ih =>
    intro doc _ hn
    cases doc with
    | null => exact absurd hn Bool.false_ne_true
    | bool b => exact absurd hn Bool.false_ne_true
    | num n => exact absurd hn Bool.false_ne_true
    | str t => exact absurd hn Bool.false_ne_true
    | obj fs =>
      have hn' : (parseSafeKey k &&
          (match lookupField fs k with
           | some c0 => navOK c0 rest
           | none => false)) = true := hn
      obtain ⟨hps, hrest⟩ := band_eq_true hn'
      show (rest.isEmpty ||
          (match lookupField fs k with
           | some c => removeOK c rest
           | none => false)) = true
      cases rest with
      | nil => rfl
      | cons s2 r2 =>
        cases hlk : lookupField fs k with
        | none =>
          rw [hlk] at hrest
          exact absurd hrest Bool.false_ne_true
        | some c =>
          rw [hlk] at hrest
          have hrest' : navOK c (s2 :: r2) = true := hrest
          have hrem := ih c (by simp) hrest'
          simp [hrem]
    | arr xs =>
      have hn' : (isDigits k && decide (xs.length ≤ maxArrayIndex) &&
          (match arrGet xs ((jsParseInt10 k).getD 0) with
           | some c0 => navOK c0 rest
           | none => false)) = true := hn
      obtain ⟨hdc, hrest⟩ := band_eq_true hn'
      obtain ⟨hd, hcap⟩ := band_eq_true hdc
      obtain ⟨m, hm10, hmr⟩ := jsParseInt_of_digits k hd
      have hgd : (jsParseInt10 k).getD 0 = (m : Int) := by rw [hm10]; rfl
      cases hg : arrGet xs ((jsParseInt10 k).getD 0) with
      | none =>
        rw [hg] at hrest
        exact absurd hrest Bool.false_ne_true
      | some c =>
        rw [hg] at hrest
        have hrest' : navOK c rest = true := hrest
        have hg' : arrGet xs ((m : Nat) : Int) = some c := by
          rw [← hgd]
          exact hg
        have hmlt : m < xs.length := by
          have hb := (arrGet_some_bounds hg').2
          rw [Int.toNat_natCast] at hb
          exact hb
        have hsafe : isSafeIntegerOpt (jsParseInt10 k) = true := by
          rw [hm10]
          exact cap_le_safe m xs.length hmlt hcap
        show (isSafeIntegerOpt (jsParseInt10 k) &&
            (rest.isEmpty ||
             (match arrGet xs ((jsParseInt10 k).getD 0) with
              | some c => removeOK c rest
              | none => false))) = true
        rw [hsafe, Bool.true_and]
        cases rest with
        | nil => rfl
        | cons s2 r2 =>
          have hrem := ih c (by simp) hrest'
          rw [hg]
          simp [hrem]

theorem removeOK_append :
    ∀ (P : List String) (doc s : JSVal), navOK doc P = true →
      walkGet doc P = some s → ∀ (Q : List String), removeOK s Q = true →
        removeOK doc (P ++ Q) = true := by
  intro P
  induction P with
  | nil =>
    intro doc s _ hw Q hq
    have h' : some doc = some s := hw
    have hs : doc = s := by injection h'
    rw [List.nil_append, hs]
    exact hq
  | cons k rest ih =>
    intro doc s hn hw Q hq
    have hQ : Q ≠ [] := by
      intro hcon
      subst hcon
      cases s <;> exact absurd hq Bool.false_ne_true
    have hne : (rest ++ Q).isEmpty = false := by
      cases hie : (rest ++ Q).isEmpty
      · rfl
      · exfalso
        have hnil := List.isEmpty_iff.mp hie
        exact hQ (List.append_eq_nil.mp hnil).2
    cases doc with
    | null => exact absurd hn Bool.false_ne_true
    | bool b => exact absurd hn Bool.false_ne_true
    | num n => exact absurd hn Bool.false_ne_true
    | str t => exact absurd hn Bool.false_ne_true
    | obj fs =>
      have hn' : (parseSafeKey k &&
          (match lookupField fs k with
           | some c0 => navOK c0 rest
           | none => false)) = true := hn
      obtain ⟨hps, hrest⟩ := band_eq_true hn'
      cases hlk : lookupField fs k with
      | none =>
        rw [hlk] at hrest
        exact absurd hrest Bool.false_ne_true
      | some c =>
        rw [hlk] at hrest
        have hrest' : navOK c rest = true := hrest
        have hw' : walkGet c rest = some s := by
          rw [walkGet_obj_key hlk] at hw
          exact hw
        rw [List.cons_append]
        show ((rest ++ Q).isEmpty ||
            (match lookupField fs k with
             | some c => removeOK c (rest ++ Q)
             | none => false)) = true
        rw [hne, hlk, Bool.false_or]
        exact ih c s hrest' hw' Q hq
    | arr xs =>
      have hn' : (isDigits k && decide (xs.length ≤ maxArrayIndex) &&
          (match arrGet xs ((jsParseInt10 k).getD 0) with
           | some c0 => navOK c0 rest
           | none => false)) = true := hn
      obtain ⟨hdc, hrest⟩ := band_eq_true hn'
      obtain ⟨hd, hcap⟩ := band_eq_true hdc
      obtain ⟨m, hm10, hmr⟩ := jsParseInt_of_digits k hd
      have hgd : (jsParseInt10 k).getD 0 = (m : Int) := by rw [hm10]; rfl
      cases hg : arrGet xs ((jsParseInt10 k).getD 0) with
      | none =>
        rw [hg] at hrest
        exact absurd hrest Bool.false_ne_true
      | some c =>
        rw [hg] at hrest
        have hrest' : navOK c rest = true := hrest
        have hg' : arrGet xs ((m : Nat) : Int) = some c := by
          rw [← hgd]
          exact hg
        have hw' : walkGet c rest = some s := by
          rw [walkGet_arr_step hd hm10 hg'] at hw
          exact hw
        have hmlt : m < xs.length := by
          have hb := (arrGet_some_bounds hg').2
          rw [Int.toNat_natCast] at hb
          exact hb
        have hsafe : isSafeIntegerOpt (jsParseInt10 k) = true := by
          rw [hm10]
          exact cap_le_safe m xs.length hmlt hcap
        rw [List.cons_append]
        show (isSafeIntegerOpt (jsParseInt10 k) &&
            ((rest ++ Q).isEmpty ||
             (match arrGet xs ((jsParseInt10 k).getD 0) with
              | some c => removeOK c (rest ++ Q)
              | none => false))) = true
        rw [hsafe, hne, hg, Bool.false_or, Bool.true_and]
        exact ih c s hrest' hw' Q hq

/-- Removing below an existing location factors through the subtree. -/
theorem removeAt_factor :
    ∀ (P : List String) (doc s : JSVal), navOK doc P = true →
      walkGet doc P = some s → ∀ (Q : List String), Q ≠ [] →
        removeAt doc (P ++ Q) = updateAt (removeAt s Q) doc P := by
  intro P
  induction P with
  | nil =>
    intro doc s _ hw Q _
    have h' : some doc = some s := hw
    have hs : doc = s := by injection h'
    rw [List.nil_append, updateAt_nil, hs]
  | cons k rest ih =>
    intro doc s hn hw Q hQ
    have hne : (rest ++ Q).isEmpty = false := by
      cases hie : (rest ++ Q).isEmpty
      · rfl
      · exfalso
        have hnil := List.isEmpty_iff.mp hie
        exact hQ (List.append_eq_nil.mp hnil).2
    cases doc with
    | null => exact absurd hn Bool.false_ne_true
    | bool b => exact absurd hn Bool.false_ne_true
    | num n => exact absurd hn Bool.false_ne_true
    | str t => exact absurd hn Bool.false_ne_true
    | obj fs =>
      have hn' : (parseSafeKey k &&
          (match lookupField fs k with
           | some c0 => navOK c0 rest
           | none => false)) = true := hn
      obtain ⟨hps, hrest⟩ := band_eq_true hn'
      cases hlk : lookupField fs k with
      | none =>
        rw [hlk] at hrest
        exact absurd hrest Bool.false_ne_true
      | some c =>
        rw [hlk] at hrest
        have hrest' : navOK c rest = true := hrest
        have hw' : walkGet c rest = some s := by
          rw [walkGet_obj_key hlk] at hw
          exact hw
        rw [List.cons_append, removeAt, updateAt]
        rw [if_neg (by rw [hne]; simp)]
        simp only [hlk, Option.getD_some]
        rw [ih c s hrest' hw' Q hQ]
    | arr xs =>
      have hn' : (isDigits k && decide (xs.length ≤ maxArrayIndex) &&
          (match arrGet xs ((jsParseInt10 k).getD 0) with
           | some c0 => navOK c0 rest
           | none => false)) = true := hn
      obtain ⟨hdc, hrest⟩ := band_eq_true hn'
      obtain ⟨hd, hcap⟩ := band_eq_true hdc
      obtain ⟨m, hm10, hmr⟩ := jsParseInt_of_digits k hd
      have hgd : (jsParseInt10 k).getD 0 = (m : Int) := by rw [hm10]; rfl
      cases hg : arrGet xs ((jsParseInt10 k).getD 0) with
      | none =>
        rw [hg] at hrest
        exact absurd hrest Bool.false_ne_true
      | some c =>
        rw [hg] at hrest
        have hrest' : navOK c rest = true := hrest
        have hg' : arrGet xs ((m : Nat) : Int) = some c := by
          rw [← hgd]
          exact hg
        have hw' : walkGet c rest = some s := by
          rw [walkGet_arr_step hd hm10 hg'] at hw
          exact hw
        rw [List.cons_append, removeAt, updateAt]
        rw [if_neg (by rw [hne]; simp)]
        simp only [hg, Option.getD_some]
        rw [ih c s hrest' hw' Q hQ]

/-! ### Operation-level reductions -/

theorem navOK_nil (c : JSVal) : navOK c [] = true := by
  cases c <;> rfl

theorem navOK_obj_single {cur : List (String × JSVal)} {k : String} {v : JSVal}
    (hps : parseSafeKey k = true) (hlk : lookupField cur k = some v) :
    navOK (.obj cur) [k] = true := by
  show (parseSafeKey k &&
      (match lookupField cur k with
       | some c => navOK c []
       | none => false)) = true
  rw [hps, hlk]
  simpa using navOK_nil v

theorem navOK_arr_single {zs : List (Option JSVal)} {k : String} {v : JSVal}
    (hd : isDigits k = true) (hcap : decide (zs.length ≤ maxArrayIndex) = true)
    (hg : arrGet zs ((jsParseInt10 k).getD 0) = some v) :
    navOK (.arr zs) [k] = true := by
  show (isDigits k && decide (zs.length ≤ maxArrayIndex) &&
      (match arrGet zs ((jsParseInt10 k).getD 0) with
       | some c => navOK c []
       | none => false)) = true
  rw [hd, hcap, hg]
  simpa using navOK_nil v

theorem setOK_obj_final (cur : List (String × JSVal)) (k : String)
    (hps : parseSafeKey k = true) : setOK (.obj cur) [k] = true := by
  show (parseSafeKey k &&
      (([] : List String).isEmpty ||
       (match lookupField cur k with
        | some c => setOK c []
        | none => setOK (newContainer ([] : List String).head?) []))) = true
  rw [hps]
  rfl

theorem setOK_arr_final (zs : List (Option JSVal)) (k : String)
    (hd : isDigits k = true)
    (hcap : decide (((jsParseInt10 k).getD 0).toNat < maxArrayIndex) = true) :
    setOK (.arr zs) [k] = true := by
  show (isDigits k
      && decide (((jsParseInt10 k).getD 0).toNat < maxArrayIndex) &&
      (([] : List String).isEmpty ||
       (match arrGet zs ((jsParseInt10 k).getD 0) with
        | some c => setOK c []
        | none => setOK (newContainer ([] : List String).head?) []))) = true
  rw [hd, hcap]
  rfl

theorem removeOK_obj_final (cur : List (String × JSVal)) (k : String) :
    removeOK (.obj cur) [k] = true := by
  show ((([] : List String).isEmpty ||
      (match lookupField cur k with
       | some c => removeOK c []
       | none => false))) = true
  rfl

theorem removeOK_arr_final (zs : List (Option JSVal)) (k : String)
    (hsafe : isSafeIntegerOpt (jsParseInt10 k) = true) :
    removeOK (.arr zs) [k] = true := by
  show (isSafeIntegerOpt (jsParseInt10 k) &&
      (([] : List String).isEmpty ||
       (match arrGet zs ((jsParseInt10 k).getD 0) with
        | some c => removeOK c []
        | none => false))) = true
  rw [hsafe]
  rfl

theorem updateAt_obj_single (u : JSVal) (cur : List (String × JSVal))
    (k : String) :
    updateAt u (.obj cur) [k] = .obj (setField cur k u) := by
  rw [updateAt, updateAt_nil]

theorem updateAt_arr_single (u : JSVal) (zs : List (Option JSVal)) (k : String)
    (m : Nat) (hm : jsParseInt10 k = some ((m : Nat) : Int)) :
    updateAt u (.arr zs) [k] = .arr (arrWriteAt zs m u) := by
  rw [updateAt, updateAt_nil, hm]
  simp only [Option.getD_some, Int.toNat_natCast]

theorem removeAt_obj_single (cur : List (String × JSVal)) (k : String) :
    removeAt (.obj cur) [k] = .obj (removeField cur k) := by
  rw [removeAt]
  simp only [List.isEmpty_nil, if_true]

theorem removeAt_arr_single (zs : List (Option JSVal)) (k : String)
    (m : Nat) (hm : jsParseInt10 k = some ((m : Nat) : Int)) :
    removeAt (.arr zs) [k] = .arr (spliceOne zs ((m : Nat) : Int)) := by
  rw [removeAt]
  simp only [List.isEmpty_nil, if_true, hm, Option.getD_some]

theorem updateAt_obj_shape (P : List String) (ufs dfs : List (String × JSVal)) :
    ∃ dfs2, updateAt (JSVal.obj ufs) (.obj dfs) P = .obj dfs2 := by
  cases P with
  | nil => exact ⟨ufs, updateAt_nil _ _⟩
  | cons k rest => exact ⟨_, by rw [updateAt]⟩

theorem lookupField_none_of_not_mem {l : List (String × JSVal)} {k : String}
    (h : k ∉ l.map Prod.fst) : lookupField l k = none := by
  cases h' : lookupField l k with
  | none => rfl
  | some v =>
    exfalso
    apply h
    rw [← lookupField_isSome_iff]
    rw [h']
    rfl

theorem pointer_child_ne_empty (p e : String) : ¬ (p ++ "/" ++ e) = "" := by
  intro hcon
  have hdata := congrArg String.data hcon
  simp at hdata

theorem applyOps_nil (doc : JSVal) : applyOps doc [] = .ok doc := rfl

theorem setOp_ok (dfs : List (String × JSVal)) (p : String)
    (hp : isJsonPointer p = true) (v : JSVal)
    (hset : setOK (.obj dfs) (segsOf p) = true) :
    setJsonValueAtPointer (.obj dfs) p v
      = .ok (updateAt v (.obj dfs) (segsOf p)) := by
  rw [setJsonValueAtPointer,
    if_neg (by simp [isJsonValueB_eq_true]),
    if_neg (by simp [isJsonObjectB_obj]),
    getJsonPointerSegments, if_neg (by simp [hp])]
  show Except.ok (setWalk v (.obj dfs) (segsOf p))
      = .ok (updateAt v (.obj dfs) (segsOf p))
  rw [setWalk_updateAt v (segsOf p) _ hset]

theorem getOp_ok (dfs : List (String × JSVal)) (p : String)
    (hp : isJsonPointer p = true) (s : JSVal)
    (hw : walkGet (.obj dfs) (segsOf p) = some s) :
    ∃ w, getJsonValueAtPointer (.obj dfs) p = .ok (some w) := by
  rw [getJsonValueAtPointer]
  by_cases hroot : p = "/" ∨ p = ""
  · rw [if_pos hroot]
    exact ⟨.obj dfs, rfl⟩
  · rw [if_neg hroot, if_neg (by simp [isJsonObjectB_obj]),
      if_neg (by simp [hp]), hw]
    exact ⟨s, rfl⟩

theorem removeOp_ok (dfs : List (String × JSVal)) (p : String)
    (hp : isJsonPointer p = true) (hne : ¬ p = "")
    (hrem : removeOK (.obj dfs) (segsOf p) = true) :
    removeJsonValueAtPointer (.obj dfs) p
      = .ok (removeAt (.obj dfs) (segsOf p)) := by
  rw [removeJsonValueAtPointer, if_neg (by simp [hp]),
    if_neg (by simp [isJsonObjectB_obj]), if_neg hne,
    removeWalk_removeAt (segsOf p) _ hrem]

theorem applyOps_add_ok (doc r : JSVal) (p : String) (v : JSVal)
    (rest : List JsonPatchOperation)
    (hset : setJsonValueAtPointer doc p v = .ok r) :
    applyOps doc ({op := "add", path := p, value := some v} :: rest)
      = applyOps r rest := by
  have hstep : applyOps doc ({op := "add", path := p, value := some v} :: rest)
      = (match setJsonValueAtPointer doc p v with
         | .error e => .error e
         | .ok r => applyOps r rest) := rfl
  rw [hstep, hset]

theorem applyOps_replace_ok (doc r : JSVal) (p : String) (v w : JSVal)
    (rest : List JsonPatchOperation)
    (hget : getJsonValueAtPointer doc p = .ok (some w))
    (hset : setJsonValueAtPointer doc p v = .ok r) :
    applyOps doc ({op := "replace", path := p, value := some v} :: rest)
      = applyOps r rest := by
  have hstep : applyOps doc
        ({op := "replace", path := p, value := some v} :: rest)
      = (match getJsonValueAtPointer doc p with
         | .error e => .error e
         | .ok none => .error (.pathNotFound p)
         | .ok (some _) =>
           match setJsonValueAtPointer doc p v with
           | .error e => .error e
           | .ok r => applyOps r rest) := rfl
  rw [hstep, hget, hset]

theorem applyOps_remove_ok (doc r : JSVal) (p : String) (w : JSVal)
    (rest : List JsonPatchOperation) (hp : isJsonPointer p = true)
    (hlen : ¬ (segsOf p).length = 0)
    (hget : getJsonValueAtPointer doc p = .ok (some w))
    (hrem : removeJsonValueAtPointer doc p = .ok r) :
    applyOps doc ({op := "remove", path := p} :: rest) = applyOps r rest := by
  have hsegs : getJsonPointerSegments p = .ok (segsOf p) := by
    rw [getJsonPointerSegments, if_neg (by simp [hp])]
  have hstep : applyOps doc ({op := "remove", path := p} :: rest)
      = (match getJsonPointerSegments p with
         | .error e => .error e
         | .ok segments =>
           if segments.length = 0 then .error .cannotRemoveRoot
           else
             match getJsonValueAtPointer doc p with
             | .error e => .error e
             | .ok none => .error (.pathNotFound p)
             | .ok (some _) =>
               match removeJsonValueAtPointer doc p with
               | .error e => .error e
               | .ok r => applyOps r rest) := rfl
  rw [hstep, hsegs]
  show (if (segsOf p).length = 0 then Except.error JErr.cannotRemoveRoot
        else match getJsonValueAtPointer doc p with
             | .error e => .error e
             | .ok none => .error (.pathNotFound p)
             | .ok (some _) =>
               match removeJsonValueAtPointer doc p with
               | .error e => .error e
               | .ok r => applyOps r rest) = applyOps r rest
  rw [if_neg hlen, hget, hrem]

mutual

theorem jsonDeepCopy_id (v : JSVal) (h : wfVal v = true) :
    jsonDeepCopy v = v := by
  cases v with
  | null => rfl
  | bool b => rfl
  | num n => rfl
  | str s => rfl
  | arr xs =>
    have h' : (decide (xs.length ≤ maxArrayIndex) && wfArr xs) = true := h
    obtain ⟨_, hxs⟩ := band_eq_true h'
    rw [jsonDeepCopy, jsonDeepCopyArr_id xs hxs]
  | obj fs =>
    have h' : (decide ((fs.map Prod.fst).Nodup) && wfObj fs) = true := h
    obtain ⟨_, hfs⟩ := band_eq_true h'
    rw [jsonDeepCopy, jsonDeepCopyObj_id fs hfs]

theorem jsonDeepCopyArr_id (xs : List (Option JSVal)) (h : wfArr xs = true) :
    jsonDeepCopyArr xs = xs := by
  cases xs with
  | nil => rfl
  | cons x xs =>
    cases x with
    | none => exact absurd h Bool.false_ne_true
    | some v =>
      have h' : (wfVal v && wfArr xs) = true := h
      obtain ⟨hv, hxs⟩ := band_eq_true h'
      rw [jsonDeepCopyArr, jsonDeepCopy_id v hv, jsonDeepCopyArr_id xs hxs]

theorem jsonDeepCopyObj_id (fs : List (String × JSVal)) (h : wfObj fs = true) :
    jsonDeepCopyObj fs = fs := by
  cases fs with
  | nil => rfl
  | cons f fs =>
    obtain ⟨k, v⟩ := f
    have h' : (parseSafeKey k && wfVal v && wfObj fs) = true := h
    obtain ⟨hkv, hfs⟩ := band_eq_true h'
    obtain ⟨_, hv⟩ := band_eq_true hkv
    rw [jsonDeepCopyObj, jsonDeepCopy_id v hv, jsonDeepCopyObj_id fs hfs]

end

theorem updateAt_shape_ne (u : JSVal) (dfs : List (String × JSVal))
    (P : List String) (h : P ≠ []) :
    ∃ dfs2, updateAt u (.obj dfs) P = .obj dfs2 := by
  cases P with
  | nil => exact absurd rfl h
  | cons k rest => exact ⟨_, by rw [updateAt]⟩

/-- The trailing-additions loop of the array diff, applied. -/
theorem diff_apply_adds :
    ∀ (vs pre : List (Option JSVal)) (p : String) (doc : JSVal)
      (dfs : List (String × JSVal)),
      doc = .obj dfs → wfArr vs = true →
      isJsonPointer p = true → segsOf p ≠ [] →
      decide (pre.length + vs.length ≤ maxArrayIndex) = true →
      navOK doc (segsOf p) = true →
      walkGet doc (segsOf p) = some (.arr pre) →
      applyOps doc (diffAdds p vs pre.length)
        = .ok (updateAt (.arr (pre ++ vs)) doc (segsOf p)) := by
  intro vs
  induction vs with
  | nil =>
    intro pre p doc dfs hdoc hwv hp hPne hcap hnav hw
    rw [show diffAdds p [] pre.length = [] from rfl, applyOps_nil,
      List.append_nil, updateAt_self (segsOf p) doc (.arr pre) hnav hw]
  | cons v vs ih =>
    intro pre p doc dfs hdoc hwv hp hPne hcap hnav hw
    subst hdoc
    cases v with
    | none => exact absurd hwv Bool.false_ne_true
    | some w =>
      have h' : (wfVal w && wfArr vs) = true := hwv
      obtain ⟨hww, hwv'⟩ := band_eq_true h'
      have hseg : segsOf (p ++ "/" ++ natToString pre.length)
          = segsOf p ++ [natToString pre.length] := segsOf_child_index p _
      have hpc : isJsonPointer (p ++ "/" ++ natToString pre.length) = true :=
        isJsonPointer_child p _ hp
      have hm10 : jsParseInt10 (natToString pre.length)
          = some ((pre.length : Nat) : Int) := jsParseInt10_natToString _
      have hcapIdx : decide
          (((jsParseInt10 (natToString pre.length)).getD 0).toNat
            < maxArrayIndex) = true := by
        rw [hm10]
        simp only [Option.getD_some, Int.toNat_natCast]
        apply decide_eq_true
        have hx := of_decide_eq_true hcap
        simp only [List.length_cons] at hx
        omega
      have hsetOK : setOK (.obj dfs)
          (segsOf p ++ [natToString pre.length]) = true :=
        setOK_append (segsOf p) _ (.arr pre) hnav hw _
          (setOK_arr_final pre _ (isDigits_natToString _) hcapIdx)
      have hset : setJsonValueAtPointer (.obj dfs)
          (p ++ "/" ++ natToString pre.length) w
          = .ok (updateAt (.arr (pre ++ [some w])) (.obj dfs) (segsOf p)) := by
        rw [setOp_ok dfs _ hpc w (by rw [hseg]; exact hsetOK), hseg,
          updateAt_factor (segsOf p) _ (.arr pre) hnav hw w _,
          updateAt_arr_single w pre _ pre.length hm10, arrWriteAt_at_length]
      have hstep : diffAdds p (some w :: vs) pre.length
          = {op := "add", path := p ++ "/" ++ natToString pre.length,
             value := some w} :: diffAdds p vs (pre.length + 1) := rfl
      rw [hstep, applyOps_add_ok _ _ _ _ _ hset]
      obtain ⟨dfs2, hdoc2⟩ := updateAt_shape_ne (.arr (pre ++ [some w])) dfs
        (segsOf p) hPne
      obtain ⟨hnav2, hw2⟩ := updateAt_navOK (segsOf p) (.obj dfs) (.arr pre)
        hnav hw (.arr (pre ++ [some w]))
      have hcap2 : decide ((pre ++ [some w]).length + vs.length
          ≤ maxArrayIndex) = true := by
        apply decide_eq_true
        have hx := of_decide_eq_true hcap
        simp only [List.length_cons] at hx
        simp only [List.length_append, List.length_cons, List.length_nil]
        omega
      have hihres := ih (pre ++ [some w]) p _ dfs2 hdoc2 hwv' hp hPne hcap2
        hnav2 hw2
      rw [show (pre ++ [some w]).length = pre.length + 1 from by simp]
        at hihres
      rw [hihres,
        updateAt_absorb (segsOf p) (.obj dfs) (.arr pre) hnav hw,
        show (pre ++ [some w]) ++ vs = pre ++ some w :: vs from by simp]

/-- The reversed tail-removal loop of the array diff, applied. -/
theorem diff_apply_removes :
    ∀ (n j : Nat) (p : String) (doc : JSVal) (dfs : List (String × JSVal))
      (zs : List (Option JSVal)),
      doc = .obj dfs → zs.length = j + n →
      (∀ e ∈ zs, e.isSome = true) →
      isJsonPointer p = true → segsOf p ≠ [] →
      decide (zs.length ≤ maxArrayIndex) = true →
      navOK doc (segsOf p) = true →
      walkGet doc (segsOf p) = some (.arr zs) →
      applyOps doc ((List.range' j n).reverse.map
          (fun i => {op := "remove", path := p ++ "/" ++ natToString i}))
        = .ok (updateAt (.arr (zs.take j)) doc (segsOf p)) := by
  intro n
  induction n with
  | zero =>
    intro j p doc dfs zs hdoc hlen hsome hp hPne hcap hnav hw
    rw [show ((List.range' j 0).reverse.map
        (fun i => ({op := "remove", path := p ++ "/" ++ natToString i}
          : JsonPatchOperation))) = [] from rfl, applyOps_nil]
    have htake : zs.take j = zs := List.take_of_length_le (by omega)
    rw [htake, updateAt_self (segsOf p) doc (.arr zs) hnav hw]
  | succ n ih =>
    intro j p doc dfs zs hdoc hlen hsome hp hPne hcap hnav hw
    subst hdoc
    have hops : (List.range' j (n+1)).reverse.map
          (fun i => ({op := "remove", path := p ++ "/" ++ natToString i}
            : JsonPatchOperation))
        = ({op := "remove", path := p ++ "/" ++ natToString (j + n)}
            : JsonPatchOperation)
          :: (List.range' j n).reverse.map
            (fun i => ({op := "remove", path := p ++ "/" ++ natToString i}
              : JsonPatchOperation)) := by
      rw [List.range'_concat, List.reverse_append, List.map_append]
      simp
    rw [hops]
    have hjlt : j + n < zs.length := by omega
    obtain ⟨e, he⟩ : ∃ e, zs[j + n]? = some e := by
      cases hx : zs[j + n]? with
      | none =>
        exfalso
        rw [List.getElem?_eq_none_iff] at hx
        omega
      | some e => exact ⟨e, rfl⟩
    have hmem : e ∈ zs := List.getElem?_mem he
    obtain ⟨w, hww⟩ := Option.isSome_iff_exists.mp (hsome e hmem)
    subst hww
    have hz : zs = zs.take (j + n) ++ [some w] := by
      have h1 : zs.take (j + n + 1) = zs := List.take_of_length_le (by omega)
      have h2 : zs.take (j + n + 1) = zs.take (j + n) ++ [some w] := by
        rw [List.take_succ, he]
        rfl
      rw [← h2]
      exact h1.symm
    have htlen : (zs.take (j + n)).length = j + n := by
      rw [List.length_take]
      omega
    have hseg : segsOf (p ++ "/" ++ natToString (j + n))
        = segsOf p ++ [natToString (j + n)] := segsOf_child_index p _
    have hpc := isJsonPointer_child p (natToString (j + n)) hp
    have hm10 := jsParseInt10_natToString (j + n)
    have hsafe : isSafeIntegerOpt (jsParseInt10 (natToString (j + n)))
        = true := by
      rw [hm10]
      exact cap_le_safe (j + n) zs.length hjlt hcap
    have harrI : arrGet zs (((j + n : Nat)) : Int) = some w := by
      have hthis := arrGet_append_prefix (zs.take (j + n)) (some w) []
      rw [htlen] at hthis
      rw [← hz] at hthis
      exact hthis
    have hwchild : walkGet (.obj dfs)
        (segsOf (p ++ "/" ++ natToString (j + n))) = some w := by
      rw [hseg, walkGet_append, hw]
      show walkGet (.arr zs) [natToString (j + n)] = some w
      exact walkGet_arr_single w zs _ (j + n) (isDigits_natToString _) hm10
        harrI
    obtain ⟨w2, hget⟩ := getOp_ok dfs (p ++ "/" ++ natToString (j + n)) hpc
      w hwchild
    have hremOK : removeOK (.obj dfs)
        (segsOf (p ++ "/" ++ natToString (j + n))) = true := by
      rw [hseg]
      exact removeOK_append (segsOf p) _ (.arr zs) hnav hw _
        (removeOK_arr_final zs _ hsafe)
    have hrem : removeJsonValueAtPointer (.obj dfs)
        (p ++ "/" ++ natToString (j + n))
        = .ok (updateAt (.arr (zs.take (j + n))) (.obj dfs) (segsOf p)) := by
      rw [removeOp_ok dfs _ hpc (pointer_child_ne_empty p _) hremOK, hseg,
        removeAt_factor (segsOf p) _ (.arr zs) hnav hw _ (by simp),
        removeAt_arr_single zs _ (j + n) hm10]
      have hsp := spliceOne_last (zs.take (j + n)) (some w)
      rw [htlen] at hsp
      have hsplice : spliceOne zs (((j + n : Nat)) : Int) = zs.take (j + n) := by
        conv_lhs => rw [hz]
        exact hsp
      rw [hsplice]
    rw [applyOps_remove_ok (.obj dfs) _ _ w2 _ hpc
      (by rw [hseg]; simp) hget hrem]
    obtain ⟨dfs2, hdoc2⟩ := updateAt_shape_ne (.arr (zs.take (j + n))) dfs
      (segsOf p) hPne
    obtain ⟨hnav1, hw1⟩ := updateAt_navOK (segsOf p) (.obj dfs) (.arr zs)
      hnav hw (.arr (zs.take (j + n)))
    have hsome1 : ∀ e2 ∈ zs.take (j + n), e2.isSome = true :=
      fun e2 he2 => hsome e2 (List.mem_of_mem_take he2)
    have hcap1 : decide ((zs.take (j + n)).length ≤ maxArrayIndex) = true := by
      apply decide_eq_true
      rw [htlen]
      have := of_decide_eq_true hcap
      omega
    have hihres := ih j p _ dfs2 (zs.take (j + n)) hdoc2
      (by rw [htlen]) hsome1 hp hPne hcap1 hnav1 hw1
    rw [hihres, List.take_take,
      show min j (j + n) = j from by omega,
      updateAt_absorb (segsOf p) (.obj dfs) (.arr zs) hnav hw]

/-- The target-only-key addition loop of the object diff, applied. -/
theorem diff_apply_objtgt :
    ∀ (gs fs : List (String × JSVal)) (p : String) (doc : JSVal)
      (dfs cur : List (String × JSVal)),
      doc = .obj dfs → wfObj gs = true →
      (gs.map Prod.fst).Nodup →
      (∀ kv ∈ gs, (lookupField fs kv.1).isSome = false →
        lookupField cur kv.1 = none) →
      isJsonPointer p = true →
      navOK doc (segsOf p) = true →
      walkGet doc (segsOf p) = some (.obj cur) →
      applyOps doc (diffObjTgt p gs fs)
        = .ok (updateAt (.obj (cur ++ filterNew gs fs)) doc (segsOf p)) := by
  intro gs
  induction gs with
  | nil =>
    intro fs p doc dfs cur hdoc hwg hnd hdisj hp hnav hw
    rw [show diffObjTgt p [] fs = [] from rfl, applyOps_nil,
      show filterNew [] fs = [] from rfl, List.append_nil,
      updateAt_self (segsOf p) doc (.obj cur) hnav hw]
  | cons g gs ih =>
    intro fs p doc dfs cur hdoc hwg hnd hdisj hp hnav hw
    subst hdoc
    obtain ⟨k, w⟩ := g
    have hwg' : (parseSafeKey k && wfVal w && wfObj gs) = true := hwg
    obtain ⟨hkw, hwgs⟩ := band_eq_true hwg'
    obtain ⟨hps, hww⟩ := band_eq_true hkw
    rw [List.map_cons, List.nodup_cons] at hnd
    obtain ⟨hknotin, hnd'⟩ := hnd
    rw [diffObjTgt]
    by_cases hin : (lookupField fs k).isSome = true
    · rw [if_pos hin, List.nil_append]
      have hfn : filterNew ((k, w) :: gs) fs = filterNew gs fs := by
        rw [filterNew, List.filter_cons, if_neg (by simp [hin])]
        rfl
      rw [hfn]
      exact ih fs p _ dfs cur rfl hwgs hnd'
        (fun kv hkv hmiss => hdisj kv (by simp [hkv]) hmiss) hp hnav hw
    · have hinf : (lookupField fs k).isSome = false := by
        cases hx : (lookupField fs k).isSome
        · rfl
        · exact absurd hx hin
      rw [if_neg hin, List.singleton_append]
      have hlkcur : lookupField cur k = none := hdisj (k, w) (by simp) hinf
      have hseg : segsOf (p ++ "/" ++ encodePointer k)
          = segsOf p ++ [k] := segsOf_child p k
      have hpc := isJsonPointer_child p (encodePointer k) hp
      have hsetOK : setOK (.obj dfs) (segsOf p ++ [k]) = true :=
        setOK_append (segsOf p) _ (.obj cur) hnav hw _
          (setOK_obj_final cur k hps)
      have hset : setJsonValueAtPointer (.obj dfs)
          (p ++ "/" ++ encodePointer k) w
          = .ok (updateAt (.obj (cur ++ [(k, w)])) (.obj dfs) (segsOf p)) := by
        rw [setOp_ok dfs _ hpc w (by rw [hseg]; exact hsetOK), hseg,
          updateAt_factor (segsOf p) _ (.obj cur) hnav hw w _,
          updateAt_obj_single w cur k,
          setField_of_lookup_none cur k w hlkcur]
      rw [applyOps_add_ok _ _ _ _ _ hset]
      obtain ⟨dfs2, hdoc2⟩ := updateAt_obj_shape (segsOf p)
        (cur ++ [(k, w)]) dfs
      obtain ⟨hnav2, hw2⟩ := updateAt_navOK (segsOf p) (.obj dfs) (.obj cur)
        hnav hw (.obj (cur ++ [(k, w)]))
      have hdisj2 : ∀ kv ∈ gs, (lookupField fs kv.1).isSome = false →
          lookupField (cur ++ [(k, w)]) kv.1 = none := by
        intro kv hkv hmiss
        have h0 : lookupField cur kv.1 = none := hdisj kv (by simp [hkv]) hmiss
        have hkne : ¬ k = kv.1 := by
          intro hc
          apply hknotin
          rw [hc]
          exact List.mem_map.mpr ⟨kv, hkv, rfl⟩
        rw [lookupField_append_none cur _ _ h0, lookupField, if_neg hkne]
        rfl
      have hihres := ih fs p _ dfs2 (cur ++ [(k, w)]) hdoc2 hwgs hnd' hdisj2
        hp hnav2 hw2
      have hfn : filterNew ((k, w) :: gs) fs = (k, w) :: filterNew gs fs := by
        rw [filterNew, List.filter_cons, if_pos (by simp [hinf])]
        rfl
      rw [hihres, updateAt_absorb (segsOf p) (.obj dfs) (.obj cur) hnav hw,
        hfn, show (cur ++ [(k, w)]) ++ filterNew gs fs
          = cur ++ (k, w) :: filterNew gs fs from by simp]

theorem applyOps_bind_ok (doc d : JSVal) (l1 l2 : List JsonPatchOperation)
    (h : applyOps doc l1 = .ok d) :
    applyOps doc (l1 ++ l2) = applyOps d l2 := by
  rw [applyOps_append, h]

theorem wfArr_somes :
    ∀ xs : List (Option JSVal), wfArr xs = true →
      ∀ e ∈ xs, e.isSome = true := by
  intro xs
  induction xs with
  | nil => intro _ e he; simp at he
  | cons x xs ih =>
    intro h e he
    cases x with
    | none => exact absurd h Bool.false_ne_true
    | some v =>
      have h' : (wfVal v && wfArr xs) = true := h
      rcases List.mem_cons.mp he with h1 | h1
      · rw [h1]
        rfl
      · exact ih (band_eq_true h').2 e h1

theorem wfArr_drop (n : Nat) :
    ∀ ys : List (Option JSVal), wfArr ys = true →
      wfArr (ys.drop n) = true := by
  induction n with
  | zero => intro ys h; rw [List.drop_zero]; exact h
  | succ n ih =>
    intro ys h
    cases ys with
    | nil => exact h
    | cons y ys =>
      rw [List.drop_succ_cons]
      cases y with
      | none => exact absurd h Bool.false_ne_true
      | some v =>
        have h' : (wfVal v && wfArr ys) = true := h
        exact ih ys (band_eq_true h').2

theorem patchArr_somes :
    ∀ xs ys : List (Option JSVal), wfArr xs = true →
      ∀ e ∈ patchArr xs ys, e.isSome = true := by
  intro xs
  induction xs with
  | nil =>
    intro ys _ e he
    rw [show patchArr ([] : List (Option JSVal)) ys = [] from rfl] at he
    simp at he
  | cons x xs ih =>
    intro ys h e he
    cases ys with
    | nil =>
      rw [show patchArr (x :: xs) [] = [] from by cases x <;> rfl] at he
      simp at he
    | cons y ys =>
      cases x with
      | none => exact absurd h Bool.false_ne_true
      | some a =>
        have h' : (wfVal a && wfArr xs) = true := h
        cases y with
        | none =>
          rw [show patchArr (some a :: xs) (none :: ys)
              = some a :: patchArr xs ys from rfl] at he
          rcases List.mem_cons.mp he with h1 | h1
          · rw [h1]; rfl
          · exact ih ys (band_eq_true h').2 e h1
        | some b =>
          rw [show patchArr (some a :: xs) (some b :: ys)
              = some (patchVal a b) :: patchArr xs ys from rfl] at he
          rcases List.mem_cons.mp he with h1 | h1
          · rw [h1]; rfl
          · exact ih ys (band_eq_true h').2 e h1

theorem cond_U_iff (s t : JSVal) :
    (jsTypeofU (some s) ≠ jsTypeofU (some t) ∨ some s = some JSVal.null
      ∨ some t = some JSVal.null
      ∨ (¬ isJsonObjectU (some s) ∧ ¬ isJsonArrayU (some s))
      ∨ (¬ isJsonObjectU (some t) ∧ ¬ isJsonArrayU (some t)))
    ↔ (¬ jsTypeof s = jsTypeof t ∨ s = .null ∨ t = .null
      ∨ (¬ isJsonObjectB s ∧ ¬ isJsonArrayB s)
      ∨ (¬ isJsonObjectB t ∧ ¬ isJsonArrayB t)) := by
  simp [jsTypeofU, isJsonObjectU, isJsonArrayU, Ne]

mutual

/-- Applying the diff of one subtree rewrites the document at its path to
the patched subtree. -/
theorem diff_apply_val (s t : JSVal) (p : String) (doc : JSVal)
    (dfs : List (String × JSVal)) (hdoc : doc = .obj dfs)
    (hws : wfVal s = true) (hwt : wfVal t = true) (hc : compatV s t = true)
    (hp : isJsonPointer p = true) (hPne : segsOf p ≠ [])
    (hnav : navOK doc (segsOf p) = true)
    (hw : walkGet doc (segsOf p) = some s) :
    applyOps doc (diffWalk p (some s) (some t))
      = .ok (updateAt (patchVal s t) doc (segsOf p)) := by
  subst hdoc
  rw [diffWalk.eq_def, patchVal.eq_def]
  by_cases h1 : deepEquals s t = true
  · rw [if_pos (show deepEqualsU (some s) (some t) = true from h1), if_pos h1,
      applyOps_nil, updateAt_self (segsOf p) _ s hnav hw]
  · rw [if_neg (show ¬ deepEqualsU (some s) (some t) = true from h1),
      if_neg h1]
    rw [compatV.eq_def, if_neg h1] at hc
    by_cases h2 : ¬ jsTypeof s = jsTypeof t ∨ s = .null ∨ t = .null
        ∨ (¬ isJsonObjectB s ∧ ¬ isJsonArrayB s)
        ∨ (¬ isJsonObjectB t ∧ ¬ isJsonArrayB t)
    · rw [if_pos ((cond_U_iff s t).mpr h2), if_pos h2]
      have hsetOK := setOK_of_navOK (segsOf p) _ hPne hnav
      have hset := setOp_ok dfs p hp t hsetOK
      obtain ⟨w2, hget⟩ := getOp_ok dfs p hp s hw
      rw [applyOps_replace_ok _ _ p t w2 [] hget hset, applyOps_nil]
    · rw [if_neg (fun hU => h2 ((cond_U_iff s t).mp hU)), if_neg h2]
      rw [if_neg h2] at hc
      cases s <;> cases t <;> try exact absurd hc Bool.false_ne_true
      · rename_i xs ys
        have hc' : (decide (2 * ((xs.length : Int) - ys.length).natAbs
            > xs.length) || compatArr xs ys) = true := hc
        show applyOps (.obj dfs)
            (if 2 * ((xs.length : Int) - ys.length).natAbs > xs.length then
              [{op := "replace", path := p, value := some (JSVal.arr ys)}]
            else
              diffArr p xs ys 0
                ++ diffAdds p (ys.drop (min xs.length ys.length))
                    (min xs.length ys.length)
                ++ (List.range' ys.length (xs.length - ys.length)).reverse.map
                    (fun i =>
                      {op := "remove", path := p ++ "/" ++ natToString i}))
          = .ok (updateAt
              (if 2 * ((xs.length : Int) - ys.length).natAbs > xs.length
               then JSVal.arr ys
               else .arr (patchArr xs ys
                 ++ ys.drop (min xs.length ys.length)))
              (.obj dfs) (segsOf p))
        by_cases h3 : 2 * ((xs.length : Int) - ys.length).natAbs > xs.length
        · rw [if_pos h3, if_pos h3]
          have hsetOK := setOK_of_navOK (segsOf p) _ hPne hnav
          have hset := setOp_ok dfs p hp (.arr ys) hsetOK
          obtain ⟨w2, hget⟩ := getOp_ok dfs p hp (.arr xs) hw
          rw [applyOps_replace_ok _ _ p (.arr ys) w2 [] hget hset,
            applyOps_nil]
        · rw [if_neg h3, if_neg h3]
          have hdec : decide (2 * ((xs.length : Int) - ys.length).natAbs
              > xs.length) = false := by simpa using h3
          rw [hdec, Bool.false_or] at hc'
          rw [wfVal] at hws hwt
          obtain ⟨hxcap, hwxs⟩ := band_eq_true hws
          obtain ⟨hycap, hwys⟩ := band_eq_true hwt
          have hph1 := diff_apply_arr xs ys [] p _ dfs rfl hwxs hwys hc' hp
            hPne (by rw [List.nil_append]; exact hxcap)
            hnav (by rw [List.nil_append]; exact hw)
          rw [show (([] : List (Option JSVal))).length = 0 from rfl,
            List.nil_append] at hph1
          by_cases hxy : xs.length ≤ ys.length
          · have hdropxs : xs.drop (min xs.length ys.length) = [] := by
              rw [show min xs.length ys.length = xs.length from by omega]
              exact List.drop_length xs
            rw [hdropxs, List.append_nil] at hph1
            obtain ⟨dfs2, hdoc2⟩ := updateAt_shape_ne (.arr (patchArr xs ys))
              dfs (segsOf p) hPne
            obtain ⟨hnav2, hw2a⟩ := updateAt_navOK (segsOf p) (.obj dfs) _
              hnav hw (.arr (patchArr xs ys))
            have hpalen : (patchArr xs ys).length = min xs.length ys.length :=
              patchArr_length xs ys
            have hcapadds : decide ((patchArr xs ys).length
                + (ys.drop (min xs.length ys.length)).length
                ≤ maxArrayIndex) = true := by
              apply decide_eq_true
              rw [hpalen, List.length_drop]
              have hcy := of_decide_eq_true hycap
              omega
            have hph2 := diff_apply_adds (ys.drop (min xs.length ys.length))
              (patchArr xs ys) p _ dfs2 hdoc2 (wfArr_drop _ ys hwys) hp hPne
              hcapadds hnav2 hw2a
            rw [hpalen] at hph2
            have hrem0 : ((List.range' ys.length
                (xs.length - ys.length)).reverse.map
                (fun i => ({op := "remove", path := p ++ "/" ++ natToString i}
                  : JsonPatchOperation))) = [] := by
              rw [show xs.length - ys.length = 0 from by omega]
              rfl
            rw [hrem0, List.append_nil, applyOps_bind_ok _ _ _ _ hph1, hph2,
              updateAt_absorb (segsOf p) (.obj dfs) _ hnav hw]
          · have hdropys : ys.drop (min xs.length ys.length) = [] := by
              rw [show min xs.length ys.length = ys.length from by omega]
              exact List.drop_length ys
            have hadds0 : diffAdds p (ys.drop (min xs.length ys.length))
                (min xs.length ys.length) = [] := by
              rw [hdropys]
              rfl
            rw [hadds0, List.append_nil, applyOps_bind_ok _ _ _ _ hph1]
            obtain ⟨dfs2, hdoc2⟩ := updateAt_shape_ne
              (.arr (patchArr xs ys ++ xs.drop (min xs.length ys.length)))
              dfs (segsOf p) hPne
            obtain ⟨hnav2, hw2a⟩ := updateAt_navOK (segsOf p) (.obj dfs) _
              hnav hw
              (.arr (patchArr xs ys ++ xs.drop (min xs.length ys.length)))
            have hsomes : ∀ e ∈ patchArr xs ys
                ++ xs.drop (min xs.length ys.length), e.isSome = true := by
              intro e he
              rcases List.mem_append.mp he with h | h
              · exact patchArr_somes xs ys hwxs e h
              · exact wfArr_somes xs hwxs e (List.mem_of_mem_drop h)
            have hzlen : (patchArr xs ys
                ++ xs.drop (min xs.length ys.length)).length
                = ys.length + (xs.length - ys.length) := by
              rw [List.length_append, patchArr_length, List.length_drop]
              omega
            have hcapz : decide ((patchArr xs ys
                ++ xs.drop (min xs.length ys.length)).length
                ≤ maxArrayIndex) = true := by
              apply decide_eq_true
              rw [hzlen]
              have hcx := of_decide_eq_true hxcap
              omega
            have hph3 := diff_apply_removes (xs.length - ys.length) ys.length
              p _ dfs2 (patchArr xs ys ++ xs.drop (min xs.length ys.length))
              hdoc2 hzlen hsomes hp hPne hcapz hnav2 hw2a
            rw [hph3, updateAt_absorb (segsOf p) (.obj dfs) _ hnav hw]
            have htake : (patchArr xs ys
                ++ xs.drop (min xs.length ys.length)).take ys.length
                = patchArr xs ys := by
              have hmin : min xs.length ys.length = ys.length := by omega
              rw [show ys.length = (patchArr xs ys).length from by
                rw [patchArr_length, hmin]]
              exact List.take_left _ _
            rw [htake, hdropys, List.append_nil]
      · rename_i fs gs
        have hc' : compatObj fs gs = true := hc
        show applyOps (.obj dfs) (diffObjSrc p fs gs ++ diffObjTgt p gs fs)
          = .ok (updateAt (JSVal.obj (patchObjSrc fs gs ++ filterNew gs fs))
              (.obj dfs) (segsOf p))
        rw [wfVal] at hws hwt
        obtain ⟨hndf, hwfs⟩ := band_eq_true hws
        obtain ⟨hndg, hwgs⟩ := band_eq_true hwt
        have hph1 := diff_apply_objsrc fs gs [] p _ dfs rfl hwfs hwgs hc'
          (by rw [List.nil_append]; exact of_decide_eq_true hndf) hp hnav
          (by rw [show patchObjSrc ([] : List (String × JSVal)) gs = []
              from rfl, List.nil_append]; exact hw)
        rw [show patchObjSrc ([] : List (String × JSVal)) gs = [] from rfl,
          List.nil_append] at hph1
        obtain ⟨dfs2, hdoc2⟩ := updateAt_obj_shape (segsOf p)
          (patchObjSrc fs gs) dfs
        obtain ⟨hnav2, hw2a⟩ := updateAt_navOK (segsOf p) (.obj dfs) _
          hnav hw (.obj (patchObjSrc fs gs))
        have hdisj : ∀ kv ∈ gs, (lookupField fs kv.1).isSome = false →
            lookupField (patchObjSrc fs gs) kv.1 = none := by
          intro kv _ hmiss
          have hnone : lookupField fs kv.1 = none := by
            cases hx : lookupField fs kv.1
            · rfl
            · rw [hx] at hmiss; cases hmiss
          exact lookupField_patchObjSrc_none gs kv.1 fs hnone
        have hph2 := diff_apply_objtgt gs fs p _ dfs2 (patchObjSrc fs gs)
          hdoc2 hwgs (of_decide_eq_true hndg) hdisj hp hnav2 hw2a
        rw [applyOps_bind_ok _ _ _ _ hph1, hph2,
          updateAt_absorb (segsOf p) (.obj dfs) _ hnav hw]
termination_by sizeOf s

/-- The common-prefix loop of the array diff, applied. -/
theorem diff_apply_arr (xs ys pre : List (Option JSVal))
    (p : String) (doc : JSVal) (dfs : List (String × JSVal))
    (hdoc : doc = .obj dfs)
    (hwx : wfArr xs = true) (hwy : wfArr ys = true)
    (hc : compatArr xs ys = true)
    (hp : isJsonPointer p = true) (hPne : segsOf p ≠ [])
    (hcap : decide ((pre ++ xs).length ≤ maxArrayIndex) = true)
    (hnav : navOK doc (segsOf p) = true)
    (hw : walkGet doc (segsOf p) = some (.arr (pre ++ xs))) :
    applyOps doc (diffArr p xs ys pre.length)
      = .ok (updateAt (.arr (pre ++ patchArr xs ys
          ++ xs.drop (min xs.length ys.length))) doc (segsOf p)) := by
  subst hdoc
  cases xs with
  | nil =>
    rw [show diffArr p [] ys pre.length = [] from by
      rw [diffArr.eq_def], applyOps_nil]
    have h0 : patchArr ([] : List (Option JSVal)) ys = [] := rfl
    rw [show pre ++ patchArr ([] : List (Option JSVal)) ys
        ++ ([] : List (Option JSVal)).drop
          (min ([] : List (Option JSVal)).length ys.length)
        = pre from by rw [h0]; simp]
    rw [List.append_nil] at hw
    rw [updateAt_self (segsOf p) _ (.arr pre) hnav hw]
  | cons x xs =>
    cases ys with
    | nil =>
      rw [show diffArr p (x :: xs) [] pre.length = [] from by
        rw [diffArr.eq_def], applyOps_nil]
      have h0 : patchArr (x :: xs) [] = [] := by cases x <;> rfl
      rw [show pre ++ patchArr (x :: xs) [] ++ (x :: xs).drop
          (min (x :: xs).length ([] : List (Option JSVal)).length)
          = pre ++ x :: xs from by rw [h0]; simp]
      rw [updateAt_self (segsOf p) _ _ hnav hw]
    | cons y ys =>
      cases x with
      | none => exact absurd hwx Bool.false_ne_true
      | some a =>
        cases y with
        | none => exact absurd hwy Bool.false_ne_true
        | some b =>
          have hwx' : (wfVal a && wfArr xs) = true := hwx
          obtain ⟨hwa, hwxs⟩ := band_eq_true hwx'
          have hwy' : (wfVal b && wfArr ys) = true := hwy
          obtain ⟨hwb, hwys⟩ := band_eq_true hwy'
          have hcc : (compatV a b && compatArr xs ys) = true := hc
          obtain ⟨hcab, hcrest⟩ := band_eq_true hcc
          rw [show diffArr p (some a :: xs) (some b :: ys) pre.length
              = diffWalk (p ++ "/" ++ natToString pre.length) (some a)
                  (some b)
                ++ diffArr p xs ys (pre.length + 1) from by
            rw [diffArr.eq_def]]
          have hseg := segsOf_child_index p pre.length
          have hpc := isJsonPointer_child p (natToString pre.length) hp
          have hm10 := jsParseInt10_natToString pre.length
          have harr : arrGet (pre ++ some a :: xs)
              ((pre.length : Nat) : Int) = some a :=
            arrGet_append_prefix pre (some a) xs
          have hchildnav : navOK (.obj dfs)
              (segsOf p ++ [natToString pre.length]) = true := by
            apply navOK_append (segsOf p) _ _ hnav hw
            apply navOK_arr_single (isDigits_natToString _) hcap
            rw [hm10]
            simpa using harr
          have hchildw : walkGet (.obj dfs)
              (segsOf (p ++ "/" ++ natToString pre.length)) = some a := by
            rw [hseg, walkGet_append, hw]
            show walkGet (.arr (pre ++ some a :: xs))
              [natToString pre.length] = some a
            exact walkGet_arr_single a _ _ pre.length
              (isDigits_natToString _) hm10 harr
          have hph := diff_apply_val a b
            (p ++ "/" ++ natToString pre.length) _ dfs rfl hwa hwb hcab hpc
            (by rw [hseg]; simp) (by rw [hseg]; exact hchildnav) hchildw
          rw [applyOps_bind_ok _ _ _ _ hph]
          have hdoc1 : updateAt (patchVal a b) (.obj dfs)
              (segsOf (p ++ "/" ++ natToString pre.length))
              = updateAt (.arr (pre ++ some (patchVal a b) :: xs)) (.obj dfs)
                  (segsOf p) := by
            rw [hseg, updateAt_factor (segsOf p) _ _ hnav hw _ _,
              updateAt_arr_single _ _ _ pre.length hm10,
              arrWriteAt_append_prefix]
          rw [hdoc1]
          obtain ⟨dfs2, hdoc2⟩ := updateAt_shape_ne
            (.arr (pre ++ some (patchVal a b) :: xs)) dfs (segsOf p) hPne
          obtain ⟨hnav2, hw2a⟩ := updateAt_navOK (segsOf p) (.obj dfs) _
            hnav hw (.arr (pre ++ some (patchVal a b) :: xs))
          have hcap2 : decide (((pre ++ [some (patchVal a b)]) ++ xs).length
              ≤ maxArrayIndex) = true := by
            apply decide_eq_true
            have hx := of_decide_eq_true hcap
            simp only [List.length_append, List.length_cons,
              List.length_nil] at hx ⊢
            omega
          have hw2b : walkGet (updateAt
              (.arr (pre ++ some (patchVal a b) :: xs)) (.obj dfs)
              (segsOf p)) (segsOf p)
              = some (.arr ((pre ++ [some (patchVal a b)]) ++ xs)) := by
            rw [show (pre ++ [some (patchVal a b)]) ++ xs
                = pre ++ some (patchVal a b) :: xs from by simp]
            exact hw2a
          have hihres := diff_apply_arr xs ys (pre ++ [some (patchVal a b)])
            p _ dfs2 hdoc2 hwxs hwys hcrest hp hPne hcap2 hnav2 hw2b
          rw [show (pre ++ [some (patchVal a b)]).length = pre.length + 1
            from by simp] at hihres
          rw [hihres, updateAt_absorb (segsOf p) (.obj dfs) _ hnav hw]
          rw [show patchArr (some a :: xs) (some b :: ys)
              = some (patchVal a b) :: patchArr xs ys from rfl]
          rw [show (some a :: xs).drop
              (min (some a :: xs).length (some b :: ys).length)
              = xs.drop (min xs.length ys.length) from by
            simp only [List.length_cons]
            rw [show min (xs.length + 1) (ys.length + 1)
              = min xs.length ys.length + 1 from by omega,
              List.drop_succ_cons]]
          rw [show (pre ++ [some (patchVal a b)]) ++ patchArr xs ys
              ++ xs.drop (min xs.length ys.length)
              = pre ++ some (patchVal a b) :: patchArr xs ys
              ++ xs.drop (min xs.length ys.length) from by simp]
termination_by sizeOf xs

/-- The source-key loop of the object diff, applied. -/
theorem diff_apply_objsrc (fs gs taken : List (String × JSVal)) (p : String)
    (doc : JSVal) (dfs : List (String × JSVal)) (hdoc : doc = .obj dfs)
    (hwf : wfObj fs = true) (hwg : wfObj gs = true)
    (hc : compatObj fs gs = true)
    (hnd : ((taken ++ fs).map Prod.fst).Nodup)
    (hp : isJsonPointer p = true)
    (hnav : navOK doc (segsOf p) = true)
    (hw : walkGet doc (segsOf p)
      = some (.obj (patchObjSrc taken gs ++ fs))) :
    applyOps doc (diffObjSrc p fs gs)
      = .ok (updateAt (.obj (patchObjSrc taken gs ++ patchObjSrc fs gs))
          doc (segsOf p)) := by
  subst hdoc
  cases fs with
  | nil =>
    rw [show diffObjSrc p [] gs = [] from by rw [diffObjSrc.eq_def],
      applyOps_nil]
    rw [show patchObjSrc ([] : List (String × JSVal)) gs = [] from rfl]
    rw [updateAt_self (segsOf p) _ _ hnav hw]
  | cons f fs =>
    obtain ⟨k, v, hfkv⟩ : ∃ k v, f = (k, v) := ⟨f.1, f.2, rfl⟩
    subst hfkv
    have hwf' : (parseSafeKey k && wfVal v && wfObj fs) = true := hwf
    obtain ⟨hkv, hwfs'⟩ := band_eq_true hwf'
    obtain ⟨hps, hwv⟩ := band_eq_true hkv
    rw [compatObj] at hc
    have hmapnd : (taken.map Prod.fst ++ k :: fs.map Prod.fst).Nodup := by
      simpa using hnd
    obtain ⟨hndA, hndkB, hdisjAB⟩ := List.nodup_append.mp hmapnd
    obtain ⟨hkB, hndB⟩ := List.nodup_cons.mp hndkB
    have hka : k ∉ taken.map Prod.fst := fun hmem =>
      (hdisjAB hmem) (List.mem_cons_self k _)
    have hlktaken : lookupField taken k = none :=
      lookupField_none_of_not_mem hka
    have hlkpatch : lookupField (patchObjSrc taken gs) k = none :=
      lookupField_patchObjSrc_none gs k taken hlktaken
    have hlkfs : lookupField fs k = none := lookupField_none_of_not_mem hkB
    have hlkcur : lookupField (patchObjSrc taken gs ++ (k, v) :: fs) k
        = some v := by
      rw [lookupField_append_none _ _ _ hlkpatch, lookupField, if_pos rfl]
    have hndrec : (((taken ++ [(k, v)]) ++ fs).map Prod.fst).Nodup := by
      rw [show (taken ++ [(k, v)]) ++ fs = taken ++ (k, v) :: fs from by simp]
      exact hnd
    have hseg := segsOf_child p k
    have hpc := isJsonPointer_child p (encodePointer k) hp
    have hwchild : walkGet (.obj dfs) (segsOf (p ++ "/" ++ encodePointer k))
        = some v := by
      rw [hseg, walkGet_append, hw]
      show walkGet (.obj (patchObjSrc taken gs ++ (k, v) :: fs)) [k] = some v
      exact walkGet_obj_single v _ k hlkcur
    rw [diffObjSrc]
    cases hlk : lookupField gs k with
    | none =>
      rw [hlk] at hc
      have hc2 : compatObj fs gs = true := (band_eq_true hc).2
      show applyOps (.obj dfs)
          (({op := "remove", path := p ++ "/" ++ encodePointer k}
            : JsonPatchOperation) :: diffObjSrc p fs gs)
        = .ok (updateAt (.obj (patchObjSrc taken gs
            ++ patchObjSrc ((k, v) :: fs) gs)) (.obj dfs) (segsOf p))
      obtain ⟨w2, hget⟩ := getOp_ok dfs _ hpc v hwchild
      have hremOK : removeOK (.obj dfs)
          (segsOf (p ++ "/" ++ encodePointer k)) = true := by
        rw [hseg]
        exact removeOK_append (segsOf p) _ _ hnav hw _
          (removeOK_obj_final _ k)
      have hrem : removeJsonValueAtPointer (.obj dfs)
          (p ++ "/" ++ encodePointer k)
          = .ok (updateAt (.obj (patchObjSrc taken gs ++ fs)) (.obj dfs)
              (segsOf p)) := by
        rw [removeOp_ok dfs _ hpc (pointer_child_ne_empty p _) hremOK, hseg,
          removeAt_factor (segsOf p) _ _ hnav hw [k] (by simp),
          removeAt_obj_single,
          removeField_append_none _ _ _ hlkpatch,
          removeField_cons_self fs k v hlkfs]
      rw [applyOps_remove_ok _ _ _ w2 _ hpc (by rw [hseg]; simp) hget hrem]
      obtain ⟨dfs2, hdoc2⟩ := updateAt_obj_shape (segsOf p)
        (patchObjSrc taken gs ++ fs) dfs
      obtain ⟨hnav2, hw2a⟩ := updateAt_navOK (segsOf p) (.obj dfs) _ hnav hw
        (.obj (patchObjSrc taken gs ++ fs))
      have hpt : patchObjSrc (taken ++ [(k, v)]) gs
          = patchObjSrc taken gs := by
        rw [patchObjSrc_append_dist,
          show patchObjSrc [(k, v)] gs = [] from by
            rw [patchObjSrc, hlk]; rfl, List.append_nil]
      have hihres := diff_apply_objsrc fs gs (taken ++ [(k, v)]) p _ dfs2
        hdoc2 hwfs' hwg hc2 hndrec hp hnav2 (by rw [hpt]; exact hw2a)
      rw [hihres, updateAt_absorb (segsOf p) (.obj dfs) _ hnav hw, hpt]
      rw [show patchObjSrc ((k, v) :: fs) gs
          = [] ++ patchObjSrc fs gs from by rw [patchObjSrc, hlk],
        List.nil_append]
    | some w =>
      rw [hlk] at hc
      have hc1 : compatV v w = true := (band_eq_true hc).1
      have hc2 : compatObj fs gs = true := (band_eq_true hc).2
      have hwvw : wfVal w = true := wfObj_lookup gs hwg hlk
      show applyOps (.obj dfs)
          (diffWalk (p ++ "/" ++ encodePointer k) (some v) (some w)
            ++ diffObjSrc p fs gs)
        = .ok (updateAt (.obj (patchObjSrc taken gs
            ++ patchObjSrc ((k, v) :: fs) gs)) (.obj dfs) (segsOf p))
      have hchildnav : navOK (.obj dfs) (segsOf p ++ [k]) = true :=
        navOK_append (segsOf p) _ _ hnav hw _
          (navOK_obj_single hps hlkcur)
      have hph := diff_apply_val v w (p ++ "/" ++ encodePointer k) _ dfs rfl
        hwv hwvw hc1 hpc (by rw [hseg]; simp) (by rw [hseg]; exact hchildnav)
        hwchild
      rw [applyOps_bind_ok _ _ _ _ hph]
      have hdoc1 : updateAt (patchVal v w) (.obj dfs)
          (segsOf (p ++ "/" ++ encodePointer k))
          = updateAt (.obj (patchObjSrc taken gs ++ (k, patchVal v w) :: fs))
              (.obj dfs) (segsOf p) := by
        rw [hseg, updateAt_factor (segsOf p) _ _ hnav hw _ _,
          updateAt_obj_single,
          setField_append_none _ _ _ _ hlkpatch, setField, if_pos rfl]
      rw [hdoc1]
      obtain ⟨dfs2, hdoc2⟩ := updateAt_obj_shape (segsOf p)
        (patchObjSrc taken gs ++ (k, patchVal v w) :: fs) dfs
      obtain ⟨hnav2, hw2a⟩ := updateAt_navOK (segsOf p) (.obj dfs) _ hnav hw
        (.obj (patchObjSrc taken gs ++ (k, patchVal v w) :: fs))
      have hpt : patchObjSrc (taken ++ [(k, v)]) gs
          = patchObjSrc taken gs ++ [(k, patchVal v w)] := by
        rw [patchObjSrc_append_dist,
          show patchObjSrc [(k, v)] gs = [(k, patchVal v w)] from by
            rw [patchObjSrc, hlk]; rfl]
      have hwB : walkGet (updateAt
          (.obj (patchObjSrc taken gs ++ (k, patchVal v w) :: fs)) (.obj dfs)
          (segsOf p)) (segsOf p)
          = some (.obj (patchObjSrc (taken ++ [(k, v)]) gs ++ fs)) := by
        rw [hpt, show (patchObjSrc taken gs ++ [(k, patchVal v w)]) ++ fs
            = patchObjSrc taken gs ++ (k, patchVal v w) :: fs from by simp]
        exact hw2a
      have hihres := diff_apply_objsrc fs gs (taken ++ [(k, v)]) p _ dfs2
        hdoc2 hwfs' hwg hc2 hndrec hp hnav2 hwB
      rw [hihres, updateAt_absorb (segsOf p) (.obj dfs) _ hnav hw, hpt]
      rw [show patchObjSrc ((k, v) :: fs) gs
          = [(k, patchVal v w)] ++ patchObjSrc fs gs from by
        rw [patchObjSrc, hlk], List.singleton_append]
      rw [show (patchObjSrc taken gs ++ [(k, patchVal v w)])
            ++ patchObjSrc fs gs
          = patchObjSrc taken gs ++ (k, patchVal v w) :: patchObjSrc fs gs
          from by simp]
termination_by sizeOf fs
decreasing_by
all_goals simp_wf
all_goals subst_vars
all_goals simp only [List.cons.sizeOf_spec, Prod.mk.sizeOf_spec]
all_goals omega

end

/-- Root assembly: on compatible well-formed objects, applying the generated
diff to the source yields exactly the patched value `patchVal`. -/
theorem applyJsonPatch_getJsonDiff (fs gs : List (String × JSVal))
    (hws : wfVal (.obj fs) = true) (hwt : wfVal (.obj gs) = true)
    (hc : compatV (.obj fs) (.obj gs) = true) :
    applyJsonPatch (.obj fs) (getJsonDiff (.obj fs) (.obj gs))
      = .ok (patchVal (.obj fs) (.obj gs)) := by
  rw [applyJsonPatch, jsonDeepCopy_id _ hws, getJsonDiff,
    diffWalk.eq_def, patchVal.eq_def]
  by_cases h1 : deepEquals (.obj fs) (.obj gs) = true
  · rw [if_pos (show deepEqualsU (some (.obj fs)) (some (.obj gs)) = true
      from h1), if_pos h1, applyOps_nil]
  · rw [if_neg (show ¬ deepEqualsU (some (JSVal.obj fs))
        (some (JSVal.obj gs)) = true from h1), if_neg h1]
    rw [compatV.eq_def, if_neg h1] at hc
    have h2 : ¬ (¬ jsTypeof (JSVal.obj fs) = jsTypeof (JSVal.obj gs)
        ∨ JSVal.obj fs = .null ∨ JSVal.obj gs = .null
        ∨ (¬ isJsonObjectB (JSVal.obj fs) ∧ ¬ isJsonArrayB (JSVal.obj fs))
        ∨ (¬ isJsonObjectB (JSVal.obj gs) ∧ ¬ isJsonArrayB (JSVal.obj gs)))
      := by
      simp [jsTypeof, isJsonObjectB, isJsonArrayB, isJsonValueB_eq_true,
        isArray]
    rw [if_neg (fun hU => h2 ((cond_U_iff _ _).mp hU)), if_neg h2]
    rw [if_neg h2] at hc
    have hc' : compatObj fs gs = true := hc
    show applyOps (.obj fs) (diffObjSrc "" fs gs ++ diffObjTgt "" gs fs)
      = .ok (.obj (patchObjSrc fs gs ++ filterNew gs fs))
    rw [wfVal] at hws hwt
    obtain ⟨hndf, hwfs⟩ := band_eq_true hws
    obtain ⟨hndg, hwgs⟩ := band_eq_true hwt
    have hph1 := diff_apply_objsrc fs gs [] "" (.obj fs) fs rfl hwfs hwgs
      hc' (by rw [List.nil_append]; exact of_decide_eq_true hndf) rfl rfl
      rfl
    have hph1b : applyOps (.obj fs) (diffObjSrc "" fs gs)
        = .ok (.obj (patchObjSrc fs gs)) := hph1
    have hdisj : ∀ kv ∈ gs, (lookupField fs kv.1).isSome = false →
        lookupField (patchObjSrc fs gs) kv.1 = none := by
      intro kv _ hmiss
      have hnone : lookupField fs kv.1 = none := by
        cases hx : lookupField fs kv.1
        · rfl
        · rw [hx] at hmiss; cases hmiss
      exact lookupField_patchObjSrc_none gs kv.1 fs hnone
    have hph2 := diff_apply_objtgt gs fs "" (.obj (patchObjSrc fs gs))
      (patchObjSrc fs gs) (patchObjSrc fs gs) rfl hwgs
      (of_decide_eq_true hndg) hdisj rfl rfl rfl
    have hph2b : applyOps (.obj (patchObjSrc fs gs)) (diffObjTgt "" gs fs)
        = .ok (.obj (patchObjSrc fs gs ++ filterNew gs fs)) := hph2
    rw [applyOps_bind_ok _ _ _ _ hph1b, hph2b]

/-- C1 counterexample, two independent failures of the unrestricted law.
First, the source `{"a": []}` and target `{"a": {}}` differ (an array versus
an object under key `a`), yet the generated diff is empty — the array/object
mismatch passes every typeof-based guard and falls through the final
if-chain — so applying it returns the source unchanged, which is not deeply
equal to the target.  Second, on the fully compatible pair `{"01": 1}` and
`{"01": 2}` the diff is the expected single replace at `/01`, but the patch
applier's `set` re-parses the segment `01` to the numeric property `1`
(`Number.isInteger(Number.parseInt('01'))`), and the same loop iteration
that performs the final assignment then navigates-and-creates at that other
property, so the result `{"01": 2, "1": {}}` carries a spurious sibling and
is not deeply equal to the target either — which is why the amended law
needs every key to be parseInt-unambiguous. -/
theorem C1_counterexample :
    (applyJsonPatch (JSVal.obj [("a", JSVal.arr [])])
        (getJsonDiff (JSVal.obj [("a", JSVal.arr [])])
          (JSVal.obj [("a", JSVal.obj [])]))
      = .ok (JSVal.obj [("a", JSVal.arr [])])
    ∧ deepEquals (JSVal.obj [("a", JSVal.arr [])])
        (JSVal.obj [("a", JSVal.obj [])]) = false)
    ∧ (applyJsonPatch (JSVal.obj [("01", JSVal.num 1)])
        (getJsonDiff (JSVal.obj [("01", JSVal.num 1)])
          (JSVal.obj [("01", JSVal.num 2)]))
      = .ok (JSVal.obj [("01", JSVal.num 2), ("1", JSVal.obj [])])
    ∧ deepEquals (JSVal.obj [("01", JSVal.num 2), ("1", JSVal.obj [])])
        (JSVal.obj [("01", JSVal.num 2)]) = false) := by
  have hinner : diffWalk ("" ++ "/" ++ encodePointer "a")
      (some (JSVal.arr [])) (some (JSVal.obj [])) = [] := by
    rw [diffWalk.eq_def]
    rw [if_neg (show ¬ deepEqualsU (some (JSVal.arr []))
        (some (JSVal.obj [])) = true from by decide)]
    rw [if_neg (show ¬ (¬ jsTypeofU (some (JSVal.arr []))
          = jsTypeofU (some (JSVal.obj []))
        ∨ some (JSVal.arr []) = some JSVal.null
        ∨ some (JSVal.obj []) = some JSVal.null
        ∨ (¬ isJsonObjectU (some (JSVal.arr []))
            ∧ ¬ isJsonArrayU (some (JSVal.arr [])))
        ∨ (¬ isJsonObjectU (some (JSVal.obj []))
            ∧ ¬ isJsonArrayU (some (JSVal.obj [])))) from by decide)]
  have hsrc : diffObjSrc "" [("a", JSVal.arr [])] [("a", JSVal.obj [])]
      = [] := by
    rw [diffObjSrc.eq_def]
    show diffWalk ("" ++ "/" ++ encodePointer "a")
        (some (JSVal.arr [])) (some (JSVal.obj []))
      ++ diffObjSrc "" [] [("a", JSVal.obj [])] = []
    rw [hinner, show diffObjSrc "" [] [("a", JSVal.obj [])] = []
      from by rw [diffObjSrc.eq_def]]
    rfl
  have htgt : diffObjTgt "" [("a", JSVal.obj [])] [("a", JSVal.arr [])]
      = [] := by
    rw [diffObjTgt, if_pos (show (lookupField [("a", JSVal.arr [])]
        "a").isSome = true from by decide), List.nil_append, diffObjTgt]
  have hdiff : getJsonDiff (JSVal.obj [("a", JSVal.arr [])])
      (JSVal.obj [("a", JSVal.obj [])]) = [] := by
    rw [getJsonDiff, diffWalk.eq_def]
    rw [if_neg (show ¬ deepEqualsU (some (JSVal.obj [("a", JSVal.arr [])]))
        (some (JSVal.obj [("a", JSVal.obj [])])) = true from by decide)]
    rw [if_neg (show ¬ (¬ jsTypeofU (some (JSVal.obj [("a", JSVal.arr [])]))
          = jsTypeofU (some (JSVal.obj [("a", JSVal.obj [])]))
        ∨ some (JSVal.obj [("a", JSVal.arr [])]) = some JSVal.null
        ∨ some (JSVal.obj [("a", JSVal.obj [])]) = some JSVal.null
        ∨ (¬ isJsonObjectU (some (JSVal.obj [("a", JSVal.arr [])]))
            ∧ ¬ isJsonArrayU (some (JSVal.obj [("a", JSVal.arr [])])))
        ∨ (¬ isJsonObjectU (some (JSVal.obj [("a", JSVal.obj [])]))
            ∧ ¬ isJsonArrayU (some (JSVal.obj [("a", JSVal.obj [])]))))
        from by decide)]
    show diffObjSrc "" [("a", JSVal.arr [])] [("a", JSVal.obj [])]
      ++ diffObjTgt "" [("a", JSVal.obj [])] [("a", JSVal.arr [])] = []
    rw [hsrc, htgt]
    rfl
  have hinner01 : diffWalk ("" ++ "/" ++ encodePointer "01")
      (some (JSVal.num 1)) (some (JSVal.num 2))
      = [{op := "replace", path := "" ++ "/" ++ encodePointer "01",
          value := some (JSVal.num 2)}] := by
    rw [diffWalk.eq_def]
    rw [if_neg (show ¬ deepEqualsU (some (JSVal.num 1))
        (some (JSVal.num 2)) = true from by decide)]
    rw [if_pos (show (¬ jsTypeofU (some (JSVal.num 1))
          = jsTypeofU (some (JSVal.num 2))
        ∨ some (JSVal.num 1) = some JSVal.null
        ∨ some (JSVal.num 2) = some JSVal.null
        ∨ (¬ isJsonObjectU (some (JSVal.num 1))
            ∧ ¬ isJsonArrayU (some (JSVal.num 1)))
        ∨ (¬ isJsonObjectU (some (JSVal.num 2))
            ∧ ¬ isJsonArrayU (some (JSVal.num 2)))) from by decide)]
  have hsrc01 : diffObjSrc "" [("01", JSVal.num 1)] [("01", JSVal.num 2)]
      = [{op := "replace", path := "" ++ "/" ++ encodePointer "01",
          value := some (JSVal.num 2)}] := by
    rw [diffObjSrc.eq_def]
    show diffWalk ("" ++ "/" ++ encodePointer "01")
        (some (JSVal.num 1)) (some (JSVal.num 2))
      ++ diffObjSrc "" [] [("01", JSVal.num 2)] = _
    rw [hinner01, show diffObjSrc "" [] [("01", JSVal.num 2)] = []
      from by rw [diffObjSrc.eq_def]]
    rfl
  have htgt01 : diffObjTgt "" [("01", JSVal.num 2)] [("01", JSVal.num 1)]
      = [] := by
    rw [diffObjTgt, if_pos (show (lookupField [("01", JSVal.num 1)]
        "01").isSome = true from by decide), List.nil_append, diffObjTgt]
  have hdiff01 : getJsonDiff (JSVal.obj [("01", JSVal.num 1)])
      (JSVal.obj [("01", JSVal.num 2)])
      = [{op := "replace", path := "" ++ "/" ++ encodePointer "01",
          value := some (JSVal.num 2)}] := by
    rw [getJsonDiff, diffWalk.eq_def]
    rw [if_neg (show ¬ deepEqualsU (some (JSVal.obj [("01", JSVal.num 1)]))
        (some (JSVal.obj [("01", JSVal.num 2)])) = true from by decide)]
    rw [if_neg (show ¬ (¬ jsTypeofU (some (JSVal.obj [("01", JSVal.num 1)]))
          = jsTypeofU (some (JSVal.obj [("01", JSVal.num 2)]))
        ∨ some (JSVal.obj [("01", JSVal.num 1)]) = some JSVal.null
        ∨ some (JSVal.obj [("01", JSVal.num 2)]) = some JSVal.null
        ∨ (¬ isJsonObjectU (some (JSVal.obj [("01", JSVal.num 1)]))
            ∧ ¬ isJsonArrayU (some (JSVal.obj [("01", JSVal.num 1)])))
        ∨ (¬ isJsonObjectU (some (JSVal.obj [("01", JSVal.num 2)]))
            ∧ ¬ isJsonArrayU (some (JSVal.obj [("01", JSVal.num 2)]))))
        from by decide)]
    show diffObjSrc "" [("01", JSVal.num 1)] [("01", JSVal.num 2)]
      ++ diffObjTgt "" [("01", JSVal.num 2)] [("01", JSVal.num 1)] = _
    rw [hsrc01, htgt01]
    rfl
  refine ⟨⟨?_, by decide⟩, ⟨?_, by decide⟩⟩
  · rw [hdiff]
    rfl
  · rw [hdiff01]
    decide

/-- C1: the claimed diff/patch inverse law holds on the well-formed,
compatible fragment.  `wfVal` demands, at every level: every object key is
parseInt-unambiguous (`parseSafeKey`, ruling out keys like `"01"` that
`set`'s property access renames), keys are not duplicated, arrays have no
holes and stay within the `2^32 - 1` index cap.  `compatV` demands that the
diff walk never pairs an array with an object along a common path.  Under
those hypotheses `applyJsonPatch(a, getJsonDiff(a, b))` succeeds and its
result is deeply equal to `b`.  Both restrictions are needed — see the
counterexample: an array/object mismatch emits no operation at all, and a
parseInt-ambiguous key makes `set` append a spurious sibling. -/
theorem C1_diff_patch_inverse (fs gs : List (String × JSVal))
    (hws : wfVal (.obj fs) = true) (hwt : wfVal (.obj gs) = true)
    (hc : compatV (.obj fs) (.obj gs) = true) :
    ∃ r, applyJsonPatch (.obj fs) (getJsonDiff (.obj fs) (.obj gs)) = .ok r
      ∧ deepEquals r (.obj gs) = true :=
  ⟨patchVal (.obj fs) (.obj gs),
    applyJsonPatch_getJsonDiff fs gs hws hwt hc,
    patchVal_de (.obj fs) (.obj gs) hws hwt hc⟩

/-- C1 witness: the inverse law instantiated on the concrete compatible
objects `{"x": 1, "z": 3}` and `{"x": 2, "y": 4}`. -/
theorem C1_witness :
    wfVal (JSVal.obj [("x", JSVal.num 1), ("z", JSVal.num 3)]) = true
    ∧ wfVal (JSVal.obj [("x", JSVal.num 2), ("y", JSVal.num 4)]) = true
    ∧ compatV (JSVal.obj [("x", JSVal.num 1), ("z", JSVal.num 3)])
        (JSVal.obj [("x", JSVal.num 2), ("y", JSVal.num 4)]) = true
    ∧ ∃ r, applyJsonPatch (JSVal.obj [("x", JSVal.num 1), ("z", JSVal.num 3)])
        (getJsonDiff (JSVal.obj [("x", JSVal.num 1), ("z", JSVal.num 3)])
          (JSVal.obj [("x", JSVal.num 2), ("y", JSVal.num 4)])) = .ok r
      ∧ deepEquals r (JSVal.obj [("x", JSVal.num 2), ("y", JSVal.num 4)])
          = true :=
  ⟨by decide, by decide, by decide,
    C1_diff_patch_inverse [("x", JSVal.num 1), ("z", JSVal.num 3)]
      [("x", JSVal.num 2), ("y", JSVal.num 4)]
      (by decide) (by decide) (by decide)⟩


end JsonUtils
